import Mathlib

/-!
# ART index iterator (`src/execution/index/art/iterator.cpp`)

A shallow embedding of the iterator of the adaptive radix tree index and the
properties of its positioning and scanning operations.

* Bytes (`uint8_t`, `data_t`) are natural numbers.  The 8-bit counters are
  reduced modulo 256 where the source increments or decrements them without a
  test: `nested_depth`, and the counter `byte` of the loop over a byte-set leaf.
  The increment `top.byte++` of `Next` stands behind a test against 255.  Byte
  buffers and the output vector are lists.
* A node is the finite tree it points to; the node layer itself is a
  collaborator of the iterator and is modelled from its contract.
* `D_ASSERT` is compiled out, as in a release build.  What the source does not
  return from is a `Fault`: the `InternalException` of `Scan` and the use of a
  missing child.  The search key of `LowerBound` is read as the source reads it,
  without a test against its length: an `ARTKey` carries the bytes the memory
  holds behind it.
* `FindMinimum`, `Next` and `LowerBound` are total functions by recursion on the
  tree and on the stack.  The `do`-loop of `Scan` and its loop over a byte-set
  leaf take fuel.
* The storage version table of `src/storage/storage_info.cpp` and its two
  lookups are embedded at the end of the definitions; an `optional_idx` is an
  `Option`, the invalid one `none`.
-/

namespace ART

/-! ## IteratorKey -/

/-- The byte buffer `IteratorKey::key_bytes`.  The `len` bytes of an `ARTKey`
are such a list too: `GreaterThan` and `Contains` read their key within its
length. -/
abbrev Bytes := List Nat

/-- The loop of `IteratorKey::GreaterThan` (lines 27-33) at index `i`, with
`n` iterations left (`n + i` is `MinValue(Size(), key.len)`): `some r` when the
loop returns `r`, `none` when it runs to its end. -/
def GreaterThan.loop (key_bytes key : Bytes) : Nat → Nat → Option Bool
  | 0, _ => none
  | n + 1, i =>
    if key_bytes.getD i 0 > key.getD i 0 then some true
    else if key_bytes.getD i 0 < key.getD i 0 then some false
    else GreaterThan.loop key_bytes key n (i + 1)

/-- `IteratorKey::GreaterThan(key, equal)` (lines 26-40). -/
def GreaterThan (key_bytes key : Bytes) (equal : Bool) : Bool :=
  match GreaterThan.loop key_bytes key (min key_bytes.length key.length) 0 with
  | some r => r
  | none =>
    if equal then decide (key_bytes.length > key.length)
    else decide (key_bytes.length ≥ key.length)

/-- The loop of `IteratorKey::Contains` (lines 18-22) at index `i`, with `n`
iterations left (`n + i` is `key.len`): `false` when a byte differs, `true` when
the loop runs to its end. -/
def Contains.loop (key_bytes key : Bytes) : Nat → Nat → Bool
  | 0, _ => true
  | n + 1, i =>
    if key_bytes.getD i 0 ≠ key.getD i 0 then false
    else Contains.loop key_bytes key n (i + 1)

/-- `IteratorKey::Contains(key)` (lines 14-24). -/
def Contains (key_bytes key : Bytes) : Bool :=
  if key_bytes.length < key.length then false
  else Contains.loop key_bytes key key.length 0

/-- `IteratorKey::Push(b)`. -/
def Push (key_bytes : Bytes) (b : Nat) : Bytes := key_bytes ++ [b]

/-- `IteratorKey::Pop(n)`: drops the last `n` bytes.  The source requires
`Size() ≥ n`; on a shorter buffer the model leaves it empty. -/
def Pop (key_bytes : Bytes) (n : Nat) : Bytes := key_bytes.take (key_bytes.length - n)

/-! ## Nodes

The node layer (`node.hpp`, `prefix.hpp`, `leaf.hpp`) is a collaborator of the
iterator; a node is modelled as the finite tree it points to. -/

/-- The node type tag `NType`; `NONE` stands for the type bits of a node
without metadata. -/
inductive NType where
  | NONE | PREFIX | LEAF | NODE_4 | NODE_16 | NODE_48 | NODE_256
  | LEAF_INLINED | NODE_7_LEAF | NODE_15_LEAF | NODE_256_LEAF | PREFIX_INLINED
  deriving DecidableEq, Repr

/-- The internal fan-out layouts. -/
inductive FanOut where
  | n4 | n16 | n48 | n256
  deriving DecidableEq, Repr

/-- The byte-set leaf layouts. -/
inductive ByteLeaf where
  | n7 | n15 | n256
  deriving DecidableEq, Repr

/-- Modelled from the spec: the node variant of section 3 (its declaration,
`node.hpp`, is not part of the sources).  `empty` is a node without metadata;
`pfx` is a `PREFIX` node with its byte string and single child; `inner` is an
internal fan-out node with its children keyed by one byte each, in the order in
which the node stores them; the `gate` flag is what `IsGate()` reports. -/
inductive Node where
  | empty : Node
  | leafInlined (rowId : Int) : Node
  | leaf (rowIds : List Int) : Node
  | byteLeaf (kind : ByteLeaf) (bytes : List Nat) : Node
  | prefixInlined (bytes : List Nat) : Node
  | pfx (gate : Bool) (bytes : List Nat) (child : Node) : Node
  | inner (kind : FanOut) (gate : Bool) (children : List (Nat × Node)) : Node

namespace Node

/-- `Node::HasMetadata()`. -/
def HasMetadata : Node → Bool
  | .empty => false
  | _ => true

/-- `Node::GetType()`. -/
def GetType : Node → NType
  | .empty => .NONE
  | .leafInlined _ => .LEAF_INLINED
  | .leaf _ => .LEAF
  | .byteLeaf .n7 _ => .NODE_7_LEAF
  | .byteLeaf .n15 _ => .NODE_15_LEAF
  | .byteLeaf .n256 _ => .NODE_256_LEAF
  | .prefixInlined _ => .PREFIX_INLINED
  | .pfx _ _ _ => .PREFIX
  | .inner .n4 _ _ => .NODE_4
  | .inner .n16 _ _ => .NODE_16
  | .inner .n48 _ _ => .NODE_48
  | .inner .n256 _ _ => .NODE_256

/-- `Node::IsAnyLeaf()`: the inlined leaf, the legacy leaf, the byte-set leaves
and the inlined prefix. -/
def IsAnyLeaf : Node → Bool
  | .leafInlined _ => true
  | .leaf _ => true
  | .byteLeaf _ _ => true
  | .prefixInlined _ => true
  | _ => false

/-- `Node::IsGate()`. -/
def IsGate : Node → Bool
  | .pfx g _ _ => g
  | .inner _ g _ => g
  | _ => false

end Node

/-- Modelled from the spec: `GetNextChild(byte_inout)` on the children of a
fan-out node, "advances `byte_inout` to the smallest present child byte ≥ input
and returns it, else null".  The children are scanned in stored order (ascending
bytes in a well-formed node) and the first entry with a byte `≥ byte` is
returned together with its byte. -/
def GetNextChild : List (Nat × Node) → Nat → Option (Nat × Node)
  | [], _ => none
  | (b, c) :: rest, byte => if byte ≤ b then some (b, c) else GetNextChild rest byte

/-- Modelled from the spec: `GetNextByte(byte_inout)` on a byte-set leaf, "same
contract, for byte-set leaves": the first stored byte `≥ byte`. -/
def GetNextByte : List Nat → Nat → Option Nat
  | [], _ => none
  | b :: rest, byte => if byte ≤ b then some b else GetNextByte rest byte

/-- Modelled from the spec: `ARTKey::GetRowID()` on the staging buffer, "the
final assembled buffer is interpreted as a big-endian row id". -/
def GetRowID (row_id : List Nat) : Int :=
  Int.ofNat (row_id.foldl (fun acc b => acc * 256 + b) 0)

/-- Modelled from the spec: `Leaf::DeprecatedGetRowIds(node, out, max_count)`,
"streams row ids from legacy `LEAF`; returns false if the output cap would be
exceeded". -/
def DeprecatedGetRowIds (rowIds : List Int) (row_ids : List Int) (max_count : Nat) :
    Bool × List Int :=
  if row_ids.length + rowIds.length > max_count then (false, row_ids)
  else (true, row_ids ++ rowIds)

/-! ## Iterator state -/

/-- A frame `(node, byte)` of the stack `nodes`: a node on the way from the root
and the byte of the child taken last (0 for a `PREFIX` node). -/
structure StackFrame where
  node : Node
  byte : Nat

/-- The fields of `Iterator`.  `nodes` is the stack, its top at the head of the
list; `row_id` is the staging buffer of `sizeof(row_t) = 8` bytes;
`nested_depth` is an 8-bit counter. -/
structure Iterator where
  current_key : Bytes
  nodes : List StackFrame
  last_leaf : Node
  row_id : List Nat
  inside_gate : Bool
  nested_depth : Nat

/-- What the source does not return from: the `InternalException` of `Scan`, the
use of a null child (`*next` after `D_ASSERT(next)`) and a child lookup on a node
that has no children array. -/
inductive Fault where
  | invalidLeafType
  | nullChild
  | invalidNode
  deriving DecidableEq, Repr

/-- A freshly constructed iterator. -/
def Iterator.fresh : Iterator :=
  { current_key := [], nodes := [], last_leaf := .empty,
    row_id := List.replicate 8 0, inside_gate := false, nested_depth := 0 }

/-- The statement `row_id[nested_depth] = b; nested_depth++` guarded by
`inside_gate` (lines 125-128 and 141-144).  A write past the end of the buffer
leaves it unchanged. -/
def mirror (it : Iterator) (b : Nat) : Iterator :=
  if it.inside_gate then
    { it with row_id := it.row_id.set it.nested_depth b,
              nested_depth := (it.nested_depth + 1) % 256 }
  else it

/-- The loop of lines 123-129 over the prefix bytes. -/
def pushPrefix : List Nat → Iterator → Iterator
  | [], it => it
  | b :: rest, it => pushPrefix rest (mirror { it with current_key := Push it.current_key b } b)

/-- The test of lines 114-118: entering a gate. -/
def enterGate (node : Node) (it : Iterator) : Iterator :=
  if node.IsGate then { it with inside_gate := true, nested_depth := 0 } else it

/-! ## FindMinimum, PopNode, Next -/

mutual
/-- `Iterator::FindMinimum(node)` (lines 104-147), by cases on the node: a leaf
is stored in `last_leaf`; a `PREFIX` node pushes its bytes and a frame with byte
0 and recurses into its child; a fan-out node looks up its first child from
byte 0 on. -/
def FindMinimum : Node → Iterator → Except Fault Iterator
  | .empty, _ => .error .invalidNode
  | .leafInlined r, it => .ok { it with last_leaf := .leafInlined r }
  | .leaf rs, it => .ok { it with last_leaf := .leaf rs }
  | .byteLeaf k bs, it => .ok { it with last_leaf := .byteLeaf k bs }
  | .prefixInlined bs, it => .ok { it with last_leaf := .prefixInlined bs }
  | .pfx g bytes child, it =>
    let it1 := pushPrefix bytes (enterGate (.pfx g bytes child) it)
    FindMinimum child { it1 with nodes := ⟨.pfx g bytes child, 0⟩ :: it1.nodes }
  | .inner k g cs, it =>
    FindMinimum.descend (.inner k g cs) cs 0 (enterGate (.inner k g cs) it)
/-- Lines 135-146 with the lookup `GetNextChild(byte)` unfolded over the stored
children of `node`. -/
def FindMinimum.descend (node : Node) : List (Nat × Node) → Nat → Iterator → Except Fault Iterator
  | [], _, _ => .error .nullChild
  | (b, c) :: rest, byte, it =>
    if byte ≤ b then
      let it1 := mirror { it with current_key := Push it.current_key b } b
      FindMinimum c { it1 with nodes := ⟨node, b⟩ :: it1.nodes }
    else FindMinimum.descend node rest byte it
end

/-- The 8-bit subtraction `nested_depth -= n`. -/
def decDepth (d n : Nat) : Nat := (d + 256 - n % 256) % 256

/-- The number of bytes a frame's node contributed to `current_key`: all prefix
bytes of a `PREFIX` node (`prefix.data[Prefix::Count(art)]`), one byte
otherwise. -/
def Node.keyBytes : Node → Nat
  | .pfx _ bytes _ => bytes.length
  | _ => 1

/-- `Iterator::PopNode()` (lines 261-286).  It is only called on a non-empty
stack; on an empty one the model changes nothing. -/
def PopNode (it : Iterator) : Iterator :=
  match it.nodes with
  | [] => it
  | top :: rest =>
    let inside_gate := if top.node.IsGate then false else it.inside_gate
    { it with
      inside_gate := inside_gate
      current_key := Pop it.current_key top.node.keyBytes
      nested_depth :=
        if inside_gate then decDepth it.nested_depth top.node.keyBytes else it.nested_depth
      nodes := rest }

/-- The child lookup `top.node.GetNextChild(art, byte)` on a stack frame's
node; only fan-out nodes have children. -/
def Node.GetNextChild : Node → Nat → Except Fault (Option (Nat × Node))
  | .inner _ _ cs, byte => .ok (ART.GetNextChild cs byte)
  | _, _ => .error .invalidNode

/-- Lines 249-253: the top byte of `current_key` (and of `row_id` inside a gate)
is replaced and the new byte is kept in the top frame. -/
def replaceTop (it : Iterator) (top : StackFrame) (rest : List StackFrame) (b : Nat) : Iterator :=
  { it with
    nodes := ⟨top.node, b⟩ :: rest
    current_key := Push (Pop it.current_key 1) b
    row_id :=
      if it.inside_gate then
        (if it.nested_depth = 0 then it.row_id else it.row_id.set (it.nested_depth - 1) b)
      else it.row_id }

/-- The loop of `Iterator::Next()` (lines 224-258) over the stack `nodes`, which
is passed as the first argument (it is `it.nodes` at every iteration). -/
def Next.go : List StackFrame → Iterator → Except Fault (Bool × Iterator)
  | [], it => .ok (false, it)
  | top :: rest, it =>
    if top.node.GetType = NType.PREFIX then Next.go rest (PopNode it)
    else if top.byte = 255 then Next.go rest (PopNode it)
    else
      match top.node.GetNextChild (top.byte + 1) with
      | .error e => .error e
      | .ok none => Next.go rest (PopNode it)
      | .ok (some (b, next_node)) =>
        match FindMinimum next_node (replaceTop it top rest b) with
        | .error e => .error e
        | .ok it1 => .ok (true, it1)

/-- `Iterator::Next()` (lines 223-259). -/
def Next (it : Iterator) : Except Fault (Bool × Iterator) := Next.go it.nodes it

/-! ## LowerBound -/

/-- Modelled from the spec: `ARTKey`, "a byte-addressable sequence of length
`len` with raw pointer `data` (owned externally)": the `len` bytes of the key,
and what the memory at `data` holds behind them, `behind i` being
`data[len + i]`. -/
structure ARTKey where
  bytes : Bytes
  behind : Nat → Nat

/-- Modelled from the spec: the read `key[i]` of the byte at `data + i` (lines
172, 205 and 212), which tests `i` against `key.len` nowhere: a byte of the key,
or the byte the memory holds at `i`, past its end. -/
def ARTKey.get (key : ARTKey) (i : Nat) : Nat :=
  match key.bytes[i]? with
  | some b => b
  | none => key.behind (i - key.bytes.length)

/-- The key with the bytes `bytes` and the byte `b` all over the memory behind
it. -/
def ARTKey.of (bytes : Bytes) (b : Nat) : ARTKey := { bytes := bytes, behind := fun _ => b }

/-- Lines 158-167: the node reached is a leaf or a gate. -/
def LowerBound.atLeafOrGate (node : Node) (it : Iterator) (key : ARTKey) (equal : Bool) :
    Except Fault (Bool × Iterator) :=
  if !equal && Contains it.current_key key.bytes then Next it
  else if node.IsGate then
    match FindMinimum node it with
    | .error e => .error e
    | .ok it1 => .ok (true, it1)
  else .ok (true, { it with last_leaf := node })

/-- The loop of lines 201-216 over the prefix bytes, `pos` being `depth + i`:
`lt` when a prefix byte is less than its key byte, `gt` when one is greater,
`eq` when the loop runs to its end. -/
def comparePrefix : List Nat → ARTKey → Nat → Ordering
  | [], _, _ => .eq
  | p :: rest, key, pos =>
    if p < key.get pos then .lt
    else if p > key.get pos then .gt
    else comparePrefix rest key (pos + 1)

/-- The loop of lines 195-197: all prefix bytes are pushed onto `current_key`. -/
def pushAll : List Nat → Bytes → Bytes
  | [], key_bytes => key_bytes
  | b :: rest, key_bytes => pushAll rest (Push key_bytes b)

mutual
/-- `Iterator::LowerBound(node, key, equal, depth)` (lines 149-221), by cases on
the node. -/
def LowerBound : Node → Iterator → ARTKey → Bool → Nat → Except Fault (Bool × Iterator)
  | .empty, it, _, _, _ => .ok (false, it)
  | .leafInlined r, it, key, equal, _ => LowerBound.atLeafOrGate (.leafInlined r) it key equal
  | .leaf rs, it, key, equal, _ => LowerBound.atLeafOrGate (.leaf rs) it key equal
  | .byteLeaf k bs, it, key, equal, _ => LowerBound.atLeafOrGate (.byteLeaf k bs) it key equal
  | .prefixInlined bs, it, key, equal, _ => LowerBound.atLeafOrGate (.prefixInlined bs) it key equal
  | .pfx g bytes child, it, key, equal, depth =>
    if g then LowerBound.atLeafOrGate (.pfx g bytes child) it key equal
    else
      let it1 : Iterator :=
        { it with current_key := pushAll bytes it.current_key
                  nodes := ⟨.pfx g bytes child, 0⟩ :: it.nodes }
      match comparePrefix bytes key depth with
      | .lt => Next it1
      | .gt =>
        match FindMinimum child it1 with
        | .error e => .error e
        | .ok it2 => .ok (true, it2)
      | .eq => LowerBound child it1 key equal (depth + bytes.length)
  | .inner k g cs, it, key, equal, depth =>
    if g then LowerBound.atLeafOrGate (.inner k g cs) it key equal
    else
      LowerBound.descend (.inner k g cs) (key.get depth) cs it key equal depth
/-- Lines 173-190 with the lookup `GetNextChild(next_byte)` unfolded over the
stored children of `node`; `kb` is `key[depth]`. -/
def LowerBound.descend (node : Node) (kb : Nat) :
    List (Nat × Node) → Iterator → ARTKey → Bool → Nat → Except Fault (Bool × Iterator)
  | [], it, _, _, _ => Next it
  | (b, c) :: rest, it, key, equal, depth =>
    if kb ≤ b then
      let it1 : Iterator :=
        { it with current_key := Push it.current_key b, nodes := ⟨node, b⟩ :: it.nodes }
      if b > kb then
        match FindMinimum c it1 with
        | .error e => .error e
        | .ok it2 => .ok (true, it2)
      else LowerBound c it1 key equal (depth + 1)
    else LowerBound.descend node kb rest it key equal depth
end

/-! ## Scan -/

/-- The loop of lines 71-83 over a byte-set leaf, started at `byte`.  The result
is `none` when `fuel` iterations do not finish it, else the flag "cap not hit"
(`false` is the `return false` of line 74), the staging buffer and the output.
`GetNextByte` stores the byte it finds in the counter `byte`, a `uint8_t`, and
`byte++` of line 82 is an addition modulo 256. -/
def Scan.byteLoop (bytes : List Nat) (max_count : Nat) :
    Nat → Nat → List Nat → List Int → Option (Bool × List Nat × List Int)
  | 0, _, _, _ => none
  | fuel + 1, byte, row_id, row_ids =>
    match GetNextByte bytes byte with
    | none => some (true, row_id, row_ids)
    | some b =>
      if row_ids.length + 1 > max_count then some (false, row_id, row_ids)
      else
        let row_id1 := row_id.set 7 b
        let row_ids1 := row_ids ++ [GetRowID row_id1]
        if b = 255 then some (true, row_id1, row_ids1)
        else Scan.byteLoop bytes max_count fuel ((b + 1) % 256) row_id1 row_ids1

/-- The values the counter `byte` takes at `byte++` (line 82) while the loop of
lines 71-83 runs from `byte`, in the order in which it takes them. -/
def Scan.byteLoop.counter (bytes : List Nat) (max_count : Nat) :
    Nat → Nat → List Nat → List Int → List Nat
  | 0, _, _, _ => []
  | fuel + 1, byte, row_id, row_ids =>
    match GetNextByte bytes byte with
    | none => []
    | some b =>
      if row_ids.length + 1 > max_count then []
      else
        let row_id1 := row_id.set 7 b
        let row_ids1 := row_ids ++ [GetRowID row_id1]
        if b = 255 then []
        else (b + 1) % 256 ::
          Scan.byteLoop.counter bytes max_count fuel ((b + 1) % 256) row_id1 row_ids1

/-- The loop of lines 88-90: `row_id[i + nested_depth] = prefix.data[i]`, `pos`
being `i + nested_depth`. -/
def Scan.copyPrefix : List Nat → Nat → List Nat → List Nat
  | [], _, row_id => row_id
  | p :: rest, pos, row_id => Scan.copyPrefix rest (pos + 1) (row_id.set pos p)

/-- What one pass through the body of the `do`-loop of `Scan` leaves behind. -/
inductive ScanStep where
  | ret (result : Bool) (it : Iterator) (row_ids : List Int)
  | next (it : Iterator) (row_ids : List Int)
  | throw (e : Fault) (row_ids : List Int)
  | stuck

/-- Lines 56-97: the `switch` on the type of `last_leaf`.  `ret false` is a
`return false`, `next` a `break` out of the switch, `throw` the
`InternalException` with the output vector as it is when the exception leaves
`Scan` (the vector is passed by reference), `stuck` a byte loop that did not
finish. -/
def Scan.emit (it : Iterator) (max_count : Nat) (row_ids : List Int) : ScanStep :=
  match it.last_leaf with
  | .leafInlined r =>
    if row_ids.length + 1 > max_count then .ret false it row_ids
    else .next it (row_ids ++ [r])
  | .leaf rs =>
    match DeprecatedGetRowIds rs row_ids max_count with
    | (false, out) => .ret false it out
    | (true, out) => .next it out
  | .byteLeaf _ bytes =>
    match Scan.byteLoop bytes max_count 257 0 it.row_id row_ids with
    | none => .stuck
    | some (false, row_id, out) => .ret false { it with row_id := row_id } out
    | some (true, row_id, out) => .next { it with row_id := row_id } out
  | .prefixInlined bytes =>
    let row_id := Scan.copyPrefix bytes it.nested_depth it.row_id
    .next { it with row_id := row_id } (row_ids ++ [GetRowID row_id])
  | _ => .throw .invalidLeafType row_ids

/-- One pass through the body of the `do`-loop (lines 49-97): the upper-bound
test, then the `switch`. -/
def Scan.body (it : Iterator) (upper_bound : Bytes) (max_count : Nat) (row_ids : List Int)
    (equal : Bool) : ScanStep :=
  if !upper_bound.isEmpty && !it.inside_gate && GreaterThan it.current_key upper_bound equal then
    .ret true it row_ids
  else Scan.emit it max_count row_ids

/-- `Iterator::Scan(upper_bound, max_count, row_ids, equal)` (lines 46-102).  The
`do`-loop runs at most `fuel` times; the result is `none` when that does not
finish it, else the thrown fault with the output vector it leaves behind, or the
returned flag with the iterator and the output vector. -/
def Scan : Nat → Iterator → Bytes → Nat → List Int → Bool →
    Option (Except (Fault × List Int) (Bool × Iterator × List Int))
  | 0, _, _, _, _, _ => none
  | fuel + 1, it, upper_bound, max_count, row_ids, equal =>
    match Scan.body it upper_bound max_count row_ids equal with
    | .ret r it1 out => some (.ok (r, it1, out))
    | .throw e out => some (.error (e, out))
    | .stuck => none
    | .next it1 out =>
      match Next it1 with
      | .error e => some (.error (e, out))
      | .ok (false, it2) => some (.ok (true, it2, out))
      | .ok (true, it2) => Scan fuel it2 upper_bound max_count out equal

/-! ## Orders and tree contents -/

/-- The strict unsigned lexicographic order on byte strings; a proper prefix is
smaller than its extension. -/
abbrev LexLt (a b : Bytes) : Prop := List.Lex (· < ·) a b

mutual
/-- The leaves below a node in stored order, each with the byte path that leads
from the node to it: the bytes of the `PREFIX` nodes and the child bytes of the
fan-out nodes passed on the way. -/
def Node.paths : Node → List (Bytes × Node)
  | .empty => []
  | .leafInlined r => [([], .leafInlined r)]
  | .leaf rs => [([], .leaf rs)]
  | .byteLeaf k bs => [([], .byteLeaf k bs)]
  | .prefixInlined bs => [([], .prefixInlined bs)]
  | .pfx _ bytes child => (Node.paths child).map (fun x => (bytes ++ x.1, x.2))
  | .inner _ _ cs => Node.pathsOf cs
/-- The leaves below a list of children, each path starting with the child's
byte. -/
def Node.pathsOf : List (Nat × Node) → List (Bytes × Node)
  | [] => []
  | (b, c) :: rest => (Node.paths c).map (fun x => (b :: x.1, x.2)) ++ Node.pathsOf rest
end

/-- Bytes in strictly ascending order, none above 255. -/
def ascending : List Nat → Bool
  | [] => true
  | [b] => decide (b ≤ 255)
  | a :: b :: rest => decide (a < b) && ascending (b :: rest)

mutual
/-- Well-formed trees: every node has metadata, every fan-out node has at least
one child, and children and byte sets are stored in strictly ascending byte
order. -/
def Node.WF : Node → Bool
  | .empty => false
  | .leafInlined _ => true
  | .leaf _ => true
  | .byteLeaf _ bs => ascending bs
  | .prefixInlined _ => true
  | .pfx _ _ child => Node.WF child
  | .inner _ _ cs => !cs.isEmpty && ascending (cs.map Prod.fst) && Node.WFs cs
/-- Every child in the list is well-formed. -/
def Node.WFs : List (Nat × Node) → Bool
  | [] => true
  | (_, c) :: rest => Node.WF c && Node.WFs rest
end

/-- The bytes a stack frame contributed to `current_key`: the prefix bytes of a
`PREFIX` node, the frame's byte otherwise. -/
def StackFrame.contrib (f : StackFrame) : Bytes :=
  match f.node with
  | .pfx _ bytes _ => bytes
  | _ => [f.byte]

/-- The byte path spelled by a stack, bottom to top. -/
def base : List StackFrame → Bytes
  | [] => []
  | f :: rest => base rest ++ f.contrib

/-- The leaves a frame has not yet visited: those below the children of its node
with a byte greater than the frame's byte, with paths from the frame's node. -/
def frameRest (f : StackFrame) : List (Bytes × Node) :=
  match f.node with
  | .inner _ _ cs => Node.pathsOf (cs.filter (fun x => decide (f.byte < x.1)))
  | _ => []

/-- A path below a position whose own path is `p`, made absolute. -/
def under (p : Bytes) (x : Bytes × Node) : Bytes × Node := (p ++ x.1, x.2)

/-- The leaves a stack has not yet visited, in the order of their visit, with
paths from the root. -/
def pending : List StackFrame → List (Bytes × Node)
  | [] => []
  | f :: rest => (frameRest f).map (under (base rest)) ++ pending rest

/-- A frame holds a well-formed node that is not a leaf. -/
def frameOK (f : StackFrame) : Bool := f.node.WF && !f.node.IsAnyLeaf

/-- Every frame of the stack holds a well-formed node that is not a leaf. -/
def StackWF (s : List StackFrame) : Prop := ∀ f ∈ s, frameOK f = true

instance (s : List StackFrame) : Decidable (StackWF s) := by
  unfold StackWF
  infer_instance

/-- The iterator stands on the leaf `hd`: `last_leaf` is its node, `current_key`
and the stack spell its path, and the stack has the leaves `pend` left to
visit. -/
structure At (it : Iterator) (hd : Bytes × Node) (pend : List (Bytes × Node)) : Prop where
  leaf : it.last_leaf = hd.2
  key : it.current_key = hd.1
  wf : StackWF it.nodes
  sync : base it.nodes = hd.1
  rest : pending it.nodes = pend

/-- The value of an `Except` that did not fail, `d` otherwise. -/
def okOr {α : Type} (d : α) : Except Fault α → α
  | .ok a => a
  | .error _ => d

/-- The positions `(current_key, last_leaf)` that the iterator takes from `it`
on when `Next` is called until it returns false; `none` when a call fails or
`fuel` calls do not reach the end. -/
def visited : Nat → Iterator → Option (List (Bytes × Node))
  | 0, _ => none
  | fuel + 1, it =>
    match Next it with
    | .error _ => none
    | .ok (false, _) => some [(it.current_key, it.last_leaf)]
    | .ok (true, it1) =>
      match visited fuel it1 with
      | none => none
      | some l => some ((it.current_key, it.last_leaf) :: l)

/-- `FindMinimum(root)` on a fresh iterator followed by `Next` until it returns
false: the positions taken. -/
def walk (fuel : Nat) (root : Node) : Option (List (Bytes × Node)) :=
  match FindMinimum root Iterator.fresh with
  | .error _ => none
  | .ok it => visited fuel it

/-- The row-id subtree of the example tree: a gate whose three row ids differ in
their last byte. -/
def demoGate : Node := .pfx true [0, 0, 0, 0, 0, 0, 0] (.byteLeaf .n7 [100, 101, 102])

/-- An example tree: keys `01 02`, `01 03` and `02 00` with one row id each and
the key `09` with the row ids 100, 101 and 102 in a gate. -/
def demoTree : Node :=
  .inner .n4 false
    [ (1, .inner .n4 false [(2, .leafInlined 10), (3, .leafInlined 20)]),
      (2, .inner .n4 false [(0, .leafInlined 40)]),
      (9, demoGate) ]

/-- The example tree's iterator after `FindMinimum(root)`. -/
def demoStart : Iterator := okOr Iterator.fresh (FindMinimum demoTree Iterator.fresh)

/-- What a caller sees of a `Scan` that returned: the flag and the output
vector. -/
def resultOf : Option (Except (Fault × List Int) (Bool × Iterator × List Int)) →
    Option (Bool × List Int)
  | some (.ok (r, _, out)) => some (r, out)
  | _ => none

/-- The iterator a `Scan` that returned leaves behind, `d` otherwise. -/
def stateOf (d : Iterator) :
    Option (Except (Fault × List Int) (Bool × Iterator × List Int)) → Iterator
  | some (.ok (_, it, _)) => it
  | _ => d

/-- A tree with the single key `07` and one row id. -/
def singleTree : Node := .pfx false [7] (.leafInlined 10)

/-- The single-key tree's iterator after `FindMinimum(root)`. -/
def singleStart : Iterator := okOr Iterator.fresh (FindMinimum singleTree Iterator.fresh)

/-- The single-key tree's iterator after a `Scan` without upper bound has
emitted its row id and returned true. -/
def singleExhausted : Iterator := stateOf Iterator.fresh (Scan 2 singleStart [] 5 [] true)

/-- A gate whose two row ids 5 and 263 end in inlined prefixes. -/
def inlinedGate : Node :=
  .pfx true [0, 0, 0, 0, 0, 0]
    (.inner .n4 false [(0, .prefixInlined [5]), (1, .prefixInlined [7])])

/-- A tree with the key `04`, whose two row ids are stored in `inlinedGate`. -/
def inlinedTree : Node := .inner .n4 false [(4, inlinedGate)]

/-- The iterator of `inlinedTree` after `FindMinimum(root)`. -/
def inlinedStart : Iterator := okOr Iterator.fresh (FindMinimum inlinedTree Iterator.fresh)

mutual
/-- The predicate `p` holds of the node and of every node below it. -/
def Node.all (p : Node → Bool) : Node → Bool
  | .empty => p .empty
  | .leafInlined r => p (.leafInlined r)
  | .leaf rs => p (.leaf rs)
  | .byteLeaf k bs => p (.byteLeaf k bs)
  | .prefixInlined bs => p (.prefixInlined bs)
  | .pfx g bytes child => p (.pfx g bytes child) && Node.all p child
  | .inner k g cs => p (.inner k g cs) && Node.allOf p cs
/-- The predicate `p` holds of every node below the children of the list. -/
def Node.allOf (p : Node → Bool) : List (Nat × Node) → Bool
  | [] => true
  | (_, c) :: rest => Node.all p c && Node.allOf p rest
end

/-- The predicate `p` holds of every node the iterator refers to: of `last_leaf`,
of the nodes of its stack and of every node below them. -/
def Iterator.all (p : Node → Bool) (it : Iterator) : Prop :=
  it.last_leaf.all p = true ∧ ∀ f ∈ it.nodes, f.node.all p = true

instance (p : Node → Bool) (it : Iterator) : Decidable (Iterator.all p it) := by
  unfold Iterator.all
  infer_instance

/-- The node is not a byte-set leaf. -/
def Node.notByteLeaf : Node → Bool
  | .byteLeaf _ _ => false
  | _ => true

/-- The caller's loop of the resumption property: `Scan` is called with one cap
after the other, each time on a drained output vector, until it returns true;
the result is `none` when a call fails, else the last flag (false when the caps
run out first), the iterator and the concatenated output. -/
def ScanCapped (fuel : Nat) : List Nat → Iterator → Bytes → Bool →
    Option (Bool × Iterator × List Int)
  | [], it, _, _ => some (false, it, [])
  | cap :: caps, it, upper_bound, equal =>
    match Scan fuel it upper_bound cap [] equal with
    | some (.ok (true, it1, out)) => some (true, it1, out)
    | some (.ok (false, it1, out)) =>
      match ScanCapped fuel caps it1 upper_bound equal with
      | some (r, it2, out2) => some (r, it2, out ++ out2)
      | none => none
    | _ => none

/-- The cap that stands for "no cap": the largest `idx_t`. -/
def unlimited : Nat := 2 ^ 64 - 1

/-- What a caller sees of the capped calls: the last flag and the concatenated
output. -/
def cappedResult : Option (Bool × Iterator × List Int) → Option (Bool × List Int)
  | some (r, _, out) => some (r, out)
  | none => none

/-- The example tree without its gate: keys `01 02`, `01 03` and `02 00` with one
row id each. -/
def plainTree : Node :=
  .inner .n4 false
    [ (1, .inner .n4 false [(2, .leafInlined 10), (3, .leafInlined 20)]),
      (2, .inner .n4 false [(0, .leafInlined 40)]) ]

/-- The iterator of `plainTree` after `FindMinimum(root)`. -/
def plainStart : Iterator := okOr Iterator.fresh (FindMinimum plainTree Iterator.fresh)

/-- A leaf of a tree with the key it is stored under (the bytes from the root to
the leaf or to the gate above it) and the bytes from the gate to the leaf. -/
structure LeafPos where
  key : Bytes
  sub : Bytes
  node : Node

/-- A leaf seen from one node further up, which contributes `bytes`: at or below
a gate the bytes belong to the row id, elsewhere to the key. -/
def LeafPos.extend (gate : Bool) (bytes : Bytes) (x : LeafPos) : LeafPos :=
  if gate then { key := [], sub := bytes ++ (x.key ++ x.sub), node := x.node }
  else { key := bytes ++ x.key, sub := x.sub, node := x.node }

mutual
/-- The leaves below a node in stored order, with their keys. -/
def Node.leaves : Node → List LeafPos
  | .empty => []
  | .leafInlined r => [{ key := [], sub := [], node := .leafInlined r }]
  | .leaf rs => [{ key := [], sub := [], node := .leaf rs }]
  | .byteLeaf k bs => [{ key := [], sub := [], node := .byteLeaf k bs }]
  | .prefixInlined bs => [{ key := [], sub := [], node := .prefixInlined bs }]
  | .pfx g bytes child => (Node.leaves child).map (LeafPos.extend g bytes)
  | .inner _ g cs => Node.leavesOf g cs
/-- The leaves below the children of a fan-out node with gate flag `g`. -/
def Node.leavesOf (g : Bool) : List (Nat × Node) → List LeafPos
  | [] => []
  | (b, c) :: rest => (Node.leaves c).map (LeafPos.extend g [b]) ++ Node.leavesOf g rest
end

/-- The byte path from the root to a leaf. -/
def LeafPos.path (x : LeafPos) : Bytes := x.key ++ x.sub

/-- The row ids a leaf stands for: those it stores outside a gate; below a gate
one per byte of a byte-set leaf, or the one completed by an inlined prefix, each
decoded from the bytes between the gate and the leaf and the leaf's own. -/
def LeafPos.rows (x : LeafPos) : List Int :=
  match x.node with
  | .leafInlined r => [r]
  | .leaf rs => rs
  | .byteLeaf _ bs => bs.map (fun b => GetRowID (x.sub ++ [b]))
  | .prefixInlined bs => [GetRowID (x.sub ++ bs)]
  | _ => []

/-- The pairs `(key, row id)` a tree stores, in key order. -/
def Node.rows (n : Node) : List (Bytes × Int) :=
  ((Node.leaves n).map (fun x => x.rows.map (fun r => (x.key, r)))).flatten

/-- The key `k` meets the lower bound `key`: `k ≥ key` in the unsigned
lexicographic order when `equal`, `k > key` otherwise. -/
def aboveBound (key : Bytes) (equal : Bool) (k : Bytes) : Bool :=
  if equal then !decide (LexLt k key) else decide (LexLt key k)

/-- A leaf as a position of the iterator: its byte path below `p` and its
node. -/
def LeafPos.pos (p : Bytes) (x : LeafPos) : Bytes × Node := (p ++ x.path, x.node)

/-- The search key is prefix-free against the keys of the leaves `ls`: none of
them is a proper prefix of it, so that the search ends at a leaf or gate only
with all of its bytes consumed (the assertion `current_key.Size() == key.len` of
line 157), and it is a proper prefix of none of them, so that the search reads
no byte past its end. -/
def keyFits (key : Bytes) (ls : List LeafPos) : Prop :=
  ∀ x ∈ ls, (x.key <+: key ∨ key <+: x.key) → x.key = key

instance (key : Bytes) (ls : List LeafPos) : Decidable (keyFits key ls) := by
  unfold keyFits
  infer_instance

/-- The two ways in which `LowerBound` ends below a node whose leaves meeting
the lower bound are `cand`: as `Next` does from the position above, when none
does; and positioned on the first of them with the others and the leaves pending
above left to visit. -/
def LowerBoundEnds (res : Except Fault (Bool × Iterator)) (it : Iterator)
    (cand : List LeafPos) : Prop :=
  (cand = [] ∧ res = Next it) ∨
  (∃ hd tl it1, cand = hd :: tl ∧ res = .ok (true, it1) ∧
    At it1 (hd.pos it.current_key) (tl.map (LeafPos.pos it.current_key) ++ pending it.nodes))

/-- The flag `LowerBound` returned, `none` when it did not return. -/
def flagOf : Except Fault (Bool × Iterator) → Option Bool
  | .ok (r, _) => some r
  | .error _ => none

/-- Two leaves in the order of their keys: the same key (leaves of one gate) or
a strictly smaller one first. -/
def keyLe (x y : LeafPos) : Prop := x.key = y.key ∨ LexLt x.key y.key

/-- The leaf types the `switch` of `Scan` has a case for. -/
def validLeafType : NType → Bool
  | .LEAF_INLINED => true
  | .LEAF => true
  | .NODE_7_LEAF => true
  | .NODE_15_LEAF => true
  | .NODE_256_LEAF => true
  | .PREFIX_INLINED => true
  | _ => false

/-- The staging buffer after the bytes `bs` have been written, one after the
other, into its last cell `row_id[7]`. -/
def stageLast (row_id : List Nat) (bs : List Nat) : List Nat :=
  bs.foldl (fun r b => r.set 7 b) row_id

/-- An iterator standing on a byte-set leaf with the bytes 3 and 255. -/
def byteLeafStart : Iterator :=
  { Iterator.fresh with last_leaf := .byteLeaf .n7 [3, 255], inside_gate := true,
                        nested_depth := 7 }

/-- What a descent to the smallest leaf below a node leaves behind: the frames
it pushed (the last pushed first), the bytes it appended to the key and the leaf
it reached. -/
structure Descent where
  frames : List StackFrame
  key : Bytes
  leaf : Node

mutual
/-- The descent that takes, at each fan-out node, the child with the smallest
byte and, at each `PREFIX` node, its single child: one frame per node passed,
with byte 0 for a `PREFIX` node and the byte of the child taken otherwise. -/
def Node.descent : Node → Option Descent
  | .empty => none
  | .leafInlined r => some { frames := [], key := [], leaf := .leafInlined r }
  | .leaf rs => some { frames := [], key := [], leaf := .leaf rs }
  | .byteLeaf k bs => some { frames := [], key := [], leaf := .byteLeaf k bs }
  | .prefixInlined bs => some { frames := [], key := [], leaf := .prefixInlined bs }
  | .pfx g bytes child =>
    match Node.descent child with
    | none => none
    | some d =>
      some { frames := d.frames ++ [⟨.pfx g bytes child, 0⟩], key := bytes ++ d.key, leaf := d.leaf }
  | .inner k g cs =>
    match Node.descentMin cs with
    | none => none
    | some (b, d) =>
      some { frames := d.frames ++ [⟨.inner k g cs, b⟩], key := b :: d.key, leaf := d.leaf }
/-- The smallest byte among the children and the descent below the child that
has it. -/
def Node.descentMin : List (Nat × Node) → Option (Nat × Descent)
  | [] => none
  | (b, c) :: rest =>
    match Node.descentMin rest with
    | some (b1, d1) =>
      if b ≤ b1 then
        match Node.descent c with
        | none => none
        | some d => some (b, d)
      else some (b1, d1)
    | none =>
      match Node.descent c with
      | none => none
      | some d => some (b, d)
end

/-! ## The storage version table (`storage_info.cpp`) -/

/-- The entries of `storage_version_info` before the `{nullptr, 0}` terminator:
a version name and its storage version. -/
def storage_version_info : List (String × Nat) :=
  [("v0.0.4", 1), ("v0.1.0", 1), ("v0.1.1", 1), ("v0.1.2", 1), ("v0.1.3", 1), ("v0.1.4", 1),
   ("v0.1.5", 1), ("v0.1.6", 1), ("v0.1.7", 1), ("v0.1.8", 1), ("v0.1.9", 1), ("v0.2.0", 1),
   ("v0.2.1", 1), ("v0.2.2", 4), ("v0.2.3", 6), ("v0.2.4", 11), ("v0.2.5", 13), ("v0.2.6", 15),
   ("v0.2.7", 17), ("v0.2.8", 18), ("v0.2.9", 21), ("v0.3.0", 25), ("v0.3.1", 27),
   ("v0.3.2", 31), ("v0.3.3", 33), ("v0.3.4", 33), ("v0.3.5", 33), ("v0.4.0", 33),
   ("v0.5.0", 38), ("v0.5.1", 38), ("v0.6.0", 39), ("v0.6.1", 39), ("v0.7.0", 43),
   ("v0.7.1", 43), ("v0.8.0", 51), ("v0.8.1", 51), ("v0.9.0", 64), ("v0.9.1", 64),
   ("v0.9.2", 64), ("v0.10.0", 64), ("v0.10.1", 64), ("v0.10.2", 64)]

/-- The loop of `GetStorageVersion` over the entries that are left: the storage
version of the first entry whose name compares equal, the invalid
`optional_idx` (`none`) when the terminator is reached. -/
def GetStorageVersion.loop : List (String × Nat) → String → Option Nat
  | [], _ => none
  | (version_name, storage_version) :: rest, version_string =>
    if version_name = version_string then some storage_version
    else GetStorageVersion.loop rest version_string

/-- `GetStorageVersion(version_string)`. -/
def GetStorageVersion (version_string : String) : Option Nat :=
  GetStorageVersion.loop storage_version_info version_string

/-- The first loop of `GetDuckDBVersion`: the names of the entries with the
storage version `version_number`, in table order. -/
def GetDuckDBVersion.collect : List (String × Nat) → Nat → List String
  | [], _ => []
  | (version_name, storage_version) :: rest, version_number =>
    if version_number = storage_version then
      version_name :: GetDuckDBVersion.collect rest version_number
    else GetDuckDBVersion.collect rest version_number

/-- The second loop of `GetDuckDBVersion` at index `i`, over the names from
`versions[i]` on; `size` is `versions.size()`. -/
def GetDuckDBVersion.loop (size : Nat) : Nat → List String → String → String
  | _, [], result => result
  | i, v :: rest, result =>
    let sep := if i ≠ 0 then (if i + 1 = size then " or " else ", ") else ""
    GetDuckDBVersion.loop size (i + 1) rest ((result ++ sep) ++ v)

/-- `GetDuckDBVersion(version_number)`. -/
def GetDuckDBVersion (version_number : Nat) : String :=
  let versions := GetDuckDBVersion.collect storage_version_info version_number
  if versions.isEmpty then "" else GetDuckDBVersion.loop versions.length 0 versions ""

/-- The names of the table that share the storage version `v`, in table order. -/
def sharing (v : Nat) : List String :=
  (storage_version_info.filter (fun p => p.2 = v)).map Prod.fst

/-- What follows the first name of a formatted list: `", "` before every further
name but the last, `" or "` before the last. -/
def formatRest : List String → String
  | [] => ""
  | [a] => " or " ++ a
  | a :: rest => (", " ++ a) ++ formatRest rest

/-- A list of names formatted with `", "` between the entries and `" or "`
before the last. -/
def formatVersions : List String → String
  | [] => ""
  | a :: rest => a ++ formatRest rest

/-! ## Reachable states -/

/-- The states of an iterator over the tree `root`: the fresh iterator, what
`FindMinimum(root)` and `LowerBound(root, key, equal, 0)` make of it, and what
`Next` and the `switch` of `Scan` (which `break`s or returns false at the cap)
make of a state reached before. -/
inductive Reachable (root : Node) : Iterator → Prop
  | fresh : Reachable root Iterator.fresh
  | findMinimum {it : Iterator} :
      FindMinimum root Iterator.fresh = .ok it → Reachable root it
  | lowerBound {key : ARTKey} {equal r : Bool} {it : Iterator} :
      LowerBound root Iterator.fresh key equal 0 = .ok (r, it) → Reachable root it
  | next {it : Iterator} {r : Bool} {it1 : Iterator} :
      Reachable root it → Next it = .ok (r, it1) → Reachable root it1
  | emit {it : Iterator} {max_count : Nat} {row_ids : List Int} {it1 : Iterator}
      {out : List Int} :
      Reachable root it → Scan.emit it max_count row_ids = .next it1 out → Reachable root it1
  | cap {it : Iterator} {max_count : Nat} {row_ids : List Int} {r : Bool} {it1 : Iterator}
      {out : List Int} :
      Reachable root it → Scan.emit it max_count row_ids = .ret r it1 out → Reachable root it1

/-- What it takes for a property `I` of the iterator to hold in every reachable
state: `Ready node it` is what holds when the iterator is about to descend into
`node`, `Mid` what holds of the stack and its bookkeeping between the steps of
`Next`. -/
structure Preserved (Mid I : Iterator → Prop) (Ready : Node → Iterator → Prop) : Prop where
  ready_mid : ∀ n it, Ready n it → Mid it
  inv_mid : ∀ it, I it → Mid it
  push_pfx : ∀ bytes c it, Ready (.pfx false bytes c) it → it.inside_gate = false →
    Ready c { it with current_key := it.current_key ++ bytes
                      nodes := ⟨.pfx false bytes c, 0⟩ :: it.nodes }
  push_inner : ∀ k cs b c it, Ready (.inner k false cs) it → it.inside_gate = false →
    (b, c) ∈ cs →
    Ready c { it with current_key := Push it.current_key b
                      nodes := ⟨.inner k false cs, b⟩ :: it.nodes }
  findMinimum : ∀ n it it1, Ready n it → FindMinimum n it = .ok it1 → I it1
  popNode : ∀ it, Mid it → Mid (PopNode it)
  replaceTop : ∀ it top rest k g cs b c, Mid it → it.nodes = top :: rest →
    top.node = .inner k g cs → top.byte < b → (b, c) ∈ cs → Ready c (replaceTop it top rest b)
  exhausted : ∀ it, Mid it → it.nodes = [] → I it
  empty : ∀ it, Ready .empty it → I it
  emit : ∀ it max_count row_ids it1 out, I it →
    (Scan.emit it max_count row_ids = .next it1 out ∨
      ∃ r, Scan.emit it max_count row_ids = .ret r it1 out) → I it1

/-- The key buffer spells the stack, and inside a gate some frame of the stack
holds a gate node. -/
def Synced (it : Iterator) : Prop :=
  it.current_key = base it.nodes ∧
  (it.inside_gate = true → ∃ f ∈ it.nodes, f.node.IsGate = true)

/-- `IteratorKey::Pop(n)` with its precondition `Size() ≥ n` tested: `none` when
it does not hold. -/
def Pop.checked (key_bytes : Bytes) (n : Nat) : Option Bytes :=
  if key_bytes.length ≥ n then some (Pop key_bytes n) else none

/-- `PopNode` with the precondition of its `Pop` tested. -/
def PopNode.checked (it : Iterator) : Option Iterator :=
  match it.nodes with
  | [] => some it
  | top :: _ =>
    match Pop.checked it.current_key top.node.keyBytes with
    | none => none
    | some _ => some (PopNode it)

/-- The loop of `Next` with the precondition of every `Pop` it issues tested,
that of line 250 and those of `PopNode`: `none` when one of them does not
hold, else what `Next` does. -/
def Next.checked : List StackFrame → Iterator → Option (Except Fault (Bool × Iterator))
  | [], it => some (.ok (false, it))
  | top :: rest, it =>
    if top.node.GetType = NType.PREFIX then
      match PopNode.checked it with
      | none => none
      | some it1 => Next.checked rest it1
    else if top.byte = 255 then
      match PopNode.checked it with
      | none => none
      | some it1 => Next.checked rest it1
    else
      match top.node.GetNextChild (top.byte + 1) with
      | .error e => some (.error e)
      | .ok none =>
        match PopNode.checked it with
        | none => none
        | some it1 => Next.checked rest it1
      | .ok (some (b, next_node)) =>
        match Pop.checked it.current_key 1 with
        | none => none
        | some _ =>
          match FindMinimum next_node (replaceTop it top rest b) with
          | .error e => some (.error e)
          | .ok it1 => some (.ok (true, it1))

/-- The iterator after a call of `Next`; unchanged when the call fails. -/
def nextOf (it : Iterator) : Iterator := (okOr (false, it) (Next it)).2

/-- The example tree's iterator on its last leaf, the byte-set leaf in the gate:
`FindMinimum(root)` and three calls of `Next`. -/
def demoLast : Iterator := nextOf (nextOf (nextOf demoStart))

/-! ## Gates on the stack -/

/-- No node of the subtree is a gate. -/
def Node.gateFree (n : Node) : Bool := n.all (fun m => !m.IsGate)

/-- A gate node has no gate below it. -/
def Node.flatGate : Node → Bool
  | .pfx true _ c => c.gateFree
  | .inner _ true cs => Node.allOf (fun m => !m.IsGate) cs
  | _ => true

/-- A tree without nested gates: no gate node has a gate below it. -/
def Node.noNested (n : Node) : Bool := n.all Node.flatGate

/-- The nodes directly below a node. -/
def Node.kids : Node → List Node
  | .pfx _ _ c => [c]
  | .inner _ _ cs => cs.map Prod.snd
  | _ => []

/-- Some frame of the stack holds a gate node. -/
def hasGate (s : List StackFrame) : Bool := s.any (fun f => f.node.IsGate)

/-- What a node about to be pushed has to be: free of gates inside a gate,
without nested gates elsewhere. -/
def gateFit (n : Node) (inside : Bool) : Bool := if inside then n.gateFree else n.noNested

/-- Every frame above a gate frame holds a subtree without gates, every other
frame one without nested gates. -/
def gateStack : List StackFrame → Bool
  | [] => true
  | f :: rest => gateStack rest && gateFit f.node (hasGate rest)

/-- The gate flag tells whether the stack holds a gate, and no gate is open
above another. -/
def GateFlag (it : Iterator) : Prop :=
  it.inside_gate = hasGate it.nodes ∧ gateStack it.nodes = true

/-! ## The current position -/

/-- The iterator stands on a leaf of the tree `root`, with the leaves after it
left to visit. -/
def Positioned (root : Node) (it : Iterator) : Prop :=
  ∃ hd pend, At it hd pend ∧ (hd :: pend) <:+ root.paths

/-- The iterator has no position (it is fresh or exhausted) or stands on a leaf
of the tree. -/
def PosInv (root : Node) (it : Iterator) : Prop :=
  (it.nodes = [] ∧ it.current_key = []) ∨ Positioned root it

/-- Between the steps of `Next`: the stack is made of inner nodes, the key
spells it, and the leaves it has left to visit are the last leaves of the tree. -/
def PosMid (root : Node) (it : Iterator) : Prop :=
  StackWF it.nodes ∧ it.current_key = base it.nodes ∧ pending it.nodes <:+ root.paths

/-- About to descend into `n`: the leaves below `n` and those the stack has left
to visit are the last leaves of the tree. -/
def PosReady (root : Node) (n : Node) (it : Iterator) : Prop :=
  n.WF = true ∧ StackWF it.nodes ∧ it.current_key = base it.nodes ∧
  (n.paths.map (under it.current_key) ++ pending it.nodes) <:+ root.paths

/-! ## Row ids below a gate -/

mutual
/-- The subtree is a part of a row-id subtree, `d` bytes below the node of its
gate: it has no gate, at most 8 bytes are spelled down to any of its nodes (as on
every path to a leaf), and its leaves are byte-set leaves reached after 7 bytes
(the leaf holds the last byte) and inlined prefixes whose bytes complete the
8. -/
def Node.spells : Node → Nat → Bool
  | .empty, _ => false
  | .leafInlined _, _ => false
  | .leaf _, _ => false
  | .byteLeaf _ _, d => decide (d = 7)
  | .prefixInlined bs, d => decide (d + bs.length = 8)
  | .pfx g bytes c, d => !g && decide (d + bytes.length ≤ 8) && Node.spells c (d + bytes.length)
  | .inner _ g cs, d => !g && decide (d + 1 ≤ 8) && Node.spellsOf cs (d + 1)
/-- Every child of the list is a part of a row-id subtree at depth `d`. -/
def Node.spellsOf : List (Nat × Node) → Nat → Bool
  | [], _ => true
  | (_, c) :: rest, d => Node.spells c d && Node.spellsOf rest d
end

mutual
/-- A tree of keys whose row ids are kept below gates: a gate node is the root
of a row-id subtree, every path from it to a leaf spelling exactly 8 bytes, the
bytes of the gate node included; and the leaves of row-id subtrees, byte-set
leaves ("used under gates") and inlined prefixes ("inlined single-row tail
inside a gate"), occur nowhere else. -/
def Node.keyTree : Node → Bool
  | .empty => true
  | .leafInlined _ => true
  | .leaf _ => true
  | .byteLeaf _ _ => false
  | .prefixInlined _ => false
  | .pfx g bytes c =>
    if g then decide (bytes.length ≤ 8) && Node.spells c bytes.length else Node.keyTree c
  | .inner _ g cs => if g then Node.spellsOf cs 1 else Node.keyTreeOf cs
/-- Every child of the list is such a tree. -/
def Node.keyTreeOf : List (Nat × Node) → Bool
  | [] => true
  | (_, c) :: rest => Node.keyTree c && Node.keyTreeOf rest
end

/-- The bytes on the path from the gate node (inclusive) to the top of the
stack: the contributions of the frames from the gate frame on, none when no
frame holds a gate. -/
def gateBytes : List StackFrame → Bytes
  | [] => []
  | f :: rest =>
    if f.node.IsGate then f.contrib
    else if hasGate rest then gateBytes rest ++ f.contrib
    else []

/-- What a node about to be pushed has to be: a part of a row-id subtree at
depth `d` inside a gate, a tree of keys with its row ids below gates
elsewhere. -/
def depthFit (n : Node) (inside : Bool) (d : Nat) : Bool :=
  if inside then n.spells d else n.keyTree

/-- Every frame holds a node that fits where it was pushed. -/
def depthStack : List StackFrame → Bool
  | [] => true
  | f :: rest => depthStack rest && depthFit f.node (hasGate rest) (gateBytes rest).length

/-- The staging buffer of an iterator inside a gate holds, in its first
`nested_depth` cells, the bytes `g`. -/
def Stage (it : Iterator) (g : Bytes) : Prop :=
  it.inside_gate = true → it.nested_depth = g.length ∧ it.row_id.take it.nested_depth = g

/-- The bookkeeping of the row-id staging: the gate flag tells whether the stack
holds a gate, every frame fits, the staging buffer has 8 cells, and inside a
gate `nested_depth` counts the bytes from the gate node on, at most 8, which
are the first cells of the staging buffer. -/
structure Staged (it : Iterator) : Prop where
  flag : it.inside_gate = hasGate it.nodes
  stack : depthStack it.nodes = true
  len : it.row_id.length = 8
  bound : (gateBytes it.nodes).length ≤ 8
  stage : Stage it (gateBytes it.nodes)

/-- The staging is in order and, inside a gate, `last_leaf` is a leaf of the
row-id subtree at the depth of the stack. -/
def StagedLeaf (it : Iterator) : Prop :=
  Staged it ∧ (it.inside_gate = true → it.last_leaf.spells (gateBytes it.nodes).length = true)

/-- The staging is in order and the node about to be entered fits. -/
def StagedReady (n : Node) (it : Iterator) : Prop :=
  Staged it ∧ depthFit n it.inside_gate (gateBytes it.nodes).length = true

/-- The bytes of an inlined prefix in `last_leaf` have room in the staging
buffer from `nested_depth` on. -/
def Slack (it : Iterator) : Prop :=
  ∀ bs, it.last_leaf = .prefixInlined bs → it.nested_depth + bs.length ≤ 8

/-! ## The cells of `row_id` written to -/

/-- The index of the write `row_id[nested_depth] = b` of lines 126 and 142, none
outside a gate. -/
def mirror.writes (it : Iterator) : List Int :=
  if it.inside_gate then [(it.nested_depth : Int)] else []

/-- The indices written at by the loop of lines 123-129. -/
def pushPrefix.writes : List Nat → Iterator → List Int
  | [], _ => []
  | b :: rest, it =>
    mirror.writes { it with current_key := Push it.current_key b } ++
      pushPrefix.writes rest (mirror { it with current_key := Push it.current_key b } b)

mutual
/-- The indices of `row_id` that `FindMinimum(node)` writes at, in order. -/
def FindMinimum.writes : Node → Iterator → List Int
  | .empty, _ => []
  | .leafInlined _, _ => []
  | .leaf _, _ => []
  | .byteLeaf _ _, _ => []
  | .prefixInlined _, _ => []
  | .pfx g bytes child, it =>
    let it0 := enterGate (.pfx g bytes child) it
    let it1 := pushPrefix bytes it0
    pushPrefix.writes bytes it0 ++
      FindMinimum.writes child { it1 with nodes := ⟨.pfx g bytes child, 0⟩ :: it1.nodes }
  | .inner k g cs, it =>
    FindMinimum.descendWrites (.inner k g cs) cs 0 (enterGate (.inner k g cs) it)
/-- The indices written at by lines 135-146, with the lookup unfolded as in
`FindMinimum.descend`. -/
def FindMinimum.descendWrites (node : Node) : List (Nat × Node) → Nat → Iterator → List Int
  | [], _, _ => []
  | (b, c) :: rest, byte, it =>
    if byte ≤ b then
      let it0 := { it with current_key := Push it.current_key b }
      mirror.writes it0 ++
        FindMinimum.writes c { mirror it0 b with nodes := ⟨node, b⟩ :: (mirror it0 b).nodes }
    else FindMinimum.descendWrites node rest byte it
end

/-- The index of the write `row_id[nested_depth - 1] = top.byte` of line 252,
none outside a gate. -/
def replaceTop.writes (it : Iterator) : List Int :=
  if it.inside_gate then [(it.nested_depth : Int) - 1] else []

/-- The indices of `row_id` that `Next` writes at, in order, by the loop of
`Next.go`. -/
def Next.writes : List StackFrame → Iterator → List Int
  | [], _ => []
  | top :: rest, it =>
    if top.node.GetType = NType.PREFIX then Next.writes rest (PopNode it)
    else if top.byte = 255 then Next.writes rest (PopNode it)
    else
      match top.node.GetNextChild (top.byte + 1) with
      | .error _ => []
      | .ok none => Next.writes rest (PopNode it)
      | .ok (some (b, next_node)) =>
        replaceTop.writes it ++ FindMinimum.writes next_node (replaceTop it top rest b)

/-- The indices of `row_id` that a pass through the `switch` of `Scan` writes
at: `sizeof(row_t) - 1` for each byte of a byte-set leaf, `i + nested_depth` for
each byte of an inlined prefix. -/
def Scan.emit.writes (it : Iterator) : List Int :=
  match it.last_leaf with
  | .byteLeaf _ bytes => bytes.map (fun _ => 7)
  | .prefixInlined bytes => (List.range bytes.length).map (fun i => ((i + it.nested_depth : Nat) : Int))
  | _ => []

/-- The indices of `row_id` written at by lines 158-167 of `LowerBound`. -/
def LowerBound.atLeafOrGate.writes (node : Node) (it : Iterator) (key : ARTKey) (equal : Bool) :
    List Int :=
  if !equal && Contains it.current_key key.bytes then Next.writes it.nodes it
  else if node.IsGate then FindMinimum.writes node it
  else []

mutual
/-- The indices of `row_id` that `LowerBound(node, key, equal, depth)` writes
at, in order. -/
def LowerBound.writes : Node → Iterator → ARTKey → Bool → Nat → List Int
  | .empty, _, _, _, _ => []
  | .leafInlined r, it, key, equal, _ =>
    LowerBound.atLeafOrGate.writes (.leafInlined r) it key equal
  | .leaf rs, it, key, equal, _ => LowerBound.atLeafOrGate.writes (.leaf rs) it key equal
  | .byteLeaf k bs, it, key, equal, _ =>
    LowerBound.atLeafOrGate.writes (.byteLeaf k bs) it key equal
  | .prefixInlined bs, it, key, equal, _ =>
    LowerBound.atLeafOrGate.writes (.prefixInlined bs) it key equal
  | .pfx g bytes child, it, key, equal, depth =>
    if g then LowerBound.atLeafOrGate.writes (.pfx g bytes child) it key equal
    else
      let it1 : Iterator :=
        { it with current_key := pushAll bytes it.current_key
                  nodes := ⟨.pfx g bytes child, 0⟩ :: it.nodes }
      match comparePrefix bytes key depth with
      | .lt => Next.writes it1.nodes it1
      | .gt => FindMinimum.writes child it1
      | .eq => LowerBound.writes child it1 key equal (depth + bytes.length)
  | .inner k g cs, it, key, equal, depth =>
    if g then LowerBound.atLeafOrGate.writes (.inner k g cs) it key equal
    else
      LowerBound.descendWrites (.inner k g cs) (key.get depth) cs it key equal depth
/-- The indices written at by lines 173-190, with the lookup unfolded as in
`LowerBound.descend`. -/
def LowerBound.descendWrites (node : Node) (kb : Nat) :
    List (Nat × Node) → Iterator → ARTKey → Bool → Nat → List Int
  | [], it, _, _, _ => Next.writes it.nodes it
  | (b, c) :: rest, it, key, equal, depth =>
    if kb ≤ b then
      let it1 : Iterator :=
        { it with current_key := Push it.current_key b, nodes := ⟨node, b⟩ :: it.nodes }
      if b > kb then FindMinimum.writes c it1
      else LowerBound.writes c it1 key equal (depth + 1)
    else LowerBound.descendWrites node kb rest it key equal depth
end

/-- An index within the 8 cells of `row_id`. -/
def inBuffer (i : Int) : Prop := 0 ≤ i ∧ i < 8

instance (i : Int) : Decidable (inBuffer i) := by
  unfold inBuffer
  infer_instance

/-- The byte strings with which a leaf below a gate completes a row id: one byte
for each byte of a byte-set leaf, the bytes of an inlined prefix. -/
def Node.tails : Node → List Bytes
  | .byteLeaf _ bs => bs.map (fun b => [b])
  | .prefixInlined bs => [bs]
  | _ => []

/-! ## The leaf under the stack -/

/-- A leaf below the node on top of a stack, seen from the root: every frame
extends it by its contribution, as `Node.leaves` does. -/
def lift : List StackFrame → LeafPos → LeafPos
  | [], y => y
  | f :: rest, y => lift rest (y.extend f.node.IsGate f.contrib)

/-- Every frame holds a well-formed node whose leaves, seen from the root
through the frames below it, are leaves of the tree `root`. -/
def chain (root : Node) : List StackFrame → Prop
  | [] => True
  | top :: rest =>
    (top.node.WF = true ∧ ∀ y ∈ top.node.leaves, lift rest y ∈ root.leaves) ∧ chain root rest

/-- The stack is a chain of nodes of the tree and, unless it is empty, the leaf
`last_leaf` seen through it is a leaf of the tree. -/
def Leafed (root : Node) (it : Iterator) : Prop :=
  chain root it.nodes ∧
  (it.nodes = [] ∨ lift it.nodes { key := [], sub := [], node := it.last_leaf } ∈ root.leaves)

/-- The stack is a chain of nodes of the tree and the leaves of the node about to
be entered, seen through it, are leaves of the tree. -/
def LeafedReady (root : Node) (n : Node) (it : Iterator) : Prop :=
  n.WF = true ∧ chain root it.nodes ∧ ∀ y ∈ n.leaves, lift it.nodes y ∈ root.leaves

/-- No frame above a gate frame holds a gate. -/
def oneGate : List StackFrame → Prop
  | [] => True
  | f :: rest => (hasGate rest = true → f.node.IsGate = false) ∧ oneGate rest

/-! ## The row ids of a scan -/

/-- Two byte strings that part at some byte, the first with the smaller byte:
neither is a prefix of the other, and the first is the smaller one. -/
def Diverge (a b : Bytes) : Prop :=
  ∃ p u v s t, a = p ++ u :: s ∧ b = p ++ v :: t ∧ u < v

/-- The row ids a leaf stands for, each with the key it is stored under and the
bytes below the gate it is decoded from (none outside a gate). -/
def LeafPos.entries (x : LeafPos) : List (Bytes × Bytes × Int) :=
  match x.node with
  | .leafInlined r => [(x.key, [], r)]
  | .leaf rs => rs.map (fun r => (x.key, [], r))
  | .byteLeaf _ bs => bs.map (fun b => (x.key, x.sub ++ [b], GetRowID (x.sub ++ [b])))
  | .prefixInlined bs => [(x.key, x.sub ++ bs, GetRowID (x.sub ++ bs))]
  | _ => []

/-- The row ids of the leaves `xs`, in their order, with their keys and
bytes. -/
def entriesFrom (xs : List LeafPos) : List (Bytes × Bytes × Int) :=
  (xs.map LeafPos.entries).flatten

/-- The order of the row ids of a scan: the key of the first is strictly smaller
in the unsigned lexicographic order, or the keys are the same and either both
row ids are stored outside a gate (in one legacy leaf) or the row-id bytes of the
first are strictly smaller. -/
def entryBefore (e1 e2 : Bytes × Bytes × Int) : Prop :=
  LexLt e1.1 e2.1 ∨ (e1.1 = e2.1 ∧ ((e1.2.1 = [] ∧ e2.2.1 = []) ∨ LexLt e1.2.1 e2.2.1))

/-- A leaf of a part of a row-id subtree that starts `d` bytes below the node of
its gate: a byte-set leaf reached after 7 bytes, or an inlined prefix whose
bytes complete the 8. -/
def LeafPos.spelled (d : Nat) (x : LeafPos) : Prop :=
  match x.node with
  | .byteLeaf _ _ => d + x.path.length = 7
  | .prefixInlined bs => d + x.path.length + bs.length = 8
  | _ => False

/-- A leaf of a tree of keys with its row ids below gates: outside a gate a
`LEAF_INLINED` or a legacy `LEAF`; below a gate a byte-set leaf reached after 7
bytes, or an inlined prefix whose bytes complete the 8. -/
def LeafPos.kindOK (x : LeafPos) : Prop :=
  match x.node with
  | .leafInlined _ => x.sub = []
  | .leaf _ => x.sub = []
  | .byteLeaf _ _ => x.sub.length = 7
  | .prefixInlined bs => x.sub.length + bs.length = 8
  | _ => False

/-- The row ids of the leaves `xs`, in their order. -/
def rowsFrom (xs : List LeafPos) : List Int := (xs.map LeafPos.rows).flatten

/-- The staging is in order, the iterator has no position or stands on a leaf of
the tree and, when the stack is not empty, `last_leaf` fits where it stands: a
leaf of the row-id subtree inside a gate, a leaf that stores its row ids
outside. -/
def Fitted (root : Node) (it : Iterator) : Prop :=
  StagedLeaf it ∧ PosInv root it ∧
  (it.nodes ≠ [] →
    depthFit it.last_leaf it.inside_gate (gateBytes it.nodes).length = true)

/-! # Theorems -/

/-! ## IteratorKey -/

theorem LexLt_cons_cons (x y : Nat) (a b : Bytes) :
    LexLt (x :: a) (y :: b) ↔ x < y ∨ (x = y ∧ LexLt a b) := by
  constructor
  · intro h
    cases h with
    | cons h => exact Or.inr ⟨rfl, h⟩
    | rel h => exact Or.inl h
  · rintro (h | ⟨rfl, h⟩)
    · exact List.Lex.rel h
    · exact List.Lex.cons h

theorem LexLt_irrefl (a : Bytes) : ¬ LexLt a a := by
  induction a with
  | nil => intro h; cases h
  | cons x a ih =>
    rw [LexLt_cons_cons]
    rintro (h | ⟨_, h⟩)
    · omega
    · exact ih h

theorem GreaterThan.loop_cons (x y : Nat) (a b : Bytes) (n i : Nat) :
    GreaterThan.loop (x :: a) (y :: b) n (i + 1) = GreaterThan.loop a b n i := by
  induction n generalizing i with
  | zero => rfl
  | succ n ih => simp [GreaterThan.loop, ih]

theorem GreaterThan_cons (x y : Nat) (a b : Bytes) (equal : Bool) :
    GreaterThan (x :: a) (y :: b) equal =
      if x > y then true else if x < y then false else GreaterThan a b equal := by
  have hmin : min (x :: a).length (y :: b).length = min a.length b.length + 1 := by
    simp [Nat.succ_min_succ]
  unfold GreaterThan
  rw [hmin]
  simp only [GreaterThan.loop, List.getD_cons_zero, GreaterThan.loop_cons]
  by_cases h1 : x > y
  · simp [h1]
  · by_cases h2 : x < y
    · simp [h1, h2]
    · simp [h1, h2]

theorem GreaterThan_iff (a b : Bytes) (equal : Bool) :
    GreaterThan a b equal = true ↔ LexLt b a ∨ (equal = false ∧ a = b) := by
  induction a generalizing b with
  | nil =>
    cases b with
    | nil => cases equal <;> simp [GreaterThan, GreaterThan.loop, LexLt]
    | cons y b => cases equal <;> simp [GreaterThan, GreaterThan.loop, LexLt]
  | cons x a ih =>
    cases b with
    | nil => cases equal <;> simp [GreaterThan, GreaterThan.loop, LexLt, List.Lex.nil]
    | cons y b =>
      rw [GreaterThan_cons, LexLt_cons_cons]
      by_cases h1 : x > y
      · simp [h1]
      · by_cases h2 : x < y
        · have h3 : ¬ y < x := h1
          have h4 : ¬ y = x := by omega
          have h5 : ¬ x = y := by omega
          simp [h1, h2, h3, h4, h5]
        · have hxy : x = y := by omega
          subst hxy
          simp [ih b]

/-- C10. `IteratorKey::GreaterThan(key, equal)`: with `equal = true` it holds
exactly when the buffer is strictly greater than `key` in the unsigned
lexicographic order (a proper prefix being smaller than its extension); with
`equal = false` exactly when the buffer is greater than or equal to `key`; the
two modes differ exactly when buffer and key are identical. -/
theorem GreaterThan_spec (key_bytes key : Bytes) :
    (GreaterThan key_bytes key true = true ↔ LexLt key key_bytes) ∧
    (GreaterThan key_bytes key false = true ↔ LexLt key key_bytes ∨ key_bytes = key) ∧
    (GreaterThan key_bytes key true ≠ GreaterThan key_bytes key false ↔ key_bytes = key) := by
  have ht := GreaterThan_iff key_bytes key true
  have hf := GreaterThan_iff key_bytes key false
  simp only [Bool.true_eq_false, false_and, or_false, true_and] at ht hf
  refine ⟨ht, hf, ?_⟩
  have hirr : key_bytes = key → ¬ LexLt key key_bytes := by
    rintro rfl
    exact LexLt_irrefl _
  constructor
  · intro hne
    by_contra hk
    apply hne
    rw [Bool.eq_iff_iff, ht, hf]
    simp [hk]
  · intro hk hEq
    rw [Bool.eq_iff_iff, ht, hf] at hEq
    subst hk
    exact LexLt_irrefl _ (hEq.mpr (Or.inr rfl))

/-! ## Induction on nodes and the bookkeeping of the descent -/

theorem Node.induction {P : Node → Prop}
    (h0 : P .empty) (h1 : ∀ r, P (.leafInlined r)) (h2 : ∀ rs, P (.leaf rs))
    (h3 : ∀ k bs, P (.byteLeaf k bs)) (h4 : ∀ bs, P (.prefixInlined bs))
    (h5 : ∀ g bytes c, P c → P (.pfx g bytes c))
    (h6 : ∀ k g cs, (∀ x ∈ cs, P x.2) → P (.inner k g cs)) : ∀ n, P n
  | .empty => h0
  | .leafInlined r => h1 r
  | .leaf rs => h2 rs
  | .byteLeaf k bs => h3 k bs
  | .prefixInlined bs => h4 bs
  | .pfx g bytes c => h5 g bytes c (Node.induction h0 h1 h2 h3 h4 h5 h6 c)
  | .inner k g cs => h6 k g cs (go cs)
where go : ∀ cs : List (Nat × Node), ∀ x ∈ cs, P x.2
  | [], _, h => by cases h
  | (b, c) :: rest, x, h => by
    rcases List.mem_cons.mp h with h | h
    · subst h; exact Node.induction h0 h1 h2 h3 h4 h5 h6 c
    · exact go rest x h

@[simp] theorem mirror_current_key (it : Iterator) (b : Nat) :
    (mirror it b).current_key = it.current_key := by
  unfold mirror; split <;> rfl

@[simp] theorem mirror_nodes (it : Iterator) (b : Nat) : (mirror it b).nodes = it.nodes := by
  unfold mirror; split <;> rfl

@[simp] theorem mirror_last_leaf (it : Iterator) (b : Nat) :
    (mirror it b).last_leaf = it.last_leaf := by
  unfold mirror; split <;> rfl

@[simp] theorem enterGate_current_key (n : Node) (it : Iterator) :
    (enterGate n it).current_key = it.current_key := by
  unfold enterGate; split <;> rfl

@[simp] theorem enterGate_nodes (n : Node) (it : Iterator) :
    (enterGate n it).nodes = it.nodes := by
  unfold enterGate; split <;> rfl

@[simp] theorem pushPrefix_current_key (bytes : List Nat) (it : Iterator) :
    (pushPrefix bytes it).current_key = it.current_key ++ bytes := by
  induction bytes generalizing it with
  | nil => simp [pushPrefix]
  | cons b rest ih => simp [pushPrefix, ih, Push]

@[simp] theorem pushPrefix_nodes (bytes : List Nat) (it : Iterator) :
    (pushPrefix bytes it).nodes = it.nodes := by
  induction bytes generalizing it with
  | nil => simp [pushPrefix]
  | cons b rest ih => simp [pushPrefix, ih]

theorem WFs_mem {cs : List (Nat × Node)} (h : Node.WFs cs = true) :
    ∀ x ∈ cs, x.2.WF = true := by
  induction cs with
  | nil => intro x hx; cases hx
  | cons a rest ih =>
    obtain ⟨b, c⟩ := a
    simp only [Node.WFs, Bool.and_eq_true] at h
    intro x hx
    rcases List.mem_cons.mp hx with hx | hx
    · subst hx; exact h.1
    · exact ih h.2 x hx

theorem ascending_cons {a : Nat} {l : List Nat} (h : ascending (a :: l) = true) :
    a ≤ 255 ∧ (∀ x ∈ l, a < x) ∧ ascending l = true := by
  induction l generalizing a with
  | nil => simpa [ascending] using h
  | cons b rest ih =>
    simp only [ascending, Bool.and_eq_true, decide_eq_true_eq] at h
    obtain ⟨h1, h2, h3⟩ := ih h.2
    refine ⟨by omega, ?_, h.2⟩
    intro x hx
    rcases List.mem_cons.mp hx with hx | hx
    · subst hx; exact h.1
    · have := h2 x hx; omega

/-! ## The child lookups unfolded in `FindMinimum` and `LowerBound` -/

/-- The scan of the children in `FindMinimum.descend` is the lookup
`GetNextChild(byte)` followed by lines 137-146. -/
theorem FindMinimum_descend_eq (node : Node) (cs : List (Nat × Node)) (byte : Nat)
    (it : Iterator) :
    FindMinimum.descend node cs byte it =
      (match GetNextChild cs byte with
       | none => .error .nullChild
       | some (b, c) =>
         FindMinimum c
           { mirror { it with current_key := Push it.current_key b } b with
             nodes := ⟨node, b⟩ :: (mirror { it with current_key := Push it.current_key b } b).nodes }) := by
  induction cs with
  | nil => rfl
  | cons a rest ih =>
    obtain ⟨b, c⟩ := a
    rw [FindMinimum.descend, GetNextChild]
    by_cases h : byte ≤ b
    · simp [h]
    · simp [h, ih]

/-- The scan of the children in `LowerBound.descend` is the lookup
`GetNextChild(next_byte)` followed by lines 175-190. -/
theorem LowerBound_descend_eq (node : Node) (kb : Nat) (cs : List (Nat × Node)) (it : Iterator)
    (key : ARTKey) (equal : Bool) (depth : Nat) :
    LowerBound.descend node kb cs it key equal depth =
      (match GetNextChild cs kb with
       | none => Next it
       | some (b, c) =>
         if b > kb then
           match FindMinimum c
             { it with current_key := Push it.current_key b, nodes := ⟨node, b⟩ :: it.nodes } with
           | .error e => .error e
           | .ok it2 => .ok (true, it2)
         else
           LowerBound c
             { it with current_key := Push it.current_key b, nodes := ⟨node, b⟩ :: it.nodes }
             key equal (depth + 1)) := by
  induction cs with
  | nil => rfl
  | cons a rest ih =>
    obtain ⟨b, c⟩ := a
    rw [LowerBound.descend, GetNextChild]
    by_cases h : kb ≤ b
    · simp [h]
    · simp [h, ih]

/-! ## FindMinimum and Next on well-formed trees -/

theorem filter_gt_head {b : Nat} {c : Node} {rest : List (Nat × Node)}
    (h : ascending (((b, c) :: rest).map Prod.fst) = true) :
    ((b, c) :: rest).filter (fun x => decide (b < x.1)) = rest := by
  have h2 := (ascending_cons h).2.1
  rw [List.filter_cons_of_neg (by simp)]
  apply List.filter_eq_self.mpr
  intro x hx
  simp only [decide_eq_true_eq]
  exact h2 x.1 (List.mem_map_of_mem _ hx)

theorem under_under (p q : Bytes) (x : Bytes × Node) :
    under p (under q x) = under (p ++ q) x := by
  simp [under]

theorem FindMinimum_spec (n : Node) (hn : n.WF = true) :
    ∀ it : Iterator, StackWF it.nodes → it.current_key = base it.nodes →
      ∃ it1 hd tl, FindMinimum n it = .ok it1 ∧ n.paths = hd :: tl ∧
        At it1 (under it.current_key hd) (tl.map (under it.current_key) ++ pending it.nodes) := by
  induction n using Node.induction with
  | h0 => simp [Node.WF] at hn
  | h1 r =>
    intro it hs hk
    exact ⟨_, _, _, rfl, rfl, ⟨rfl, by simp [under], hs, by simp [under, hk], by simp⟩⟩
  | h2 r =>
    intro it hs hk
    exact ⟨_, _, _, rfl, rfl, ⟨rfl, by simp [under], hs, by simp [under, hk], by simp⟩⟩
  | h3 k bs =>
    intro it hs hk
    exact ⟨_, _, _, rfl, rfl, ⟨rfl, by simp [under], hs, by simp [under, hk], by simp⟩⟩
  | h4 bs =>
    intro it hs hk
    exact ⟨_, _, _, rfl, rfl, ⟨rfl, by simp [under], hs, by simp [under, hk], by simp⟩⟩
  | h5 g bytes c ih =>
    intro it hs hk
    have hc : c.WF = true := by simpa [Node.WF] using hn
    let it2 : Iterator :=
      { pushPrefix bytes (enterGate (.pfx g bytes c) it) with
        nodes := ⟨.pfx g bytes c, 0⟩ :: (pushPrefix bytes (enterGate (.pfx g bytes c) it)).nodes }
    have hs2 : StackWF it2.nodes := by
      intro f hf
      simp only [it2, pushPrefix_nodes, enterGate_nodes, List.mem_cons] at hf
      rcases hf with hf | hf
      · subst hf; simp [frameOK, Node.WF, hc, Node.IsAnyLeaf]
      · exact hs f hf
    have hk2 : it2.current_key = base it2.nodes := by
      simp [it2, base, StackFrame.contrib, hk]
    obtain ⟨it1, hd, tl, h1, h2, h3⟩ := ih hc it2 hs2 hk2
    refine ⟨it1, (bytes ++ hd.1, hd.2), tl.map (fun x => (bytes ++ x.1, x.2)), ?_, ?_, ?_⟩
    · rw [FindMinimum]; exact h1
    · simp [Node.paths, h2]
    · have e1 : it2.current_key = it.current_key ++ bytes := by simp [it2]
      have e2 : pending it2.nodes = pending it.nodes := by
        simp [it2, pending, frameRest]
      rw [e1, e2] at h3
      have e3 : under (it.current_key ++ bytes) hd = under it.current_key (bytes ++ hd.1, hd.2) := by
        simp [under]
      rw [e3] at h3
      have e4 : List.map (under (it.current_key ++ bytes)) tl =
          List.map (under it.current_key) (tl.map (fun x => (bytes ++ x.1, x.2))) := by
        simp [List.map_map, under, Function.comp_def]
      rw [e4] at h3
      exact h3
  | h6 k g cs ih =>
    intro it hs hk
    simp only [Node.WF, Bool.and_eq_true, Bool.not_eq_true', List.isEmpty_eq_false] at hn
    obtain ⟨⟨hne, hasc⟩, hwfs⟩ := hn
    cases cs with
    | nil => simp at hne
    | cons a rest =>
      obtain ⟨b, c⟩ := a
      have hc : c.WF = true := WFs_mem hwfs (b, c) (List.mem_cons_self _ _)
      let node : Node := .inner k g ((b, c) :: rest)
      let it2 : Iterator :=
        { mirror { enterGate node it with current_key := Push (enterGate node it).current_key b } b with
          nodes := ⟨node, b⟩ ::
            (mirror { enterGate node it with
                      current_key := Push (enterGate node it).current_key b } b).nodes }
      have hs2 : StackWF it2.nodes := by
        intro f hf
        simp only [it2, mirror_nodes, enterGate_nodes, List.mem_cons] at hf
        rcases hf with hf | hf
        · subst hf
          have hasc2 : ascending (b :: List.map Prod.fst rest) = true := by simpa using hasc
          simp [frameOK, node, Node.WF, hasc2, hwfs, Node.IsAnyLeaf]
        · exact hs f hf
      have hk2 : it2.current_key = base it2.nodes := by
        simp [it2, base, StackFrame.contrib, hk, Push, node]
      obtain ⟨it1, hd, tl, h1, h2, h3⟩ := ih (b, c) (List.mem_cons_self _ _) hc it2 hs2 hk2
      refine ⟨it1, (b :: hd.1, hd.2),
        tl.map (fun x => (b :: x.1, x.2)) ++ Node.pathsOf rest, ?_, ?_, ?_⟩
      · rw [FindMinimum, FindMinimum.descend]
        simp only [Nat.zero_le, if_true]
        exact h1
      · simp [Node.paths, Node.pathsOf, h2]
      · have e1 : it2.current_key = it.current_key ++ [b] := by simp [it2, Push]
        have e2 : pending it2.nodes =
            (Node.pathsOf rest).map (under it.current_key) ++ pending it.nodes := by
          simp only [it2, mirror_nodes, enterGate_nodes, pending, frameRest, node]
          rw [filter_gt_head hasc, hk]
        rw [e1, e2] at h3
        have e3 : under (it.current_key ++ [b]) hd = under it.current_key (b :: hd.1, hd.2) := by
          simp [under]
        rw [e3] at h3
        have e4 : List.map (under (it.current_key ++ [b])) tl =
            List.map (under it.current_key) (tl.map (fun x => (b :: x.1, x.2))) := by
          simp [List.map_map, under, Function.comp_def]
        rw [e4] at h3
        simpa [List.map_append, List.append_assoc] using h3

theorem GetNextChild_eq_head (cs : List (Nat × Node)) (m : Nat) :
    GetNextChild cs m = (cs.filter (fun x => decide (m ≤ x.1))).head? := by
  induction cs with
  | nil => rfl
  | cons a rest ih =>
    obtain ⟨b, c⟩ := a
    by_cases h : m ≤ b
    · simp [GetNextChild, h]
    · simp [GetNextChild, h, ih]

theorem filter_succ (cs : List (Nat × Node)) (b : Nat) :
    cs.filter (fun x => decide (b + 1 ≤ x.1)) = cs.filter (fun x => decide (b < x.1)) := by
  apply List.filter_congr
  intro x _
  simp [Nat.succ_le_iff]

theorem filter_gt_next {cs : List (Nat × Node)} (h : ascending (cs.map Prod.fst) = true)
    {b b1 : Nat} {c1 : Node} {F : List (Nat × Node)}
    (hF : cs.filter (fun x => decide (b < x.1)) = (b1, c1) :: F) :
    cs.filter (fun x => decide (b1 < x.1)) = F := by
  induction cs with
  | nil => simp at hF
  | cons a rest ih =>
    obtain ⟨x, n⟩ := a
    have hrest : ascending (rest.map Prod.fst) = true := (ascending_cons h).2.2
    have hgt : ∀ y ∈ rest, x < y.1 := fun y hy =>
      (ascending_cons h).2.1 y.1 (List.mem_map_of_mem _ hy)
    by_cases hx : b < x
    · rw [List.filter_cons_of_pos (by simpa using hx)] at hF
      injection hF with h1 h2
      injection h1 with h3 h4
      subst h3
      rw [filter_gt_head h]
      rw [← h2]
      symm
      apply List.filter_eq_self.mpr
      intro y hy
      have := hgt y hy
      simp only [decide_eq_true_eq]
      omega
    · rw [List.filter_cons_of_neg (by simpa using hx)] at hF
      have hb1 : b < b1 := by
        have hm : (b1, c1) ∈ rest.filter (fun x => decide (b < x.1)) := by
          rw [hF]; exact List.mem_cons_self _ _
        simpa using (List.mem_filter.mp hm).2
      rw [List.filter_cons_of_neg (by simp; omega)]
      exact ih hrest hF

theorem filter_gt_255 {cs : List (Nat × Node)} (h : ascending (cs.map Prod.fst) = true) :
    cs.filter (fun x => decide (255 < x.1)) = [] := by
  induction cs with
  | nil => rfl
  | cons a rest ih =>
    have h1 := ascending_cons h
    rw [List.filter_cons_of_neg (by simp; exact h1.1)]
    exact ih h1.2.2

theorem Pop_append (a c : Bytes) : Pop (a ++ c) c.length = a := by
  simp [Pop]

theorem PopNode_nodes {it : Iterator} {top : StackFrame} {rest : List StackFrame}
    (h : it.nodes = top :: rest) : (PopNode it).nodes = rest := by
  simp [PopNode, h]

theorem PopNode_current_key {it : Iterator} {top : StackFrame} {rest : List StackFrame}
    (h : it.nodes = top :: rest) :
    (PopNode it).current_key = Pop it.current_key top.node.keyBytes := by
  simp [PopNode, h]

theorem PopNode_last_leaf (it : Iterator) : (PopNode it).last_leaf = it.last_leaf := by
  unfold PopNode; split <;> rfl

theorem paths_ne_nil {n : Node} (hn : n.WF = true) : n.paths ≠ [] := by
  obtain ⟨_, hd, tl, _, h, _⟩ := FindMinimum_spec n hn Iterator.fresh
    (by intro f hf; cases hf) rfl
  simp [h]

theorem pathsOf_eq_nil {F : List (Nat × Node)} (hF : ∀ x ∈ F, x.2.WF = true)
    (h : Node.pathsOf F = []) : F = [] := by
  cases F with
  | nil => rfl
  | cons a rest =>
    obtain ⟨b, c⟩ := a
    have := paths_ne_nil (hF (b, c) (List.mem_cons_self _ _))
    simp [Node.pathsOf, this] at h

theorem Next_go_pop {top : StackFrame} {rest : List StackFrame} {it : Iterator}
    (hn : it.nodes = top :: rest) (hw : StackWF (top :: rest))
    (hk : it.current_key = base (top :: rest)) (hr : frameRest top = []) :
    Next.go (top :: rest) it = Next.go rest (PopNode it) ∧
      (PopNode it).nodes = rest ∧ (PopNode it).current_key = base rest := by
  have hOK := hw top (List.mem_cons_self _ _)
  obtain ⟨node, b⟩ := top
  have hkey : (PopNode it).current_key = base rest := by
    rw [PopNode_current_key hn, hk]
    cases node <;> simp [frameOK, Node.IsAnyLeaf, Node.WF] at hOK <;>
      simp [base, StackFrame.contrib, Node.keyBytes, Pop]
  refine ⟨?_, PopNode_nodes hn, hkey⟩
  cases node with
  | pfx g bytes c => simp [Next.go, Node.GetType]
  | inner k g cs =>
    have hT : (Node.inner k g cs).GetType ≠ NType.PREFIX := by cases k <;> simp [Node.GetType]
    simp only [frameRest] at hr
    rw [Next.go]
    simp only [hT, if_false]
    by_cases h255 : b = 255
    · simp [h255]
    · simp only [h255, if_false, Node.GetNextChild]
      have : GetNextChild cs (b + 1) = none := by
        rw [GetNextChild_eq_head, filter_succ]
        simp only [frameOK, Node.WF, Bool.and_eq_true] at hOK
        have hwf := WFs_mem hOK.1.2
        rw [pathsOf_eq_nil (fun x hx => hwf x (List.mem_filter.mp hx).1) hr]
        rfl
      simp [this]
  | _ => simp [frameOK, Node.IsAnyLeaf, Node.WF] at hOK

theorem Next_go_spec : ∀ (s : List StackFrame) (it : Iterator), it.nodes = s → StackWF s →
    it.current_key = base s →
    (pending s = [] → ∃ it1, Next.go s it = .ok (false, it1) ∧ it1.nodes = [] ∧
        it1.current_key = [] ∧ it1.last_leaf = it.last_leaf) ∧
    (∀ hd tl, pending s = hd :: tl → ∃ it1, Next.go s it = .ok (true, it1) ∧ At it1 hd tl) := by
  intro s
  induction s with
  | nil =>
    intro it hn _ hk
    refine ⟨fun _ => ⟨it, rfl, hn, by simpa [base] using hk, rfl⟩, ?_⟩
    intro hd tl h
    simp [pending] at h
  | cons top rest ih =>
    intro it hn hw hk
    have hwrest : StackWF rest := fun f hf => hw f (List.mem_cons_of_mem _ hf)
    by_cases hr : frameRest top = []
    · obtain ⟨e1, e2, e3⟩ := Next_go_pop hn hw hk hr
      have hp : pending (top :: rest) = pending rest := by simp [pending, hr]
      rw [e1, hp]
      have := ih (PopNode it) e2 hwrest e3
      rw [PopNode_last_leaf] at this
      exact this
    · have hOK := hw top (List.mem_cons_self _ _)
      obtain ⟨node, b⟩ := top
      cases node with
      | inner k g cs =>
        simp only [frameOK, Node.WF, Bool.and_eq_true] at hOK
        obtain ⟨⟨⟨hne, hasc⟩, hwfs⟩, _⟩ := hOK
        have hT : (Node.inner k g cs).GetType ≠ NType.PREFIX := by
          cases k <;> simp [Node.GetType]
        simp only [frameRest] at hr
        have h255 : b ≠ 255 := by
          intro h
          apply hr
          rw [h, filter_gt_255 hasc]
          rfl
        obtain ⟨⟨b1, c1⟩, F, hF⟩ : ∃ a F, cs.filter (fun x => decide (b < x.1)) = a :: F := by
          cases hc : cs.filter (fun x => decide (b < x.1)) with
          | nil => rw [hc] at hr; exact absurd rfl hr
          | cons a F => exact ⟨a, F, rfl⟩
        have hmem : (b1, c1) ∈ cs := by
          have : (b1, c1) ∈ cs.filter (fun x => decide (b < x.1)) := by
            rw [hF]; exact List.mem_cons_self _ _
          exact (List.mem_filter.mp this).1
        have hc1 : c1.WF = true := WFs_mem hwfs _ hmem
        have hget : GetNextChild cs (b + 1) = some (b1, c1) := by
          rw [GetNextChild_eq_head, filter_succ, hF]; rfl
        let it2 := replaceTop it ⟨.inner k g cs, b⟩ rest b1
        have hs2 : StackWF it2.nodes := by
          intro f hf
          simp only [it2, replaceTop, List.mem_cons] at hf
          rcases hf with hf | hf
          · subst hf
            simp [frameOK, Node.WF, hne, hasc, hwfs, Node.IsAnyLeaf]
          · exact hwrest f hf
        have hk2 : it2.current_key = base rest ++ [b1] := by
          simp [it2, replaceTop, hk, base, StackFrame.contrib, Pop, Push]
        have hb2 : it2.current_key = base it2.nodes := by
          rw [hk2]; simp [it2, replaceTop, base, StackFrame.contrib]
        obtain ⟨it1, hd, tl, h1, h2, h3⟩ := FindMinimum_spec c1 hc1 it2 hs2 hb2
        have hgo : Next.go (⟨.inner k g cs, b⟩ :: rest) it = .ok (true, it1) := by
          rw [Next.go]
          simp only [hT, if_false, h255, Node.GetNextChild, hget]
          show (match FindMinimum c1 it2 with
            | .error e => (Except.error e : Except Fault (Bool × Iterator))
            | .ok it1 => .ok (true, it1)) = _
          rw [h1]
        have hp2 : pending it2.nodes =
            (Node.pathsOf F).map (under (base rest)) ++ pending rest := by
          simp only [it2, replaceTop, pending, frameRest]
          rw [filter_gt_next hasc hF]
        have hp : pending (⟨.inner k g cs, b⟩ :: rest) =
            under (base rest ++ [b1]) hd ::
              (tl.map (under (base rest ++ [b1])) ++
                ((Node.pathsOf F).map (under (base rest)) ++ pending rest)) := by
          simp only [pending, frameRest]
          rw [hF]
          simp [Node.pathsOf, h2, under, List.map_map, Function.comp_def]
        rw [hk2, hp2] at h3
        rw [hp]
        refine ⟨fun h => by simp at h, ?_⟩
        intro hd1 tl1 h
        injection h with e1 e2
        subst e1 e2
        exact ⟨it1, hgo, h3⟩
      | _ => exact absurd rfl hr

/-- `Next` on a well-formed, synchronised stack: it fails exactly when no leaf is
left, and otherwise stands on the first leaf left. -/
theorem Next_spec (it : Iterator) (hw : StackWF it.nodes) (hk : it.current_key = base it.nodes) :
    (pending it.nodes = [] → ∃ it1, Next it = .ok (false, it1) ∧ it1.nodes = [] ∧
        it1.current_key = [] ∧ it1.last_leaf = it.last_leaf) ∧
    (∀ hd tl, pending it.nodes = hd :: tl → ∃ it1, Next it = .ok (true, it1) ∧ At it1 hd tl) :=
  Next_go_spec it.nodes it rfl hw hk

theorem FindMinimum_sync (n : Node) :
    ∀ it it1 : Iterator, FindMinimum n it = .ok it1 → it.current_key = base it.nodes →
      (∃ x, it1.current_key = it.current_key ++ x) ∧ it1.current_key = base it1.nodes := by
  induction n using Node.induction with
  | h0 => intro it it1 h; simp [FindMinimum] at h
  | h1 r =>
    intro it it1 h hk
    simp only [FindMinimum, Except.ok.injEq] at h
    subst h
    exact ⟨⟨[], by simp⟩, hk⟩
  | h2 r =>
    intro it it1 h hk
    simp only [FindMinimum, Except.ok.injEq] at h
    subst h
    exact ⟨⟨[], by simp⟩, hk⟩
  | h3 k bs =>
    intro it it1 h hk
    simp only [FindMinimum, Except.ok.injEq] at h
    subst h
    exact ⟨⟨[], by simp⟩, hk⟩
  | h4 bs =>
    intro it it1 h hk
    simp only [FindMinimum, Except.ok.injEq] at h
    subst h
    exact ⟨⟨[], by simp⟩, hk⟩
  | h5 g bytes c ih =>
    intro it it1 h hk
    rw [FindMinimum] at h
    obtain ⟨⟨x, hx⟩, h2⟩ := ih _ _ h (by simp [base, StackFrame.contrib, hk])
    refine ⟨⟨bytes ++ x, ?_⟩, h2⟩
    rw [hx]; simp
  | h6 k g cs ih =>
    have key : ∀ cs1 : List (Nat × Node), (∀ x ∈ cs1, x ∈ cs) → ∀ (byte : Nat) (it it1 : Iterator),
        FindMinimum.descend (.inner k g cs) cs1 byte it = .ok it1 →
        it.current_key = base it.nodes →
        (∃ x, it1.current_key = it.current_key ++ x) ∧ it1.current_key = base it1.nodes := by
      intro cs1
      induction cs1 with
      | nil => intro _ byte it it1 h; simp [FindMinimum.descend] at h
      | cons a rest ihr =>
        obtain ⟨b, c⟩ := a
        intro hsub byte it it1 h hk
        rw [FindMinimum.descend] at h
        by_cases hb : byte ≤ b
        · simp only [hb, if_true] at h
          obtain ⟨⟨x, hx⟩, h2⟩ := ih (b, c) (hsub _ (List.mem_cons_self _ _)) _ _ h
            (by simp [base, StackFrame.contrib, hk, Push])
          refine ⟨⟨b :: x, ?_⟩, h2⟩
          rw [hx]; simp [Push]
        · simp only [hb, if_false] at h
          exact ihr (fun x hx => hsub x (List.mem_cons_of_mem _ hx)) byte it it1 h hk
    intro it it1 h hk
    rw [FindMinimum] at h
    obtain ⟨⟨x, hx⟩, h2⟩ := key cs (fun x hx => hx) 0 _ it1 h (by simpa using hk)
    exact ⟨⟨x, by simpa using hx⟩, h2⟩

theorem LexLt_append_left (p : Bytes) {a b : Bytes} (h : LexLt a b) : LexLt (p ++ a) (p ++ b) := by
  induction p with
  | nil => exact h
  | cons x p ih => exact List.Lex.cons ih

theorem GetNextChild_ge {cs : List (Nat × Node)} {m b : Nat} {c : Node}
    (h : GetNextChild cs m = some (b, c)) : m ≤ b ∧ (b, c) ∈ cs := by
  induction cs with
  | nil => simp [GetNextChild] at h
  | cons a rest ih =>
    obtain ⟨x, n⟩ := a
    rw [GetNextChild] at h
    by_cases hx : m ≤ x
    · simp only [hx, if_true, Option.some.injEq, Prod.mk.injEq] at h
      obtain ⟨h1, h2⟩ := h
      subst h1 h2
      exact ⟨hx, List.mem_cons_self _ _⟩
    · simp only [hx, if_false] at h
      exact ⟨(ih h).1, List.mem_cons_of_mem _ (ih h).2⟩

theorem Next_go_ordered : ∀ (s : List StackFrame) (it it1 : Iterator) (suffix : Bytes),
    it.nodes = s → it.current_key = base s → Next.go s it = .ok (true, it1) →
    LexLt (base s ++ suffix) it1.current_key ∧ it1.current_key = base it1.nodes := by
  intro s
  induction s with
  | nil => intro it it1 suffix _ _ h; simp [Next.go] at h
  | cons top rest ih =>
    intro it it1 suffix hn hk h
    have hpop : ∀ (hc : top.contrib.length = top.node.keyBytes),
        Next.go rest (PopNode it) = .ok (true, it1) →
        LexLt (base (top :: rest) ++ suffix) it1.current_key ∧
          it1.current_key = base it1.nodes := by
      intro hc h1
      have e2 : (PopNode it).current_key = base rest := by
        rw [PopNode_current_key hn, hk, base, ← hc, Pop_append]
      have := ih (PopNode it) it1 (top.contrib ++ suffix) (PopNode_nodes hn) e2 h1
      simpa [base, List.append_assoc] using this
    rw [Next.go] at h
    by_cases hT : top.node.GetType = NType.PREFIX
    · simp only [hT, if_true] at h
      refine hpop ?_ h
      obtain ⟨node, b⟩ := top
      cases node with
      | pfx g bytes c => rfl
      | inner k g cs => cases k <;> simp [Node.GetType] at hT
      | byteLeaf k bs => cases k <;> simp [Node.GetType] at hT
      | _ => simp [Node.GetType] at hT
    · have hc : top.contrib.length = top.node.keyBytes := by
        obtain ⟨node, b⟩ := top
        cases node with
        | pfx g bytes c => simp [Node.GetType] at hT
        | _ => rfl
      have hc1 : top.contrib = [top.byte] := by
        obtain ⟨node, b⟩ := top
        cases node with
        | pfx g bytes c => simp [Node.GetType] at hT
        | _ => rfl
      simp only [hT, if_false] at h
      by_cases h255 : top.byte = 255
      · simp only [h255, if_true] at h
        exact hpop hc h
      · simp only [h255, if_false] at h
        cases hg : top.node.GetNextChild (top.byte + 1) with
        | error e => simp [hg] at h
        | ok r =>
          cases r with
          | none => simp only [hg] at h; exact hpop hc h
          | some bc =>
            obtain ⟨b1, c1⟩ := bc
            simp only [hg] at h
            cases hf : FindMinimum c1 (replaceTop it top rest b1) with
            | error e => simp [hf] at h
            | ok it2 =>
              simp only [hf, Except.ok.injEq, Prod.mk.injEq, true_and] at h
              subst h
              have hk2 : (replaceTop it top rest b1).current_key = base rest ++ [b1] := by
                simp [replaceTop, hk, base, hc1, Pop, Push]
              have hsync : (replaceTop it top rest b1).current_key =
                  base (replaceTop it top rest b1).nodes := by
                rw [hk2]
                cases hnode : top.node with
                | pfx g bytes c => rw [hnode] at hT; simp [Node.GetType] at hT
                | _ => simp [replaceTop, base, StackFrame.contrib, hnode]
              obtain ⟨⟨x, hx⟩, h2⟩ := FindMinimum_sync c1 _ _ hf hsync
              refine ⟨?_, h2⟩
              rw [hx, hk2, base, hc1]
              have hlt : top.byte < b1 := by
                cases hnode : top.node with
                | inner k g cs =>
                  rw [hnode] at hg
                  simp only [Node.GetNextChild, Except.ok.injEq] at hg
                  have := (GetNextChild_ge hg).1
                  omega
                | _ => rw [hnode] at hg; simp [Node.GetNextChild] at hg
              simp only [List.append_assoc]
              exact LexLt_append_left _ (List.Lex.rel hlt)

theorem GetNextByte_ge {bytes : List Nat} {m b : Nat} (h : GetNextByte bytes m = some b) :
    m ≤ b ∧ b ∈ bytes := by
  induction bytes with
  | nil => simp [GetNextByte] at h
  | cons x rest ih =>
    rw [GetNextByte] at h
    by_cases hx : m ≤ x
    · simp only [hx, if_true, Option.some.injEq] at h
      subst h
      exact ⟨hx, List.mem_cons_self _ _⟩
    · simp only [hx, if_false] at h
      exact ⟨(ih h).1, List.mem_cons_of_mem _ (ih h).2⟩

theorem ascending_le {l : List Nat} (h : ascending l = true) : ∀ b ∈ l, b ≤ 255 := by
  induction l with
  | nil => intro b hb; cases hb
  | cons a rest ih =>
    have h1 := ascending_cons h
    intro b hb
    rcases List.mem_cons.mp hb with hb | hb
    · subst hb; exact h1.1
    · exact ih h1.2.2 b hb

theorem byteLoop_emits (bytes : List Nat) (max_count : Nat) :
    ∀ (fuel byte : Nat) (row_id : List Nat) (out : List Int) (res : Bool × List Nat × List Int),
      Scan.byteLoop bytes max_count fuel byte row_id out = some res →
      ∃ bs : List Nat, res.2.2 = out ++ bs.map (fun b => GetRowID (row_id.set 7 b)) ∧
        ∀ b ∈ bs, b ∈ bytes := by
  intro fuel
  induction fuel with
  | zero => intro byte row_id out res h; simp [Scan.byteLoop] at h
  | succ fuel ih =>
    intro byte row_id out res h
    rw [Scan.byteLoop] at h
    cases hg : GetNextByte bytes byte with
    | none =>
      simp only [hg, Option.some.injEq] at h
      subst h
      exact ⟨[], by simp, by simp⟩
    | some b =>
      have hb := GetNextByte_ge hg
      simp only [hg] at h
      by_cases hcap : out.length + 1 > max_count
      · simp only [hcap, if_true, Option.some.injEq] at h
        subst h
        exact ⟨[], by simp, by simp⟩
      · simp only [hcap, if_false] at h
        by_cases h255 : b = 255
        · simp only [h255, if_true, Option.some.injEq] at h
          subst h
          refine ⟨[255], by simp, ?_⟩
          intro x hx
          simp only [List.mem_singleton] at hx
          subst hx
          exact h255 ▸ hb.2
        · simp only [h255, if_false] at h
          obtain ⟨bs, h1, h2⟩ := ih _ _ _ _ h
          refine ⟨b :: bs, ?_, ?_⟩
          · rw [h1]
            simp [List.set_set]
          · intro x hx
            rcases List.mem_cons.mp hx with hx | hx
            · subst hx; exact hb.2
            · exact h2 x hx

/-- The loop over a byte-set leaf whose bytes are at most 255 finishes within
the 257 passes `Scan.emit` grants it. -/
theorem byteLoop_finishes (bytes : List Nat) (hb : ∀ b ∈ bytes, b ≤ 255) (max_count : Nat) :
    ∀ (fuel byte : Nat) (row_id : List Nat) (out : List Int), byte ≤ 255 → 256 < fuel + byte →
      Scan.byteLoop bytes max_count fuel byte row_id out ≠ none := by
  intro fuel
  induction fuel with
  | zero => intro byte row_id out h1 h2; omega
  | succ fuel ih =>
    intro byte row_id out h1 h2
    rw [Scan.byteLoop]
    cases hg : GetNextByte bytes byte with
    | none => simp
    | some b =>
      have hge := GetNextByte_ge hg
      have hle := hb b hge.2
      simp only
      by_cases hcap : out.length + 1 > max_count
      · simp [hcap]
      · simp only [hcap, if_false]
        by_cases h255 : b = 255
        · simp [h255]
        · simp only [h255, if_false]
          rw [Nat.mod_eq_of_lt (by omega)]
          exact ih _ _ _ (by omega) (by omega)

theorem LexLt_trans {a b c : Bytes} (h1 : LexLt a b) (h2 : LexLt b c) : LexLt a c := by
  induction a generalizing b c with
  | nil =>
    cases b with
    | nil => cases h1
    | cons y b =>
      cases c with
      | nil => cases h2
      | cons z c => exact List.Lex.nil
  | cons x a ih =>
    cases b with
    | nil => cases h1
    | cons y b =>
      cases c with
      | nil => cases h2
      | cons z c =>
        rw [LexLt_cons_cons] at h1 h2 ⊢
        rcases h1 with h1 | ⟨rfl, h1⟩
        · rcases h2 with h2 | ⟨rfl, h2⟩
          · exact Or.inl (by omega)
          · exact Or.inl h1
        · rcases h2 with h2 | ⟨rfl, h2⟩
          · exact Or.inl h2
          · exact Or.inr ⟨rfl, ih h1 h2⟩

theorem pathsOf_head {cs : List (Nat × Node)} {x : Bytes × Node} (hx : x ∈ Node.pathsOf cs) :
    ∃ b q, b ∈ cs.map Prod.fst ∧ x.1 = b :: q := by
  induction cs with
  | nil => simp [Node.pathsOf] at hx
  | cons a rest ih =>
    obtain ⟨b, c⟩ := a
    simp only [Node.pathsOf, List.mem_append, List.mem_map] at hx
    rcases hx with ⟨y, _, rfl⟩ | hx
    · exact ⟨b, y.1, by simp, rfl⟩
    · obtain ⟨b1, q, h1, h2⟩ := ih hx
      exact ⟨b1, q, by simp only [List.map_cons, List.mem_cons]; exact Or.inr h1, h2⟩

theorem paths_sorted (n : Node) (hn : n.WF = true) :
    (n.paths.map Prod.fst).Pairwise LexLt := by
  induction n using Node.induction with
  | h0 => simp [Node.paths]
  | h1 r => simp [Node.paths]
  | h2 r => simp [Node.paths]
  | h3 k bs => simp [Node.paths]
  | h4 bs => simp [Node.paths]
  | h5 g bytes c ih =>
    have hc : c.WF = true := by simpa [Node.WF] using hn
    have := ih hc
    simp only [Node.paths, List.map_map]
    rw [List.pairwise_map] at this ⊢
    exact this.imp (fun h => LexLt_append_left bytes h)
  | h6 k g cs ih =>
    simp only [Node.WF, Bool.and_eq_true] at hn
    obtain ⟨⟨_, hasc⟩, hwfs⟩ := hn
    simp only [Node.paths]
    clear * - ih hasc hwfs
    induction cs with
    | nil => simp [Node.pathsOf]
    | cons a rest ihr =>
      obtain ⟨b, c⟩ := a
      have hasc1 := ascending_cons (by simpa using hasc : ascending (b :: rest.map Prod.fst) = true)
      simp only [Node.WFs, Bool.and_eq_true] at hwfs
      have h1 := ih (b, c) (List.mem_cons_self _ _) hwfs.1
      have h2 := ihr (fun x hx => ih x (List.mem_cons_of_mem _ hx)) hwfs.2 hasc1.2.2
      simp only [Node.pathsOf, List.map_append, List.map_map]
      rw [List.pairwise_append]
      refine ⟨?_, h2, ?_⟩
      · rw [List.pairwise_map] at h1 ⊢
        exact h1.imp (fun h => List.Lex.cons h)
      · intro p hp q hq
        simp only [List.mem_map, Function.comp_apply] at hp hq
        obtain ⟨x, _, rfl⟩ := hp
        obtain ⟨y, hy, rfl⟩ := hq
        obtain ⟨b1, q1, hb1, hq1⟩ := pathsOf_head hy
        rw [hq1]
        exact List.Lex.rel (hasc1.2.1 b1 hb1)

theorem visited_spec : ∀ (fuel : Nat) (it : Iterator) (hd : Bytes × Node)
    (pend : List (Bytes × Node)), At it hd pend → pend.length < fuel →
    visited fuel it = some (hd :: pend) := by
  intro fuel
  induction fuel with
  | zero => intro it hd pend _ h; omega
  | succ fuel ih =>
    intro it hd pend hA hlen
    have hs := Next_spec it hA.wf (by rw [hA.key, hA.sync])
    have hpos : (it.current_key, it.last_leaf) = hd := by rw [hA.key, hA.leaf]
    rw [visited]
    cases pend with
    | nil =>
      obtain ⟨it1, h1, _⟩ := hs.1 hA.rest
      simp [h1, hpos]
    | cons p tl =>
      obtain ⟨it1, h1, h2⟩ := hs.2 p tl hA.rest
      have := ih it1 p tl h2 (by simpa using hlen)
      simp [h1, this, hpos]

/-- C4. On a well-formed tree, `FindMinimum(root)` on a fresh iterator followed
by `Next` until it returns false visits exactly the leaves of the tree, in
stored order, each with its byte path, and no two visited positions have the
same path: no leaf is skipped and none is visited twice. -/
theorem walk_complete (root : Node) (h : root.WF = true) :
    (∀ fuel, root.paths.length ≤ fuel → walk fuel root = some root.paths) ∧
    (root.paths.map Prod.fst).Nodup := by
  constructor
  · intro fuel hf
    obtain ⟨it1, hd, tl, h1, h2, h3⟩ := FindMinimum_spec root h Iterator.fresh
      (by intro f hf; cases hf) rfl
    have e : under Iterator.fresh.current_key = id := by
      funext x; simp [under, Iterator.fresh]
    rw [e] at h3
    simp only [id, List.map_id, Iterator.fresh, pending, List.append_nil] at h3
    rw [walk, h1, h2]
    exact visited_spec fuel it1 hd tl h3 (by rw [h2] at hf; simpa using hf)
  · refine (paths_sorted root h).imp ?_
    intro a b hlt heq
    subst heq
    exact LexLt_irrefl _ hlt

/-- C4 on the example tree, whose four leaves are visited with fuel 4. -/
theorem walk_complete_witness :
    demoTree.WF = true ∧ walk 4 demoTree = some demoTree.paths :=
  ⟨rfl, (walk_complete demoTree rfl).1 4 (by decide)⟩

/-! ## Scan at the end of the tree and at the cap -/

theorem GreaterThan_nil_left (ub : Bytes) (equal : Bool) (h : ub.isEmpty = false) :
    GreaterThan [] ub equal = false := by
  cases ub with
  | nil => simp at h
  | cons x rest => cases equal <;> simp [GreaterThan, GreaterThan.loop]

theorem Next_nil (it : Iterator) (h : it.nodes = []) : Next it = .ok (false, it) := by
  simp [Next, h, Next.go]

theorem Scan_emit_nodes (it : Iterator) (M : Nat) (out : List Int) :
    (∀ r it1 o, Scan.emit it M out = .ret r it1 o → it1.nodes = it.nodes) ∧
    (∀ it1 o, Scan.emit it M out = .next it1 o → it1.nodes = it.nodes) := by
  unfold Scan.emit
  constructor
  · intro r it1 o h
    split at h
    · split at h <;> first | (simp at h; done) | (simp at h; obtain ⟨_, h2, _⟩ := h; subst h2; rfl)
    · split at h <;> first | (simp at h; done) | (simp at h; obtain ⟨_, h2, _⟩ := h; subst h2; rfl)
    · split at h <;> first | (simp at h; done) | (simp at h; obtain ⟨_, h2, _⟩ := h; subst h2; rfl)
    · simp at h
    · simp at h
  · intro it1 o h
    split at h
    · split at h <;> first | (simp at h; done) | (simp at h; obtain ⟨h2, _⟩ := h; subst h2; rfl)
    · split at h <;> first | (simp at h; done) | (simp at h; obtain ⟨h2, _⟩ := h; subst h2; rfl)
    · split at h <;> first | (simp at h; done) | (simp at h; obtain ⟨h2, _⟩ := h; subst h2; rfl)
    · simp at h; obtain ⟨h2, _⟩ := h; subst h2; rfl
    · simp at h

theorem Scan_body_nodes (it : Iterator) (ub : Bytes) (M : Nat) (out : List Int) (eq : Bool) :
    ∀ it1 o, Scan.body it ub M out eq = .next it1 o → it1.nodes = it.nodes := by
  intro it1 o h
  unfold Scan.body at h
  split at h
  · simp at h
  · exact (Scan_emit_nodes it M out).2 it1 o h

/-- C9, counterexample. The single-key tree's iterator, after a `Scan` has
emitted the row id 10 and `Next` has returned false, has an empty stack, yet a
further `Scan` appends the row id 10 once more before it returns true. -/
theorem Scan_exhausted_counterexample :
    singleExhausted.nodes = [] ∧
    Next singleExhausted = .ok (false, singleExhausted) ∧
    resultOf (Scan 1 singleExhausted [] 5 [] true) = some (true, [10]) ∧
    resultOf (Scan 1 singleExhausted [7] 5 [] true) = some (true, [10]) := by
  refine ⟨rfl, rfl, rfl, rfl⟩

/-- C9, amended. On an iterator with an empty stack `Scan` makes exactly one pass
through its loop body on the retained `last_leaf` and then returns: what the
pass returns if it returns, true otherwise.  When moreover `current_key` is
empty and the iterator is outside a gate, as after `Next` has returned false,
and `last_leaf` is a `LEAF_INLINED`, the pass appends its row id and `Scan`
returns true if `out.size() < max_count`, and returns false with `out`
unchanged otherwise, whatever the upper bound. -/
theorem Scan_exhausted (it : Iterator) (h : it.nodes = []) (fuel : Nat) (upper_bound : Bytes)
    (max_count : Nat) (row_ids : List Int) (equal : Bool) :
    Scan (fuel + 1) it upper_bound max_count row_ids equal =
      (match Scan.body it upper_bound max_count row_ids equal with
       | .ret r it1 out => some (.ok (r, it1, out))
       | .throw e out => some (.error (e, out))
       | .stuck => none
       | .next it1 out => some (.ok (true, it1, out))) ∧
    (it.current_key = [] → it.inside_gate = false → ∀ r, it.last_leaf = .leafInlined r →
      Scan (fuel + 1) it upper_bound max_count row_ids equal =
        some (.ok (if row_ids.length + 1 > max_count then (false, it, row_ids)
                   else (true, it, row_ids ++ [r])))) := by
  have key : Scan (fuel + 1) it upper_bound max_count row_ids equal =
      (match Scan.body it upper_bound max_count row_ids equal with
       | .ret r it1 out => some (.ok (r, it1, out))
       | .throw e out => some (.error (e, out))
       | .stuck => none
       | .next it1 out => some (.ok (true, it1, out))) := by
    rw [Scan]
    cases hb : Scan.body it upper_bound max_count row_ids equal with
    | next it1 out =>
      have hn : it1.nodes = [] := by
        rw [Scan_body_nodes it upper_bound max_count row_ids equal it1 out hb, h]
      simp [Next_nil it1 hn]
    | _ => rfl
  refine ⟨key, ?_⟩
  intro hk hg r hl
  rw [key]
  have hbody : Scan.body it upper_bound max_count row_ids equal =
      Scan.emit it max_count row_ids := by
    unfold Scan.body
    cases hu : upper_bound.isEmpty with
    | true => simp
    | false => simp [hk, GreaterThan_nil_left upper_bound equal hu]
  rw [hbody]
  unfold Scan.emit
  rw [hl]
  by_cases hc : row_ids.length + 1 > max_count
  · simp [hc]
  · simp [hc]

/-- C9 (amended) on the exhausted iterator of the single-key tree. -/
theorem Scan_exhausted_witness :
    singleExhausted.nodes = [] ∧
    Scan 1 singleExhausted [7] 5 [] true =
      some (.ok (true, singleExhausted, [10])) :=
  ⟨rfl, ((Scan_exhausted singleExhausted rfl 0 [7] 5 [] true).2 rfl rfl 10 rfl)⟩

/-- C7, the failing input. On `inlinedTree`, positioned by `FindMinimum`, a
`Scan` with `max_count = 1` and an empty output vector returns with two row ids
in it: the `PREFIX_INLINED` case appends without the test against `max_count`
that the other cases make. -/
theorem Scan_cap_exceeded :
    resultOf (Scan 3 inlinedStart [] 1 [] true) = some (true, [5, 263]) ∧
    ([] : List Int).length ≤ 1 ∧ ¬ ([5, 263] : List Int).length ≤ 1 := by
  refine ⟨rfl, by decide, by decide⟩

/-! ## What the iterator refers to -/

theorem allOf_mem {p : Node → Bool} {cs : List (Nat × Node)} (h : Node.allOf p cs = true) :
    ∀ x ∈ cs, x.2.all p = true := by
  induction cs with
  | nil => intro x hx; cases hx
  | cons a rest ih =>
    obtain ⟨b, c⟩ := a
    simp only [Node.allOf, Bool.and_eq_true] at h
    intro x hx
    rcases List.mem_cons.mp hx with hx | hx
    · subst hx; exact h.1
    · exact ih h.2 x hx

theorem FindMinimum_all (p : Node → Bool) (n : Node) :
    ∀ it it1 : Iterator, n.all p = true → (∀ f ∈ it.nodes, f.node.all p = true) →
      FindMinimum n it = .ok it1 → Iterator.all p it1 := by
  induction n using Node.induction with
  | h0 => intro it it1 _ _ h; simp [FindMinimum] at h
  | h1 r =>
    intro it it1 hp hs h
    simp only [FindMinimum, Except.ok.injEq] at h
    subst h
    exact ⟨hp, hs⟩
  | h2 r =>
    intro it it1 hp hs h
    simp only [FindMinimum, Except.ok.injEq] at h
    subst h
    exact ⟨hp, hs⟩
  | h3 k bs =>
    intro it it1 hp hs h
    simp only [FindMinimum, Except.ok.injEq] at h
    subst h
    exact ⟨hp, hs⟩
  | h4 bs =>
    intro it it1 hp hs h
    simp only [FindMinimum, Except.ok.injEq] at h
    subst h
    exact ⟨hp, hs⟩
  | h5 g bytes c ih =>
    intro it it1 hp hs h
    rw [FindMinimum] at h
    have hc : c.all p = true := by
      simp only [Node.all, Bool.and_eq_true] at hp; exact hp.2
    refine ih _ _ hc ?_ h
    intro f hf
    simp only [pushPrefix_nodes, enterGate_nodes, List.mem_cons] at hf
    rcases hf with hf | hf
    · subst hf; exact hp
    · exact hs f hf
  | h6 k g cs ih =>
    intro it it1 hp hs h
    rw [FindMinimum] at h
    have hcs : ∀ x ∈ cs, x.2.all p = true := by
      simp only [Node.all, Bool.and_eq_true] at hp; exact allOf_mem hp.2
    have key : ∀ cs1 : List (Nat × Node), (∀ x ∈ cs1, x ∈ cs) → ∀ (byte : Nat) (it it1 : Iterator),
        (∀ f ∈ it.nodes, f.node.all p = true) →
        FindMinimum.descend (.inner k g cs) cs1 byte it = .ok it1 → Iterator.all p it1 := by
      intro cs1
      induction cs1 with
      | nil => intro _ byte it it1 _ h; simp [FindMinimum.descend] at h
      | cons a rest ihr =>
        obtain ⟨b, c⟩ := a
        intro hsub byte it it1 hs h
        rw [FindMinimum.descend] at h
        by_cases hb : byte ≤ b
        · simp only [hb, if_true] at h
          have hm := hsub _ (List.mem_cons_self _ _)
          refine ih (b, c) hm _ _ (hcs _ hm) ?_ h
          intro f hf
          simp only [mirror_nodes, List.mem_cons] at hf
          rcases hf with hf | hf
          · subst hf; exact hp
          · exact hs f hf
        · simp only [hb, if_false] at h
          exact ihr (fun x hx => hsub x (List.mem_cons_of_mem _ hx)) byte it it1 hs h
    exact key cs (fun x hx => hx) 0 _ it1 (by simpa using hs) h

theorem Next_go_all (p : Node → Bool) : ∀ (s : List StackFrame) (it : Iterator) (r : Bool)
    (it1 : Iterator), it.nodes = s → Iterator.all p it → Next.go s it = .ok (r, it1) →
    Iterator.all p it1 := by
  intro s
  induction s with
  | nil =>
    intro it r it1 _ ha h
    simp only [Next.go, Except.ok.injEq, Prod.mk.injEq] at h
    rw [← h.2]; exact ha
  | cons top rest ih =>
    intro it r it1 hn ha h
    have hpop : Next.go rest (PopNode it) = .ok (r, it1) → Iterator.all p it1 := by
      intro h1
      refine ih (PopNode it) r it1 (PopNode_nodes hn) ⟨?_, ?_⟩ h1
      · rw [PopNode_last_leaf]; exact ha.1
      · intro f hf
        rw [PopNode_nodes hn] at hf
        exact ha.2 f (by rw [hn]; exact List.mem_cons_of_mem _ hf)
    rw [Next.go] at h
    by_cases hT : top.node.GetType = NType.PREFIX
    · simp only [hT, if_true] at h; exact hpop h
    · simp only [hT, if_false] at h
      by_cases h255 : top.byte = 255
      · simp only [h255, if_true] at h; exact hpop h
      · simp only [h255, if_false] at h
        cases hg : top.node.GetNextChild (top.byte + 1) with
        | error e => simp [hg] at h
        | ok res =>
          cases res with
          | none => simp only [hg] at h; exact hpop h
          | some bc =>
            obtain ⟨b1, c1⟩ := bc
            simp only [hg] at h
            cases hf : FindMinimum c1 (replaceTop it top rest b1) with
            | error e => simp [hf] at h
            | ok it2 =>
              simp only [hf, Except.ok.injEq, Prod.mk.injEq] at h
              rw [← h.2]
              have htop : top.node.all p = true := ha.2 top (by rw [hn]; exact List.mem_cons_self _ _)
              have hc1 : c1.all p = true := by
                cases hnode : top.node with
                | inner k g cs =>
                  rw [hnode] at hg htop
                  simp only [Node.GetNextChild, Except.ok.injEq] at hg
                  simp only [Node.all, Bool.and_eq_true] at htop
                  exact allOf_mem htop.2 _ (GetNextChild_ge hg).2
                | _ => rw [hnode] at hg; simp [Node.GetNextChild] at hg
              refine FindMinimum_all p c1 _ _ hc1 ?_ hf
              intro f hf2
              simp only [replaceTop, List.mem_cons] at hf2
              rcases hf2 with hf2 | hf2
              · subst hf2; exact htop
              · exact ha.2 f (by rw [hn]; exact List.mem_cons_of_mem _ hf2)

theorem Next_all (p : Node → Bool) (it : Iterator) (r : Bool) (it1 : Iterator)
    (ha : Iterator.all p it) (h : Next it = .ok (r, it1)) : Iterator.all p it1 :=
  Next_go_all p it.nodes it r it1 rfl ha h

theorem all_self {p : Node → Bool} {n : Node} (h : n.all p = true) : p n = true := by
  cases n <;> simp only [Node.all, Bool.and_eq_true] at h <;> first | exact h | exact h.1

/-- Outside a byte-set leaf, what a pass of the `switch` appends and the iterator
it leaves do not depend on the cap or on the output vector, which only decide
whether the pass appends or returns false. -/
theorem emit_uniform (it : Iterator) (hnb : it.last_leaf.notByteLeaf = true) :
    (∀ m a, Scan.emit it m a = .throw .invalidLeafType a) ∨
    ∃ it1 o, it1.nodes = it.nodes ∧ it1.last_leaf = it.last_leaf ∧
      ∀ m a, Scan.emit it m a = .next it1 (a ++ o) ∨ Scan.emit it m a = .ret false it a := by
  cases hl : it.last_leaf with
  | leafInlined r =>
    right
    refine ⟨it, [r], rfl, hl, ?_⟩
    intro m a
    unfold Scan.emit
    rw [hl]
    by_cases hc : a.length + 1 > m
    · right; simp [hc]
    · left; simp [hc]
  | leaf rs =>
    right
    refine ⟨it, rs, rfl, hl, ?_⟩
    intro m a
    unfold Scan.emit
    rw [hl]
    by_cases hc : a.length + rs.length > m
    · right; simp [DeprecatedGetRowIds, hc]
    · left; simp [DeprecatedGetRowIds, hc]
  | byteLeaf k bs => rw [hl] at hnb; simp [Node.notByteLeaf] at hnb
  | prefixInlined bs =>
    right
    refine ⟨{ it with row_id := Scan.copyPrefix bs it.nested_depth it.row_id },
      [GetRowID (Scan.copyPrefix bs it.nested_depth it.row_id)], rfl, hl, ?_⟩
    intro m a
    left
    unfold Scan.emit
    rw [hl]
  | empty => left; intro m a; unfold Scan.emit; rw [hl]
  | pfx g bytes c => left; intro m a; unfold Scan.emit; rw [hl]
  | inner k g cs => left; intro m a; unfold Scan.emit; rw [hl]

theorem Scan_succ_of_bound {it : Iterator} {ub : Bytes} {eq : Bool}
    (hT : (!ub.isEmpty && !it.inside_gate && GreaterThan it.current_key ub eq) = true)
    (fuel m : Nat) (a : List Int) :
    Scan (fuel + 1) it ub m a eq = some (.ok (true, it, a)) := by
  simp only [Scan, Scan.body, hT, if_true]

theorem Scan_succ_of_emit {it : Iterator} {ub : Bytes} {eq : Bool}
    (hT : (!ub.isEmpty && !it.inside_gate && GreaterThan it.current_key ub eq) = false)
    (fuel m : Nat) (a : List Int) :
    Scan (fuel + 1) it ub m a eq =
      (match Scan.emit it m a with
       | .ret r it1 out => some (.ok (r, it1, out))
       | .throw e out => some (.error (e, out))
       | .stuck => none
       | .next it1 out =>
         match Next it1 with
         | .error e => some (.error (e, out))
         | .ok (false, it2) => some (.ok (true, it2, out))
         | .ok (true, it2) => Scan fuel it2 ub m out eq) := by
  simp only [Scan, Scan.body, hT, Bool.false_eq_true, if_false]

/-- A `Scan` that returned true made its way without meeting the cap: at a
position outside a byte-set leaf its first pass appended and went on. -/
theorem Scan_true_step {it it1 : Iterator} {ub : Bytes} {eq : Bool} {o : List Int}
    (hT : (!ub.isEmpty && !it.inside_gate && GreaterThan it.current_key ub eq) = false)
    (hall : ∀ m a, Scan.emit it m a = .next it1 (a ++ o) ∨ Scan.emit it m a = .ret false it a)
    {F M : Nat} {A : List Int} {res : Iterator × List Int}
    (h : Scan F it ub M A eq = some (.ok (true, res))) :
    ∃ F0, F = F0 + 1 ∧
      (match Next it1 with
       | .error e => some (.error (e, A ++ o))
       | .ok (false, it2) => some (.ok (true, it2, A ++ o))
       | .ok (true, it2) => Scan F0 it2 ub M (A ++ o) eq) = some (.ok (true, res)) := by
  cases F with
  | zero => simp [Scan] at h
  | succ F0 =>
    refine ⟨F0, rfl, ?_⟩
    rw [Scan_succ_of_emit hT] at h
    rcases hall M A with he | he
    · rw [he] at h; exact h
    · rw [he] at h; simp at h

theorem Scan_resume (ub : Bytes) (eq : Bool) : ∀ (fuel : Nat) (it : Iterator) (m : Nat)
    (a : List Int) (r : Bool) (it1 : Iterator) (a1 : List Int),
    Iterator.all Node.notByteLeaf it →
    Scan fuel it ub m a eq = some (.ok (r, it1, a1)) →
    ∃ o, a1 = a ++ o ∧ Iterator.all Node.notByteLeaf it1 ∧
      (r = false → ∀ F M A res, Scan F it ub M A eq = some (.ok (true, res)) →
        ∃ F1, Scan F1 it1 ub M (A ++ o) eq = some (.ok (true, res))) ∧
      (r = true → ∀ F M A it2 A2, Scan F it ub M A eq = some (.ok (true, it2, A2)) →
        A2 = A ++ o) := by
  intro fuel
  induction fuel with
  | zero => intro it m a r it1 a1 _ h; simp [Scan] at h
  | succ fuel ih =>
    intro it m a r it1 a1 ha h
    cases hT : (!ub.isEmpty && !it.inside_gate && GreaterThan it.current_key ub eq) with
    | true =>
      rw [Scan_succ_of_bound hT] at h
      simp only [Option.some.injEq, Except.ok.injEq, Prod.mk.injEq] at h
      obtain ⟨h1, h2, h3⟩ := h
      subst h1 h2 h3
      refine ⟨[], by simp, ha, by simp, ?_⟩
      intro _ F M A it2 A2 h2
      cases F with
      | zero => simp [Scan] at h2
      | succ F0 =>
        rw [Scan_succ_of_bound hT] at h2
        simp only [Option.some.injEq, Except.ok.injEq, Prod.mk.injEq, true_and] at h2
        simp [h2.2]
    | false =>
      rw [Scan_succ_of_emit hT] at h
      rcases emit_uniform it (all_self ha.1) with hthrow | ⟨it', o0, hn, hl, hall⟩
      · rw [hthrow] at h; simp at h
      · have ha' : Iterator.all Node.notByteLeaf it' := by
          refine ⟨by rw [hl]; exact ha.1, ?_⟩
          rw [hn]; exact ha.2
        rcases hall m a with he | he
        · rw [he] at h
          cases hN : Next it' with
          | error e => simp [hN] at h
          | ok p =>
            obtain ⟨b, it2⟩ := p
            have ha2 : Iterator.all Node.notByteLeaf it2 := Next_all _ it' b it2 ha' hN
            cases b with
            | false =>
              simp only [hN, Option.some.injEq, Except.ok.injEq, Prod.mk.injEq] at h
              obtain ⟨h1, h2, h3⟩ := h
              subst h1 h2 h3
              refine ⟨o0, rfl, ha2, by simp, ?_⟩
              intro _ F M A it3 A2 h2
              obtain ⟨F0, _, h3⟩ := Scan_true_step hT hall h2
              simp only [hN, Option.some.injEq, Except.ok.injEq, Prod.mk.injEq] at h3
              exact h3.2.2.symm
            | true =>
              simp only [hN] at h
              obtain ⟨o1, h1, h2, h3, h4⟩ := ih it2 m (a ++ o0) r it1 a1 ha2 h
              refine ⟨o0 ++ o1, by rw [h1, List.append_assoc], h2, ?_, ?_⟩
              · intro hr F M A res hS
                obtain ⟨F0, _, h5⟩ := Scan_true_step hT hall hS
                simp only [hN] at h5
                obtain ⟨F1, h6⟩ := h3 hr F0 M (A ++ o0) res h5
                exact ⟨F1, by rw [← List.append_assoc]; exact h6⟩
              · intro hr F M A it3 A2 hS
                obtain ⟨F0, _, h5⟩ := Scan_true_step hT hall hS
                simp only [hN] at h5
                rw [h4 hr F0 M (A ++ o0) it3 A2 h5, List.append_assoc]
        · rw [he] at h
          simp only [Option.some.injEq, Except.ok.injEq, Prod.mk.injEq] at h
          obtain ⟨h1, h2, h3⟩ := h
          subst h1 h2 h3
          refine ⟨[], by simp, ha, ?_, by simp⟩
          intro _ F M A res hS
          exact ⟨F, by simpa using hS⟩

theorem resultOf_eq_some {x : Option (Except (Fault × List Int) (Bool × Iterator × List Int))} {r : Bool}
    {out : List Int} (h : resultOf x = some (r, out)) : ∃ it, x = some (.ok (r, it, out)) := by
  cases x with
  | none => simp [resultOf] at h
  | some e =>
    cases e with
    | error e => simp [resultOf] at h
    | ok p =>
      obtain ⟨r1, it, o⟩ := p
      simp only [resultOf, Option.some.injEq, Prod.mk.injEq] at h
      exact ⟨it, by rw [h.1, h.2]⟩

theorem ScanCapped_resume (ub : Bytes) (eq : Bool) (fuel : Nat) : ∀ (caps : List Nat)
    (it : Iterator) (outs : List Int), Iterator.all Node.notByteLeaf it →
    cappedResult (ScanCapped fuel caps it ub eq) = some (true, outs) →
    ∀ (F M : Nat) (A : List Int) (it2 : Iterator) (out : List Int),
      Scan F it ub M A eq = some (.ok (true, it2, out)) → out = A ++ outs := by
  intro caps
  induction caps with
  | nil => intro it outs _ h; simp [ScanCapped, cappedResult] at h
  | cons cap caps ih =>
    intro it outs ha h F M A it2 out hS
    rw [ScanCapped] at h
    cases hc : Scan fuel it ub cap [] eq with
    | none => simp [hc, cappedResult] at h
    | some e =>
      cases e with
      | error e => simp [hc, cappedResult] at h
      | ok p =>
        obtain ⟨r, it1, o⟩ := p
        obtain ⟨o1, h1, h2, h3, h4⟩ := Scan_resume ub eq fuel it cap [] r it1 o ha hc
        simp only [List.nil_append] at h1
        subst h1
        cases r with
        | true =>
          simp only [hc, cappedResult, Option.some.injEq, Prod.mk.injEq, true_and] at h
          subst h
          exact h4 rfl F M A it2 out hS
        | false =>
          simp only [hc] at h
          obtain ⟨F1, h5⟩ := h3 rfl F M A (it2, out) hS
          cases hr : ScanCapped fuel caps it1 ub eq with
          | none => simp [hr, cappedResult] at h
          | some q =>
            obtain ⟨r2, it3, o2⟩ := q
            simp only [hr, cappedResult, Option.some.injEq, Prod.mk.injEq] at h
            obtain ⟨hr2, ho⟩ := h
            subst hr2 ho
            have := ih it1 o2 h2 (by rw [hr]; rfl) F1 M (A ++ o) it2 out h5
            rw [this, List.append_assoc]

/-- C6, counterexample. On the example tree the capped calls `Scan(∅, 5)`,
`Scan(∅, 5)` return false and true and yield, concatenated, the row ids 100 and
101 twice, while one `Scan` without cap yields each row id once: the first call
stops inside the byte-set leaf, and the second starts that leaf again from byte
0. -/
theorem ScanCapped_counterexample :
    cappedResult (ScanCapped 10 [5, 5] demoStart [] true) =
      some (true, [10, 20, 40, 100, 101, 100, 101, 102]) ∧
    resultOf (Scan 10 demoStart [] unlimited [] true) =
      some (true, [10, 20, 40, 100, 101, 102]) := by
  refine ⟨rfl, rfl⟩

/-- C6, amended. When neither `last_leaf` nor any node on or below the stack is
a byte-set leaf, the capped calls `Scan(bound, cap_i)`, made on the same iterator
with a drained output vector until one returns true, yield, concatenated, exactly
the row-id sequence of a single `Scan` from the same position that returns
true. -/
theorem ScanCapped_eq_Scan (it : Iterator) (ha : Iterator.all Node.notByteLeaf it)
    (upper_bound : Bytes) (equal : Bool) (fuel : Nat) (caps : List Nat) (outs : List Int)
    (hc : cappedResult (ScanCapped fuel caps it upper_bound equal) = some (true, outs))
    (F max_count : Nat) (out : List Int)
    (hs : resultOf (Scan F it upper_bound max_count [] equal) = some (true, out)) :
    outs = out := by
  obtain ⟨it2, h2⟩ := resultOf_eq_some hs
  have := ScanCapped_resume upper_bound equal fuel caps it outs ha hc F max_count [] it2 out h2
  simpa using this.symm

/-- C6 (amended) on the tree without gate, with the caps 2 and 2. -/
theorem ScanCapped_eq_Scan_witness :
    Iterator.all Node.notByteLeaf plainStart ∧
    cappedResult (ScanCapped 5 [2, 2] plainStart [] true) = some (true, [10, 20, 40]) ∧
    resultOf (Scan 5 plainStart [] unlimited [] true) = some (true, [10, 20, 40]) ∧
    [10, 20, 40] = ([10, 20, 40] : List Int) :=
  ⟨by decide, rfl, rfl,
    ScanCapped_eq_Scan plainStart (by decide) [] true 5 [2, 2] [10, 20, 40] rfl 5 unlimited
      [10, 20, 40] rfl⟩

/-! ## Scan on trees without gate subtrees -/

@[simp] theorem mirror_inside_gate (it : Iterator) (b : Nat) :
    (mirror it b).inside_gate = it.inside_gate := by
  unfold mirror; split <;> rfl

@[simp] theorem pushPrefix_inside_gate (bytes : List Nat) (it : Iterator) :
    (pushPrefix bytes it).inside_gate = it.inside_gate := by
  induction bytes generalizing it with
  | nil => simp [pushPrefix]
  | cons b rest ih => simp [pushPrefix, ih]

theorem enterGate_inside_gate (n : Node) (it : Iterator) :
    (enterGate n it).inside_gate = (it.inside_gate || n.IsGate) := by
  unfold enterGate
  cases h : n.IsGate <;> simp

/-- `FindMinimum` pushes frames on top of the stack, and afterwards the iterator
is inside a gate exactly if it was before or one of the pushed frames holds a
gate. -/
theorem FindMinimum_gate (n : Node) :
    ∀ it it1 : Iterator, FindMinimum n it = .ok it1 →
      ∃ fr, it1.nodes = fr ++ it.nodes ∧
        it1.inside_gate = (it.inside_gate || fr.any (fun f => f.node.IsGate)) := by
  induction n using Node.induction with
  | h0 => intro it it1 h; simp [FindMinimum] at h
  | h1 r =>
    intro it it1 h
    simp only [FindMinimum, Except.ok.injEq] at h
    subst h
    exact ⟨[], by simp, by simp⟩
  | h2 r =>
    intro it it1 h
    simp only [FindMinimum, Except.ok.injEq] at h
    subst h
    exact ⟨[], by simp, by simp⟩
  | h3 k bs =>
    intro it it1 h
    simp only [FindMinimum, Except.ok.injEq] at h
    subst h
    exact ⟨[], by simp, by simp⟩
  | h4 bs =>
    intro it it1 h
    simp only [FindMinimum, Except.ok.injEq] at h
    subst h
    exact ⟨[], by simp, by simp⟩
  | h5 g bytes c ih =>
    intro it it1 h
    rw [FindMinimum] at h
    obtain ⟨fr, h1, h2⟩ := ih _ _ h
    refine ⟨fr ++ [⟨.pfx g bytes c, 0⟩], ?_, ?_⟩
    · rw [h1]; simp
    · rw [h2]
      simp [enterGate_inside_gate, Bool.or_assoc, Bool.or_comm]
  | h6 k g cs ih =>
    have key : ∀ cs1 : List (Nat × Node), (∀ x ∈ cs1, x ∈ cs) → ∀ (byte : Nat) (it it1 : Iterator),
        FindMinimum.descend (.inner k g cs) cs1 byte it = .ok it1 →
        ∃ b fr1, it1.nodes = fr1 ++ ⟨.inner k g cs, b⟩ :: it.nodes ∧
          it1.inside_gate = (it.inside_gate || fr1.any (fun f => f.node.IsGate)) := by
      intro cs1
      induction cs1 with
      | nil => intro _ byte it it1 h; simp [FindMinimum.descend] at h
      | cons a rest ihr =>
        obtain ⟨b, c⟩ := a
        intro hsub byte it it1 h
        rw [FindMinimum.descend] at h
        by_cases hb : byte ≤ b
        · simp only [hb, if_true] at h
          obtain ⟨fr, h1, h2⟩ := ih (b, c) (hsub _ (List.mem_cons_self _ _)) _ _ h
          refine ⟨b, fr, ?_, ?_⟩
          · rw [h1]; simp
          · rw [h2]; simp
        · simp only [hb, if_false] at h
          exact ihr (fun x hx => hsub x (List.mem_cons_of_mem _ hx)) byte it it1 h
    intro it it1 h
    rw [FindMinimum] at h
    obtain ⟨b, fr1, h1, h2⟩ := key cs (fun x hx => hx) 0 _ it1 h
    refine ⟨fr1 ++ [⟨.inner k g cs, b⟩], by simpa using h1, ?_⟩
    rw [h2, enterGate_inside_gate]
    simp [Bool.or_assoc, Bool.or_comm]

theorem LexLt_asymm {a b : Bytes} (h1 : LexLt a b) (h2 : LexLt b a) : False :=
  LexLt_irrefl a (LexLt_trans h1 h2)

theorem GetNextByte_eq_head (bytes : List Nat) (m : Nat) :
    GetNextByte bytes m = (bytes.filter (fun x => decide (m ≤ x))).head? := by
  induction bytes with
  | nil => rfl
  | cons b rest ih =>
    by_cases h : m ≤ b
    · simp [GetNextByte, h]
    · simp [GetNextByte, h, ih]

theorem filter_ge_next {bytes : List Nat} (h : ascending bytes = true) {m b : Nat}
    {F : List Nat} (hF : bytes.filter (fun x => decide (m ≤ x)) = b :: F) :
    bytes.filter (fun x => decide (b + 1 ≤ x)) = F ∧ b ≤ 255 ∧ (b = 255 → F = []) := by
  induction bytes with
  | nil => simp at hF
  | cons x rest ih =>
    have h1 := ascending_cons h
    by_cases hx : m ≤ x
    · rw [List.filter_cons_of_pos (by simpa using hx)] at hF
      injection hF with e1 e2
      subst e1
      have hrest : rest.filter (fun y => decide (m ≤ y)) = rest := by
        rw [List.filter_eq_self]
        intro y hy
        have := h1.2.1 y hy
        simp only [decide_eq_true_eq]; omega
      have hrest2 : rest.filter (fun y => decide (x + 1 ≤ y)) = rest := by
        rw [List.filter_eq_self]
        intro y hy
        have := h1.2.1 y hy
        simp only [decide_eq_true_eq]; omega
      rw [hrest] at e2
      subst e2
      refine ⟨?_, h1.1, ?_⟩
      · rw [List.filter_cons_of_neg (by simp), hrest2]
      · intro h255
        subst h255
        cases rest with
        | nil => rfl
        | cons y ys =>
          have := h1.2.1 y (List.mem_cons_self _ _)
          have := (ascending_cons h1.2.2).1
          omega
    · rw [List.filter_cons_of_neg (by simpa using hx)] at hF
      obtain ⟨e1, e2, e3⟩ := ih h1.2.2 hF
      refine ⟨?_, e2, e3⟩
      have hb : m ≤ b := by
        have hm : b ∈ rest.filter (fun y => decide (m ≤ y)) := by
          rw [hF]; exact List.mem_cons_self _ _
        simpa using (List.mem_filter.mp hm).2
      rw [List.filter_cons_of_neg (by simp; omega)]
      exact e1

theorem At_congr {it it1 : Iterator} {hd : Bytes × Node} {pend : List (Bytes × Node)}
    (h : At it hd pend) (h1 : it1.last_leaf = it.last_leaf) (h2 : it1.current_key = it.current_key)
    (h3 : it1.nodes = it.nodes) : At it1 hd pend :=
  ⟨by rw [h1]; exact h.leaf, by rw [h2]; exact h.key, by rw [h3]; exact h.wf,
    by rw [h3]; exact h.sync, by rw [h3]; exact h.rest⟩

theorem Contains_loop_self (a : Bytes) : ∀ n i, Contains.loop a a n i = true := by
  intro n
  induction n with
  | zero => intro i; rfl
  | succ n ih => intro i; simp [Contains.loop, ih]

theorem Contains_self (a : Bytes) : Contains a a = true := by
  simp [Contains, Contains_loop_self]

@[simp] theorem pushAll_eq (bytes : List Nat) (k : Bytes) : pushAll bytes k = k ++ bytes := by
  induction bytes generalizing k with
  | nil => simp [pushAll]
  | cons b rest ih => simp [pushAll, ih, Push]

@[simp] theorem extend_path (g : Bool) (bytes : Bytes) (x : LeafPos) :
    (LeafPos.extend g bytes x).path = bytes ++ x.path := by
  cases g <;> simp [LeafPos.extend, LeafPos.path]

@[simp] theorem extend_node (g : Bool) (bytes : Bytes) (x : LeafPos) :
    (LeafPos.extend g bytes x).node = x.node := by
  cases g <;> simp [LeafPos.extend]

theorem extend_pos (p : Bytes) (g : Bool) (bytes : Bytes) (x : LeafPos) :
    LeafPos.pos p (LeafPos.extend g bytes x) = LeafPos.pos (p ++ bytes) x := by
  simp [LeafPos.pos]

theorem paths_eq_leaves (n : Node) : n.paths = n.leaves.map (LeafPos.pos []) := by
  induction n using Node.induction with
  | h0 => rfl
  | h1 r => rfl
  | h2 r => rfl
  | h3 k bs => rfl
  | h4 bs => rfl
  | h5 g bytes c ih =>
    simp only [Node.paths, Node.leaves, ih, List.map_map]
    apply List.map_congr_left
    intro x _
    simp [LeafPos.pos]
  | h6 k g cs ih =>
    simp only [Node.paths, Node.leaves]
    induction cs with
    | nil => rfl
    | cons a rest ihr =>
      obtain ⟨b, c⟩ := a
      simp only [Node.pathsOf, Node.leavesOf, List.map_append, List.map_map]
      rw [ihr (fun x hx => ih x (List.mem_cons_of_mem _ hx)), ih (b, c) (List.mem_cons_self _ _)]
      congr 1
      simp only [List.map_map]
      apply List.map_congr_left
      intro x _
      simp [LeafPos.pos]

theorem pathsOf_eq_leavesOf (g : Bool) (cs : List (Nat × Node)) :
    Node.pathsOf cs = (Node.leavesOf g cs).map (LeafPos.pos []) := by
  induction cs with
  | nil => rfl
  | cons a rest ihr =>
    obtain ⟨b, c⟩ := a
    simp only [Node.pathsOf, Node.leavesOf, List.map_append, List.map_map]
    rw [ihr, paths_eq_leaves c]
    congr 1
    simp only [List.map_map]
    apply List.map_congr_left
    intro x _
    simp [LeafPos.pos]

theorem under_pos (p q : Bytes) (x : LeafPos) :
    under p (LeafPos.pos q x) = LeafPos.pos (p ++ q) x := by
  simp [under, LeafPos.pos]

theorem leaves_gate_key {n : Node} (hg : n.IsGate = true) : ∀ x ∈ n.leaves, x.key = [] := by
  cases n with
  | pfx g bytes c =>
    simp only [Node.IsGate] at hg
    subst hg
    intro x hx
    simp only [Node.leaves, List.mem_map] at hx
    obtain ⟨y, _, rfl⟩ := hx
    rfl
  | inner k g cs =>
    simp only [Node.IsGate] at hg
    subst hg
    simp only [Node.leaves]
    induction cs with
    | nil => intro x hx; simp [Node.leavesOf] at hx
    | cons a rest ih =>
      obtain ⟨b, c⟩ := a
      intro x hx
      simp only [Node.leavesOf, List.mem_append, List.mem_map] at hx
      rcases hx with ⟨y, _, rfl⟩ | hx
      · rfl
      · exact ih x hx
  | _ => simp [Node.IsGate] at hg

theorem leaves_leaf_key {n : Node} (hl : n.IsAnyLeaf = true) :
    n.leaves = [{ key := [], sub := [], node := n }] := by
  cases n <;> simp [Node.IsAnyLeaf] at hl <;> rfl

theorem leaves_ne_nil {n : Node} (hn : n.WF = true) : n.leaves ≠ [] := by
  have := paths_ne_nil hn
  rw [paths_eq_leaves] at this
  simpa using this

theorem aboveBound_of_lt {key k : Bytes} (eq : Bool) (h : LexLt k key) :
    aboveBound key eq k = false := by
  cases eq with
  | true => simp [aboveBound, h]
  | false =>
    simp only [aboveBound, Bool.false_eq_true, if_false, decide_eq_false_iff_not]
    exact fun h2 => LexLt_asymm h h2

theorem aboveBound_of_gt {key k : Bytes} (eq : Bool) (h : LexLt key k) :
    aboveBound key eq k = true := by
  cases eq with
  | true =>
    simp only [aboveBound, if_true, Bool.not_eq_true', decide_eq_false_iff_not]
    exact fun h2 => LexLt_asymm h h2
  | false => simp [aboveBound, h]

theorem aboveBound_self (key : Bytes) (eq : Bool) : aboveBound key eq key = eq := by
  cases eq <;> simp [aboveBound, LexLt_irrefl]

theorem LexLt_append_iff (p a b : Bytes) : LexLt (p ++ a) (p ++ b) ↔ LexLt a b := by
  induction p with
  | nil => rfl
  | cons x p ih =>
    simp only [List.cons_append, LexLt_cons_cons, ih]
    constructor
    · rintro (h | ⟨_, h⟩)
      · omega
      · exact h
    · exact fun h => Or.inr ⟨trivial, h⟩

theorem aboveBound_append (p key k : Bytes) (eq : Bool) :
    aboveBound (p ++ key) eq (p ++ k) = aboveBound key eq k := by
  simp [aboveBound, LexLt_append_iff]

theorem LexLt_append_right {a t : Bytes} (ht : t ≠ []) : LexLt a (a ++ t) := by
  induction a with
  | nil =>
    cases t with
    | nil => exact absurd rfl ht
    | cons x t => exact List.Lex.nil
  | cons x a ih => exact List.Lex.cons ih

theorem LexLt_diverge (p : Bytes) {b k : Nat} (t1 t2 : Bytes) (h : b < k) :
    LexLt (p ++ b :: t1) (p ++ k :: t2) :=
  LexLt_append_left p (List.Lex.rel h)

theorem drop_of_getElem? {key : Bytes} {pos k : Nat} (h : key[pos]? = some k) :
    key.drop pos = k :: key.drop (pos + 1) := by
  have hlt : pos < key.length := by
    by_contra hc
    rw [List.getElem?_eq_none (by omega)] at h
    cases h
  rw [List.getElem?_eq_getElem hlt] at h
  simp only [Option.some.injEq] at h
  rw [← h]
  exact List.drop_eq_getElem_cons hlt

theorem drop_of_getElem?_none {key : Bytes} {pos : Nat} (h : key[pos]? = none) :
    key.drop pos = [] := by
  rw [List.getElem?_eq_none_iff] at h
  exact List.drop_eq_nil_of_le h

theorem ARTKey_get_of_some {key : ARTKey} {pos k : Nat} (h : key.bytes[pos]? = some k) :
    key.get pos = k := by
  simp [ARTKey.get, h]

/-- What the comparison of the prefix bytes with the key bytes from `pos` on
finds, unless the key ends inside the prefix, in which case bytes behind the key
are compared. -/
theorem comparePrefix_spec (bytes : List Nat) (key : ARTKey) : ∀ pos : Nat,
    (∃ t, t ≠ [] ∧ bytes = key.bytes.drop pos ++ t) ∨
    match comparePrefix bytes key pos with
    | .eq => ∃ kr, key.bytes.drop pos = bytes ++ kr
    | .lt => ∃ p b k t1 t2, bytes = p ++ b :: t1 ∧ key.bytes.drop pos = p ++ k :: t2 ∧ b < k
    | .gt => ∃ p b k t1 t2, bytes = p ++ b :: t1 ∧ key.bytes.drop pos = p ++ k :: t2 ∧ k < b := by
  induction bytes with
  | nil => intro pos; exact Or.inr ⟨key.bytes.drop pos, rfl⟩
  | cons p0 rest ih =>
    intro pos
    cases hk : key.bytes[pos]? with
    | none =>
      exact Or.inl ⟨p0 :: rest, by simp, by rw [drop_of_getElem?_none hk]; rfl⟩
    | some k =>
      have hd := drop_of_getElem? hk
      rw [comparePrefix, ARTKey_get_of_some hk]
      by_cases h1 : p0 < k
      · right
        simp only [h1, if_true]
        exact ⟨[], p0, k, rest, key.bytes.drop (pos + 1), rfl, hd, h1⟩
      · by_cases h2 : p0 > k
        · right
          simp only [h1, h2, if_true, if_false]
          exact ⟨[], p0, k, rest, key.bytes.drop (pos + 1), rfl, hd, h2⟩
        · have he : p0 = k := by omega
          subst he
          simp only [h1, h2, if_false]
          rcases ih (pos + 1) with ⟨t, h3, h4⟩ | this
          · exact Or.inl ⟨t, h3, by rw [hd, h4]; rfl⟩
          · right
            cases hc : comparePrefix rest key (pos + 1) with
            | eq =>
              rw [hc] at this
              obtain ⟨kr, h3⟩ := this
              exact ⟨kr, by rw [hd, h3]; rfl⟩
            | lt =>
              rw [hc] at this
              obtain ⟨p, b, k1, t1, t2, h3, h4, h5⟩ := this
              exact ⟨p0 :: p, b, k1, t1, t2, by rw [h3]; rfl, by rw [hd, h4]; rfl, h5⟩
            | gt =>
              rw [hc] at this
              obtain ⟨p, b, k1, t1, t2, h3, h4, h5⟩ := this
              exact ⟨p0 :: p, b, k1, t1, t2, by rw [h3]; rfl, by rw [hd, h4]; rfl, h5⟩

theorem List_prefix_nil_key {kr : Bytes} {ls : List LeafPos} (hfit : keyFits kr ls)
    (hne : ls ≠ []) (hkey : ∀ x ∈ ls, x.key = []) : kr = [] := by
  cases ls with
  | nil => exact absurd rfl hne
  | cons x rest =>
    have hx := hkey x (List.mem_cons_self _ _)
    have := hfit x (List.mem_cons_self _ _) (Or.inl (by rw [hx]; exact List.nil_prefix))
    rw [← this, hx]

theorem take_of_drop_nil {key : Bytes} {d : Nat} (h : key.drop d = []) : key.take d = key := by
  have := List.take_append_drop d key
  rw [h, List.append_nil] at this
  exact this

theorem LowerBound_atLeafOrGate_spec (key : ARTKey) (eq : Bool) (n : Node) (hn : n.WF = true)
    (hkeys : ∀ x ∈ n.leaves, x.key = []) (hlg : n.IsAnyLeaf = true ∨ n.IsGate = true)
    (it : Iterator) (d : Nat) (hs : StackWF it.nodes) (hk : it.current_key = base it.nodes)
    (hkd : it.current_key = key.bytes.take d) (hfit : keyFits (key.bytes.drop d) n.leaves) :
    LowerBoundEnds (LowerBound.atLeafOrGate n it key eq) it
      (n.leaves.filter (fun x => aboveBound (key.bytes.drop d) eq x.key)) := by
  have hkr : key.bytes.drop d = [] := List_prefix_nil_key hfit (leaves_ne_nil hn) hkeys
  have hck : it.current_key = key.bytes := by rw [hkd, take_of_drop_nil hkr]
  rw [hkr]
  cases eq with
  | false =>
    left
    constructor
    · rw [List.filter_eq_nil_iff]
      intro x hx
      rw [hkeys x hx, aboveBound_self]
      simp
    · simp [LowerBound.atLeafOrGate, hck, Contains_self]
  | true =>
    right
    have hall : n.leaves.filter (fun x => aboveBound [] true x.key) = n.leaves := by
      rw [List.filter_eq_self]
      intro x hx
      rw [hkeys x hx, aboveBound_self]
    rw [hall]
    cases hg : n.IsGate with
    | true =>
      obtain ⟨it1, hd, tl, h1, h2, h3⟩ := FindMinimum_spec n hn it hs hk
      rw [paths_eq_leaves] at h2
      cases hl : n.leaves with
      | nil => exact absurd hl (leaves_ne_nil hn)
      | cons l0 ls =>
        rw [hl] at h2
        simp only [List.map_cons, List.cons.injEq] at h2
        refine ⟨l0, ls, it1, rfl, ?_, ?_⟩
        · simp [LowerBound.atLeafOrGate, hg, h1]
        · rw [← h2.1, ← h2.2, List.map_map] at h3
          simp only [under_pos, List.append_nil, Function.comp_def] at h3
          exact h3
    | false =>
      have hleaf : n.IsAnyLeaf = true := by
        rcases hlg with h | h
        · exact h
        · rw [hg] at h; cases h
      rw [leaves_leaf_key hleaf]
      refine ⟨_, [], { it with last_leaf := n }, rfl, ?_, ?_⟩
      · simp [LowerBound.atLeafOrGate, hg]
      · exact ⟨rfl, by simp [LeafPos.pos, LeafPos.path], hs,
          by simp [LeafPos.pos, LeafPos.path, hk], by simp⟩

theorem ascending_pairwise {l : List Nat} (h : ascending l = true) : l.Pairwise (· < ·) := by
  induction l with
  | nil => exact List.Pairwise.nil
  | cons a rest ih =>
    have h1 := ascending_cons h
    exact List.Pairwise.cons h1.2.1 (ih h1.2.2)

theorem filter_gt_mid {skipped rest : List (Nat × Node)} {b : Nat} {c : Node}
    (h : ascending ((skipped ++ (b, c) :: rest).map Prod.fst) = true) :
    (skipped ++ (b, c) :: rest).filter (fun x => decide (b < x.1)) = rest := by
  have hp := ascending_pairwise h
  rw [List.map_append, List.pairwise_append] at hp
  obtain ⟨_, h2, h3⟩ := hp
  rw [List.filter_append]
  have e1 : skipped.filter (fun x => decide (b < x.1)) = [] := by
    rw [List.filter_eq_nil_iff]
    intro x hx
    have := h3 x.1 (List.mem_map_of_mem _ hx) b (by simp)
    simp only [decide_eq_true_eq]
    omega
  have e2 : rest.filter (fun x => decide (b < x.1)) = rest := by
    rw [List.filter_eq_self]
    intro x hx
    simp only [List.map_cons, List.pairwise_cons] at h2
    simpa using h2.1 x.1 (List.mem_map_of_mem _ hx)
  rw [e1, List.filter_cons_of_neg (by simp), e2]
  rfl

theorem PopNode_push (it : Iterator) (node : Node) (b : Nat) (c : Bytes)
    (hg : it.inside_gate = false) (hng : node.IsGate = false) (hc : c.length = node.keyBytes) :
    PopNode { it with current_key := it.current_key ++ c, nodes := ⟨node, b⟩ :: it.nodes } = it := by
  cases it with
  | mk ck ns ll rid ig nd =>
    simp only at hg
    subst hg
    simp [PopNode, hng, ← hc, Pop]

theorem leavesOf_key_head {cs : List (Nat × Node)} {x : LeafPos}
    (hx : x ∈ Node.leavesOf false cs) : ∃ b k, b ∈ cs.map Prod.fst ∧ x.key = b :: k := by
  induction cs with
  | nil => simp [Node.leavesOf] at hx
  | cons a rest ih =>
    obtain ⟨b, c⟩ := a
    simp only [Node.leavesOf, List.mem_append, List.mem_map] at hx
    rcases hx with ⟨y, _, rfl⟩ | hx
    · exact ⟨b, y.key, by simp, by simp [LeafPos.extend]⟩
    · obtain ⟨b1, k, h1, h2⟩ := ih hx
      exact ⟨b1, k, by simp only [List.map_cons, List.mem_cons]; exact Or.inr h1, h2⟩

theorem aboveBound_cons_gt {kb b : Nat} (kr k : Bytes) (eq : Bool) (h : kb < b) :
    aboveBound (kb :: kr) eq (b :: k) = true :=
  aboveBound_of_gt eq (List.Lex.rel h)

theorem aboveBound_cons_lt {kb b : Nat} (kr k : Bytes) (eq : Bool) (h : b < kb) :
    aboveBound (kb :: kr) eq (b :: k) = false :=
  aboveBound_of_lt eq (List.Lex.rel h)

theorem filter_leavesOf_all {cs : List (Nat × Node)} {kb : Nat} (kr : Bytes) (eq : Bool)
    (h : ∀ b ∈ cs.map Prod.fst, kb < b) :
    (Node.leavesOf false cs).filter (fun x => aboveBound (kb :: kr) eq x.key) =
      Node.leavesOf false cs := by
  rw [List.filter_eq_self]
  intro x hx
  obtain ⟨b, k, h1, h2⟩ := leavesOf_key_head hx
  rw [h2]
  exact aboveBound_cons_gt kr k eq (h b h1)

theorem filter_extend_same (b : Nat) (kr : Bytes) (eq : Bool) (ls : List LeafPos) :
    (ls.map (LeafPos.extend false [b])).filter (fun x => aboveBound (b :: kr) eq x.key) =
      (ls.filter (fun x => aboveBound kr eq x.key)).map (LeafPos.extend false [b]) := by
  rw [List.filter_map]
  congr 1
  apply List.filter_congr
  intro x _
  exact aboveBound_append [b] kr x.key eq

theorem filter_extend_prefix (bytes kr : Bytes) (eq : Bool) (ls : List LeafPos) :
    (ls.map (LeafPos.extend false bytes)).filter (fun x => aboveBound (bytes ++ kr) eq x.key) =
      (ls.filter (fun x => aboveBound kr eq x.key)).map (LeafPos.extend false bytes) := by
  rw [List.filter_map]
  congr 1
  apply List.filter_congr
  intro x _
  exact aboveBound_append bytes kr x.key eq

theorem filter_extend_lt {b kb : Nat} (kr : Bytes) (eq : Bool) (ls : List LeafPos) (h : b < kb) :
    (ls.map (LeafPos.extend false [b])).filter (fun x => aboveBound (kb :: kr) eq x.key) = [] := by
  rw [List.filter_eq_nil_iff]
  intro x hx
  simp only [List.mem_map] at hx
  obtain ⟨y, _, rfl⟩ := hx
  simp only [LeafPos.extend, Bool.false_eq_true, if_false, List.singleton_append]
  rw [aboveBound_cons_lt kr y.key eq h]
  simp

theorem leavesOf_ne_nil {g : Bool} {cs : List (Nat × Node)} (hne : cs ≠ [])
    (hwf : Node.WFs cs = true) : Node.leavesOf g cs ≠ [] := by
  cases cs with
  | nil => exact absurd rfl hne
  | cons a rest =>
    obtain ⟨b, c⟩ := a
    simp only [Node.WFs, Bool.and_eq_true] at hwf
    have := leaves_ne_nil hwf.1
    simp [Node.leavesOf, this]

theorem contrib_length {f : StackFrame} (h : frameOK f = true) :
    f.contrib.length = f.node.keyBytes := by
  obtain ⟨node, b⟩ := f
  cases node <;> simp [frameOK, Node.IsAnyLeaf, Node.WF] at h <;>
    simp [StackFrame.contrib, Node.keyBytes]

/-- `Next` right after a frame has been pushed on a position outside a gate: it
goes to the first leaf the frame has left or, when it has none, does what `Next`
does from the position before the push. -/
theorem Next_pushed (it : Iterator) (node : Node) (b : Nat) (hs : StackWF it.nodes)
    (hk : it.current_key = base it.nodes) (hg : it.inside_gate = false)
    (hng : node.IsGate = false) (hok : frameOK ⟨node, b⟩ = true) (ls : List LeafPos)
    (hrest : frameRest ⟨node, b⟩ = ls.map (LeafPos.pos [])) :
    LowerBoundEnds
      (Next { it with current_key := it.current_key ++ (⟨node, b⟩ : StackFrame).contrib,
                      nodes := ⟨node, b⟩ :: it.nodes }) it ls := by
  have hs1 : StackWF (⟨node, b⟩ :: it.nodes) := by
    intro f hf
    rcases List.mem_cons.mp hf with hf | hf
    · subst hf; exact hok
    · exact hs f hf
  have hk1 : it.current_key ++ (⟨node, b⟩ : StackFrame).contrib = base (⟨node, b⟩ :: it.nodes) := by
    rw [base, hk]
  cases ls with
  | nil =>
    left
    refine ⟨rfl, ?_⟩
    obtain ⟨e1, _, _⟩ := @Next_go_pop ⟨node, b⟩ it.nodes
      { it with current_key := it.current_key ++ (⟨node, b⟩ : StackFrame).contrib,
                nodes := ⟨node, b⟩ :: it.nodes }
      rfl hs1 hk1 (by simpa using hrest)
    rw [Next, e1, PopNode_push it node b _ hg hng (contrib_length hok)]
    rfl
  | cons l0 ls =>
    right
    have hp : pending (⟨node, b⟩ :: it.nodes) =
        l0.pos it.current_key :: (ls.map (LeafPos.pos it.current_key) ++ pending it.nodes) := by
      simp only [pending, hrest, List.map_cons, List.map_map, List.cons_append, ← hk]
      simp [under_pos, Function.comp_def]
    obtain ⟨it2, h1, h2⟩ := (Next_spec
      { it with current_key := it.current_key ++ (⟨node, b⟩ : StackFrame).contrib,
                nodes := ⟨node, b⟩ :: it.nodes } hs1 hk1).2 _ _ hp
    exact ⟨l0, ls, it2, rfl, h1, h2⟩

theorem pending_pushed (it : Iterator) (f : StackFrame) (hk : it.current_key = base it.nodes)
    (ls : List LeafPos) (hrest : frameRest f = ls.map (LeafPos.pos [])) :
    pending (f :: it.nodes) = ls.map (LeafPos.pos it.current_key) ++ pending it.nodes := by
  simp only [pending, hrest, List.map_map, ← hk]
  simp [under_pos, Function.comp_def]

theorem LowerBoundEnds_lift (it : Iterator) (node : Node) (b : Nat) (hs : StackWF it.nodes)
    (hk : it.current_key = base it.nodes) (hg : it.inside_gate = false)
    (hng : node.IsGate = false) (hok : frameOK ⟨node, b⟩ = true) (ls : List LeafPos)
    (hrest : frameRest ⟨node, b⟩ = ls.map (LeafPos.pos []))
    (res : Except Fault (Bool × Iterator)) (candc : List LeafPos)
    (h : LowerBoundEnds res
      { it with current_key := it.current_key ++ (⟨node, b⟩ : StackFrame).contrib,
                nodes := ⟨node, b⟩ :: it.nodes } candc) :
    LowerBoundEnds res it
      (candc.map (LeafPos.extend false (⟨node, b⟩ : StackFrame).contrib) ++ ls) := by
  rcases h with ⟨hnil, hres⟩ | ⟨hd, tl, it2, hc, hres, hA⟩
  · subst hnil
    rw [hres]
    simpa using Next_pushed it node b hs hk hg hng hok ls hrest
  · right
    subst hc
    refine ⟨hd.extend false (⟨node, b⟩ : StackFrame).contrib,
      tl.map (LeafPos.extend false (⟨node, b⟩ : StackFrame).contrib) ++ ls, it2, rfl, hres, ?_⟩
    simp only at hA
    rw [pending_pushed it ⟨node, b⟩ hk ls hrest] at hA
    rw [extend_pos, List.map_append, List.map_map, List.append_assoc]
    have e : (LeafPos.pos it.current_key ∘ LeafPos.extend false (⟨node, b⟩ : StackFrame).contrib) =
        LeafPos.pos (it.current_key ++ (⟨node, b⟩ : StackFrame).contrib) := by
      funext x; exact extend_pos _ _ _ _
    rw [e]
    exact hA

theorem FindMinimum_pushed (it : Iterator) (node : Node) (b : Nat) (hs : StackWF it.nodes)
    (hk : it.current_key = base it.nodes) (hok : frameOK ⟨node, b⟩ = true) (ls : List LeafPos)
    (hrest : frameRest ⟨node, b⟩ = ls.map (LeafPos.pos [])) (c : Node) (hc : c.WF = true) :
    ∃ it2, FindMinimum c
        { it with current_key := it.current_key ++ (⟨node, b⟩ : StackFrame).contrib,
                  nodes := ⟨node, b⟩ :: it.nodes } = .ok it2 ∧
      LowerBoundEnds (.ok (true, it2)) it
        (c.leaves.map (LeafPos.extend false (⟨node, b⟩ : StackFrame).contrib) ++ ls) := by
  have hs1 : StackWF (⟨node, b⟩ :: it.nodes) := by
    intro f hf
    rcases List.mem_cons.mp hf with hf | hf
    · subst hf; exact hok
    · exact hs f hf
  have hk1 : it.current_key ++ (⟨node, b⟩ : StackFrame).contrib = base (⟨node, b⟩ :: it.nodes) := by
    rw [base, hk]
  obtain ⟨it2, hd, tl, h1, h2, h3⟩ := FindMinimum_spec c hc
    { it with current_key := it.current_key ++ (⟨node, b⟩ : StackFrame).contrib,
              nodes := ⟨node, b⟩ :: it.nodes } hs1 hk1
  refine ⟨it2, h1, ?_⟩
  right
  rw [paths_eq_leaves] at h2
  cases hl : c.leaves with
  | nil => exact absurd hl (leaves_ne_nil hc)
  | cons l0 rest =>
    rw [hl] at h2
    simp only [List.map_cons, List.cons.injEq] at h2
    refine ⟨l0.extend false (⟨node, b⟩ : StackFrame).contrib,
      rest.map (LeafPos.extend false (⟨node, b⟩ : StackFrame).contrib) ++ ls, it2, rfl, rfl, ?_⟩
    simp only at h3
    rw [pending_pushed it ⟨node, b⟩ hk ls hrest, ← h2.1, ← h2.2, List.map_map] at h3
    simp only [under_pos, List.append_nil, Function.comp_def] at h3
    rw [extend_pos, List.map_append, List.map_map, List.append_assoc]
    have e : (LeafPos.pos it.current_key ∘ LeafPos.extend false (⟨node, b⟩ : StackFrame).contrib) =
        LeafPos.pos (it.current_key ++ (⟨node, b⟩ : StackFrame).contrib) := by
      funext x; exact extend_pos _ _ _ _
    rw [e]
    exact h3

theorem take_drop_append {key bytes kr : Bytes} {d : Nat} (h : key.drop d = bytes ++ kr) :
    key.take (d + bytes.length) = key.take d ++ bytes ∧ key.drop (d + bytes.length) = kr := by
  constructor
  · rw [List.take_add, h]
    simp
  · rw [← List.drop_drop, h]
    simp

theorem keyFits_extend {bytes kr : Bytes} {ls : List LeafPos}
    (h : keyFits (bytes ++ kr) (ls.map (LeafPos.extend false bytes))) : keyFits kr ls := by
  intro x hx hp
  have := h (x.extend false bytes) (List.mem_map_of_mem _ hx)
    (by
      rcases hp with hp | hp
      · left; simpa [LeafPos.extend] using (List.prefix_append_right_inj bytes).mpr hp
      · right; simpa [LeafPos.extend] using (List.prefix_append_right_inj bytes).mpr hp)
  simpa [LeafPos.extend] using this

theorem keyFits_append_left {kr : Bytes} {l1 l2 : List LeafPos} (h : keyFits kr (l1 ++ l2)) :
    keyFits kr l1 := fun x hx => h x (List.mem_append_left _ hx)

theorem keyFits_append_right {kr : Bytes} {l1 l2 : List LeafPos} (h : keyFits kr (l1 ++ l2)) :
    keyFits kr l2 := fun x hx => h x (List.mem_append_right _ hx)

theorem LowerBoundEnds_congr {res : Except Fault (Bool × Iterator)} {it : Iterator}
    {c1 c2 : List LeafPos} (h : LowerBoundEnds res it c1) (e : c2 = c1) :
    LowerBoundEnds res it c2 := e ▸ h

theorem LowerBound_descend_spec (key : ARTKey) (eq : Bool) (k : FanOut) (cs : List (Nat × Node))
    (hasc : ascending (cs.map Prod.fst) = true) (hwfs : Node.WFs cs = true) (hne : cs ≠ [])
    (ih : ∀ x ∈ cs, ∀ (it : Iterator) (d : Nat), StackWF it.nodes →
      it.current_key = base it.nodes → it.inside_gate = false →
      it.current_key = key.bytes.take d → keyFits (key.bytes.drop d) x.2.leaves →
      LowerBoundEnds (LowerBound x.2 it key eq d) it
        (x.2.leaves.filter (fun y => aboveBound (key.bytes.drop d) eq y.key)))
    (it : Iterator) (d : Nat) (hs : StackWF it.nodes) (hk : it.current_key = base it.nodes)
    (hg : it.inside_gate = false) (hkd : it.current_key = key.bytes.take d) (kb : Nat)
    (kr : Bytes) (hdrop : key.bytes.drop d = kb :: kr) :
    ∀ (cs1 skipped : List (Nat × Node)), cs = skipped ++ cs1 →
      keyFits (kb :: kr) (Node.leavesOf false cs1) →
      LowerBoundEnds (LowerBound.descend (.inner k false cs) kb cs1 it key eq d) it
        ((Node.leavesOf false cs1).filter (fun y => aboveBound (kb :: kr) eq y.key)) := by
  intro cs1
  induction cs1 with
  | nil =>
    intro skipped _ _
    left
    exact ⟨rfl, rfl⟩
  | cons a rest ihr =>
    obtain ⟨b, c⟩ := a
    intro skipped hcs hfit
    have hmem : (b, c) ∈ cs := by rw [hcs]; simp
    have hc : c.WF = true := WFs_mem hwfs _ hmem
    have hok : frameOK ⟨.inner k false cs, b⟩ = true := by
      simp [frameOK, Node.WF, hne, hasc, hwfs, Node.IsAnyLeaf]
    have hrest : frameRest ⟨.inner k false cs, b⟩ =
        (Node.leavesOf false rest).map (LeafPos.pos []) := by
      simp only [frameRest]
      rw [← pathsOf_eq_leavesOf, hcs, filter_gt_mid (by rw [← hcs]; exact hasc)]
    have hrestgt : ∀ b1 ∈ rest.map Prod.fst, b < b1 := by
      have hp := ascending_pairwise hasc
      rw [hcs, List.map_append, List.pairwise_append] at hp
      have := hp.2.1
      simp only [List.map_cons, List.pairwise_cons] at this
      exact this.1
    rw [LowerBound.descend]
    simp only [Node.leavesOf, List.filter_append]
    by_cases hle : kb ≤ b
    · simp only [hle, if_true]
      by_cases hgt : b > kb
      · simp only [hgt, if_true]
        obtain ⟨it2, h1, h2⟩ := FindMinimum_pushed it (.inner k false cs) b hs hk hok _ hrest c hc
        have e1 : ({ it with current_key := Push it.current_key b,
                             nodes := ⟨.inner k false cs, b⟩ :: it.nodes } : Iterator) =
            { it with current_key := it.current_key ++ (⟨.inner k false cs, b⟩ : StackFrame).contrib,
                      nodes := ⟨.inner k false cs, b⟩ :: it.nodes } := rfl
        rw [e1, h1]
        refine LowerBoundEnds_congr h2 ?_
        congr 1
        · show _ = List.map (LeafPos.extend false [b]) c.leaves
          rw [List.filter_eq_self]
          intro x hx
          simp only [List.mem_map] at hx
          obtain ⟨y, _, rfl⟩ := hx
          simp only [LeafPos.extend, Bool.false_eq_true, if_false, List.singleton_append]
          exact aboveBound_cons_gt kr y.key eq hgt
        · exact filter_leavesOf_all kr eq (fun b1 hb1 => by have := hrestgt b1 hb1; omega)
      · have hbk : b = kb := by omega
        subst hbk
        simp only [hgt, if_false]
        have htd := @take_drop_append key.bytes [b] kr d hdrop
        have hs1 : StackWF (⟨.inner k false cs, b⟩ :: it.nodes) := by
          intro f hf
          rcases List.mem_cons.mp hf with hf | hf
          · subst hf; exact hok
          · exact hs f hf
        have := ih (b, c) hmem
          { it with current_key := Push it.current_key b,
                    nodes := ⟨.inner k false cs, b⟩ :: it.nodes } (d + 1) hs1
          (by simp [base, StackFrame.contrib, Push, hk]) hg
          (by simp only [Push]; rw [hkd]; exact htd.1.symm)
          (by
            have h2 : key.bytes.drop (d + 1) = kr := htd.2
            rw [h2]
            exact @keyFits_extend [b] kr _ (keyFits_append_left hfit))
        have h2 : key.bytes.drop (d + 1) = kr := htd.2
        rw [h2] at this
        have := LowerBoundEnds_lift it (.inner k false cs) b hs hk hg rfl hok _ hrest _ _ this
        refine LowerBoundEnds_congr this ?_
        congr 1
        · exact filter_extend_same b kr eq c.leaves
        · exact filter_leavesOf_all kr eq hrestgt
    · simp only [hle, if_false]
      have := ihr (skipped ++ [(b, c)]) (by rw [hcs]; simp) (keyFits_append_right hfit)
      refine LowerBoundEnds_congr this ?_
      rw [filter_extend_lt kr eq c.leaves (by omega)]
      rfl

/-- `LowerBound` below a well-formed node, entered outside a gate with
`current_key` the first `depth` bytes of the key: it ends in one of the two
ways of `LowerBoundEnds` for the leaves of the node whose key meets the bound. -/
theorem LowerBound_spec (key : ARTKey) (eq : Bool) (n : Node) (hn : n.WF = true) :
    ∀ (it : Iterator) (d : Nat), StackWF it.nodes → it.current_key = base it.nodes →
      it.inside_gate = false → it.current_key = key.bytes.take d →
      keyFits (key.bytes.drop d) n.leaves →
      LowerBoundEnds (LowerBound n it key eq d) it
        (n.leaves.filter (fun y => aboveBound (key.bytes.drop d) eq y.key)) := by
  induction n using Node.induction with
  | h0 => simp [Node.WF] at hn
  | h1 r =>
    intro it d hs hk _ hkd hfit
    exact LowerBound_atLeafOrGate_spec key eq _ hn (by simp [Node.leaves]) (Or.inl rfl) it d hs hk
      hkd hfit
  | h2 rs =>
    intro it d hs hk _ hkd hfit
    exact LowerBound_atLeafOrGate_spec key eq _ hn (by simp [Node.leaves]) (Or.inl rfl) it d hs hk
      hkd hfit
  | h3 k bs =>
    intro it d hs hk _ hkd hfit
    exact LowerBound_atLeafOrGate_spec key eq _ hn (by simp [Node.leaves]) (Or.inl rfl) it d hs hk
      hkd hfit
  | h4 bs =>
    intro it d hs hk _ hkd hfit
    exact LowerBound_atLeafOrGate_spec key eq _ hn (by simp [Node.leaves]) (Or.inl rfl) it d hs hk
      hkd hfit
  | h5 g bytes c ih =>
    intro it d hs hk hg hkd hfit
    cases g with
    | true =>
      have := LowerBound_atLeafOrGate_spec key eq (.pfx true bytes c) hn
        (leaves_gate_key rfl) (Or.inr rfl) it d hs hk hkd hfit
      simpa [LowerBound] using this
    | false =>
      have hc : c.WF = true := by simpa [Node.WF] using hn
      have hok : frameOK ⟨.pfx false bytes c, 0⟩ = true := by
        simp [frameOK, Node.WF, hc, Node.IsAnyLeaf]
      have hrest : frameRest ⟨.pfx false bytes c, 0⟩ = ([] : List LeafPos).map (LeafPos.pos []) :=
        rfl
      have e1 : ({ it with current_key := pushAll bytes it.current_key,
                           nodes := ⟨.pfx false bytes c, 0⟩ :: it.nodes } : Iterator) =
          { it with current_key := it.current_key ++ (⟨.pfx false bytes c, 0⟩ : StackFrame).contrib,
                    nodes := ⟨.pfx false bytes c, 0⟩ :: it.nodes } := by
        simp [StackFrame.contrib]
      rw [LowerBound]
      simp only [Bool.false_eq_true, if_false, Node.leaves]
      rw [e1]
      rcases comparePrefix_spec bytes key d with ⟨t, ht, hb⟩ | hcmp
      · exfalso
        cases hl : c.leaves with
        | nil => exact leaves_ne_nil hc hl
        | cons y ys =>
          have hmem : y.extend false bytes ∈ (Node.pfx false bytes c).leaves := by
            simp only [Node.leaves, hl]
            exact List.mem_map_of_mem _ (List.mem_cons_self _ _)
          have hxk : (y.extend false bytes).key = key.bytes.drop d ++ (t ++ y.key) := by
            simp only [LeafPos.extend, Bool.false_eq_true, if_false]
            rw [hb, List.append_assoc]
          have := hfit _ hmem (Or.inr (by rw [hxk]; exact List.prefix_append _ _))
          rw [hxk] at this
          have hlen := congrArg List.length this
          simp only [List.length_append] at hlen
          cases t with
          | nil => exact ht rfl
          | cons t0 ts => simp at hlen
      cases hcp : comparePrefix bytes key d with
      | lt =>
        rw [hcp] at hcmp
        obtain ⟨p, b, k1, t1, t2, hb, hkr, hlt⟩ := hcmp
        have hnone : (c.leaves.map (LeafPos.extend false bytes)).filter
            (fun y => aboveBound (key.bytes.drop d) eq y.key) = [] := by
          rw [List.filter_eq_nil_iff]
          intro x hx
          simp only [List.mem_map] at hx
          obtain ⟨y, _, rfl⟩ := hx
          rw [aboveBound_of_lt]
          · simp
          · simp only [LeafPos.extend, Bool.false_eq_true, if_false]
            rw [hb, hkr, List.append_assoc]
            exact LexLt_diverge p _ _ hlt
        rw [hnone]
        simpa using Next_pushed it (.pfx false bytes c) 0 hs hk hg rfl hok [] hrest
      | gt =>
        rw [hcp] at hcmp
        obtain ⟨p, b, k1, t1, t2, hb, hkr, hlt⟩ := hcmp
        have hall : (c.leaves.map (LeafPos.extend false bytes)).filter
            (fun y => aboveBound (key.bytes.drop d) eq y.key) =
            c.leaves.map (LeafPos.extend false bytes) := by
          rw [List.filter_eq_self]
          intro x hx
          simp only [List.mem_map] at hx
          obtain ⟨y, _, rfl⟩ := hx
          apply aboveBound_of_gt
          simp only [LeafPos.extend, Bool.false_eq_true, if_false]
          rw [hb, hkr, List.append_assoc]
          exact LexLt_diverge p _ _ hlt
        rw [hall]
        obtain ⟨it2, h1, h2⟩ := FindMinimum_pushed it (.pfx false bytes c) 0 hs hk hok [] hrest c hc
        simp only [h1]
        simpa [StackFrame.contrib] using h2
      | eq =>
        rw [hcp] at hcmp
        obtain ⟨kr, hkr⟩ := hcmp
        have htd := take_drop_append hkr
        have hs1 : StackWF (⟨.pfx false bytes c, 0⟩ :: it.nodes) := by
          intro f hf
          rcases List.mem_cons.mp hf with hf | hf
          · subst hf; exact hok
          · exact hs f hf
        have hfit1 : keyFits kr c.leaves := by
          apply @keyFits_extend bytes kr
          rw [← hkr]
          simpa [Node.leaves] using hfit
        have := ih hc
          { it with current_key := it.current_key ++ (⟨.pfx false bytes c, 0⟩ : StackFrame).contrib,
                    nodes := ⟨.pfx false bytes c, 0⟩ :: it.nodes } (d + bytes.length) hs1
          (by simp [base, hk]) hg
          (by simp only [StackFrame.contrib]; rw [hkd]; exact htd.1.symm)
          (by rw [htd.2]; exact hfit1)
        rw [htd.2] at this
        have := LowerBoundEnds_lift it (.pfx false bytes c) 0 hs hk hg rfl hok [] hrest _ _ this
        simp only
        refine LowerBoundEnds_congr this ?_
        rw [hkr, filter_extend_prefix]
        simp [StackFrame.contrib]
  | h6 k g cs ih =>
    intro it d hs hk hg hkd hfit
    cases g with
    | true =>
      have := LowerBound_atLeafOrGate_spec key eq (.inner k true cs) hn
        (leaves_gate_key rfl) (Or.inr rfl) it d hs hk hkd hfit
      simpa [LowerBound] using this
    | false =>
      simp only [Node.WF, Bool.and_eq_true, Bool.not_eq_true', List.isEmpty_eq_false] at hn
      obtain ⟨⟨hne, hasc⟩, hwfs⟩ := hn
      rw [LowerBound]
      simp only [Bool.false_eq_true, if_false, Node.leaves]
      cases hkd1 : key.bytes[d]? with
      | none =>
        exfalso
        have hnil := drop_of_getElem?_none hkd1
        cases hl : Node.leavesOf false cs with
        | nil => exact leavesOf_ne_nil hne hwfs hl
        | cons x xs =>
          have hx : x ∈ Node.leavesOf false cs := by rw [hl]; exact List.mem_cons_self _ _
          obtain ⟨b, k1, _, h2⟩ := leavesOf_key_head hx
          have := hfit x (by simpa [Node.leaves] using hx)
            (Or.inr (by rw [hnil]; exact List.nil_prefix))
          rw [hnil, h2] at this
          cases this
      | some kb =>
        have hdrop := drop_of_getElem? hkd1
        rw [ARTKey_get_of_some hkd1, hdrop]
        exact LowerBound_descend_spec key eq k cs hasc hwfs hne
          (fun x hx it d h1 h2 h3 h4 h5 => ih x hx (WFs_mem hwfs x hx) it d h1 h2 h3 h4 h5)
          it d hs hk hg hkd kb _ hdrop cs [] rfl (by rw [← hdrop]; simpa [Node.leaves] using hfit)

theorem leaves_path_sorted (n : Node) (hn : n.WF = true) :
    (n.leaves.map LeafPos.path).Pairwise LexLt := by
  have := paths_sorted n hn
  rw [paths_eq_leaves, List.map_map] at this
  have e : (Prod.fst ∘ LeafPos.pos []) = LeafPos.path := by
    funext x; simp [LeafPos.pos]
  rw [e] at this
  exact this

theorem pairwise_of_all {α : Type} {R : α → α → Prop} {l : List α}
    (h : ∀ x ∈ l, ∀ y ∈ l, R x y) : l.Pairwise R := by
  induction l with
  | nil => exact List.Pairwise.nil
  | cons a rest ih =>
    refine List.Pairwise.cons (fun y hy => h a (List.mem_cons_self _ _) y
      (List.mem_cons_of_mem _ hy)) (ih ?_)
    exact fun x hx y hy => h x (List.mem_cons_of_mem _ hx) y (List.mem_cons_of_mem _ hy)

theorem keyLe_extend (g : Bool) (bytes : Bytes) {x y : LeafPos} (h : keyLe x y) :
    keyLe (x.extend g bytes) (y.extend g bytes) := by
  cases g with
  | true => exact Or.inl rfl
  | false =>
    rcases h with h | h
    · left; simp [LeafPos.extend, h]
    · right; simp only [LeafPos.extend, Bool.false_eq_true, if_false]
      exact LexLt_append_left bytes h

theorem leaves_key_sorted (n : Node) (hn : n.WF = true) : n.leaves.Pairwise keyLe := by
  induction n using Node.induction with
  | h0 => simp [Node.leaves]
  | h1 r => simp [Node.leaves]
  | h2 r => simp [Node.leaves]
  | h3 k bs => simp [Node.leaves]
  | h4 bs => simp [Node.leaves]
  | h5 g bytes c ih =>
    have hc : c.WF = true := by simpa [Node.WF] using hn
    simp only [Node.leaves]
    rw [List.pairwise_map]
    exact (ih hc).imp (fun h => keyLe_extend g bytes h)
  | h6 k g cs ih =>
    cases g with
    | true =>
      apply pairwise_of_all
      intro x hx y hy
      left
      rw [leaves_gate_key (n := .inner k true cs) rfl x hx,
        leaves_gate_key (n := .inner k true cs) rfl y hy]
    | false =>
      simp only [Node.WF, Bool.and_eq_true] at hn
      obtain ⟨⟨_, hasc⟩, hwfs⟩ := hn
      simp only [Node.leaves]
      clear * - ih hasc hwfs
      induction cs with
      | nil => simp [Node.leavesOf]
      | cons a rest ihr =>
        obtain ⟨b, c⟩ := a
        have hasc1 := ascending_cons (by simpa using hasc : ascending (b :: rest.map Prod.fst) = true)
        simp only [Node.WFs, Bool.and_eq_true] at hwfs
        have h1 := ih (b, c) (List.mem_cons_self _ _) hwfs.1
        have h2 := ihr (fun x hx => ih x (List.mem_cons_of_mem _ hx)) hwfs.2 hasc1.2.2
        simp only [Node.leavesOf]
        rw [List.pairwise_append]
        refine ⟨?_, h2, ?_⟩
        · rw [List.pairwise_map]
          exact h1.imp (fun h => keyLe_extend false [b] h)
        · intro p hp q hq
          simp only [List.mem_map] at hp
          obtain ⟨x, _, rfl⟩ := hp
          obtain ⟨b1, k1, hb1, hq1⟩ := leavesOf_key_head hq
          right
          rw [hq1]
          simp only [LeafPos.extend, Bool.false_eq_true, if_false, List.singleton_append]
          exact List.Lex.rel (hasc1.2.1 b1 hb1)

theorem LowerBound_root (root : Node) (hroot : root.WF = true) (key : ARTKey) (equal : Bool)
    (hfit : keyFits key.bytes root.leaves) :
    LowerBoundEnds (LowerBound root Iterator.fresh key equal 0) Iterator.fresh
      (root.leaves.filter (fun y => aboveBound key.bytes equal y.key)) := by
  have := LowerBound_spec key equal root hroot Iterator.fresh 0 (by intro f hf; cases hf) rfl rfl
    rfl (by simpa using hfit)
  simpa using this

/-- C2, counterexample. On the tree with the keys `01 02`, `01 03` and `02 00`,
`LowerBound(key = 01, equal = true)` on a fresh iterator, with the byte `c8` in
memory behind the one byte of the key, returns true with `last_leaf` the leaf of
key `02 00`, while the leaf of key `01 02` is smaller and its key is `≥ 01`: at
the node below the byte `01` line 172 reads `key[1]`, past the end of the key,
finds no child with a byte `≥ c8` and goes on with `Next`. -/
theorem LowerBound_counterexample :
    plainTree.WF = true ∧
    flagOf (LowerBound plainTree Iterator.fresh (ARTKey.of [1] 200) true 0) = some true ∧
    (okOr (false, Iterator.fresh)
      (LowerBound plainTree Iterator.fresh (ARTKey.of [1] 200) true 0)).2.last_leaf
      = .leafInlined 40 ∧
    (okOr (false, Iterator.fresh)
      (LowerBound plainTree Iterator.fresh (ARTKey.of [1] 200) true 0)).2.current_key
      = [2, 0] ∧
    aboveBound [1] true [1, 2] = true ∧ aboveBound [2, 0] true [1, 2] = false ∧
    plainTree.leaves.map LeafPos.key = [[1, 2], [1, 3], [2, 0]] := by
  refine ⟨rfl, rfl, rfl, rfl, by decide, by decide, rfl⟩

/-- C2, amended. For every well-formed tree and every key that is prefix-free
against the stored keys (no stored key is a proper prefix of it, and it is a
proper prefix of no stored key), whatever the memory holds behind the key,
`LowerBound(root, key, equal)` on a fresh iterator returns, and if it returns
true then `last_leaf` is the smallest leaf, in the order of the byte paths and
so of the keys, whose key is `≥ key` when `equal` is true, or `> key` when it is
false, and `current_key` is its byte path; with `equal = true` the key of that
leaf is `key` if and only if `key` is stored in the tree, and with
`equal = false` it is not `key`. -/
theorem LowerBound_positions (root : Node) (hroot : root.WF = true) (key : ARTKey) (equal : Bool)
    (hfit : keyFits key.bytes root.leaves) :
    ∃ (r : Bool) (it1 : Iterator), LowerBound root Iterator.fresh key equal 0 = .ok (r, it1) ∧
      (r = true →
        ∃ x ∈ root.leaves, it1.last_leaf = x.node ∧ it1.current_key = x.path ∧
          aboveBound key.bytes equal x.key = true ∧
          (∀ y ∈ root.leaves, aboveBound key.bytes equal y.key = true →
            (y.path = x.path ∨ LexLt x.path y.path) ∧ keyLe x y) ∧
          (equal = true → (x.key = key.bytes ↔ ∃ y ∈ root.leaves, y.key = key.bytes)) ∧
          (equal = false → x.key ≠ key.bytes)) := by
  rcases LowerBound_root root hroot key equal hfit with ⟨_, hres⟩ | ⟨hd, tl, it2, hc, hres, hA⟩
  · rw [hres, Next_nil _ rfl]
    exact ⟨false, _, rfl, fun h => by cases h⟩
  · refine ⟨true, it2, hres, fun _ => ?_⟩
    have hmem : hd ∈ root.leaves.filter (fun y => aboveBound key.bytes equal y.key) := by
      rw [hc]; exact List.mem_cons_self _ _
    have hps := (leaves_path_sorted root hroot)
    rw [List.pairwise_map] at hps
    have hps1 := hps.sublist (List.filter_sublist (p := fun y => aboveBound key.bytes equal y.key)
      (l := root.leaves))
    have hks1 := (leaves_key_sorted root hroot).sublist
      (List.filter_sublist (p := fun y => aboveBound key.bytes equal y.key) (l := root.leaves))
    rw [hc, List.pairwise_cons] at hps1 hks1
    have hmin : ∀ y ∈ root.leaves, aboveBound key.bytes equal y.key = true →
        (y.path = hd.path ∨ LexLt hd.path y.path) ∧ keyLe hd y := by
      intro y hy hab
      have hy1 : y ∈ hd :: tl := by
        rw [← hc]; exact List.mem_filter.mpr ⟨hy, hab⟩
      rcases List.mem_cons.mp hy1 with hy2 | hy2
      · subst hy2; exact ⟨Or.inl rfl, Or.inl rfl⟩
      · exact ⟨Or.inr (hps1.1 y hy2), hks1.1 y hy2⟩
    have hab : aboveBound key.bytes equal hd.key = true := (List.mem_filter.mp hmem).2
    refine ⟨hd, (List.mem_filter.mp hmem).1, hA.leaf, ?_, hab, hmin, ?_, ?_⟩
    · simpa [LeafPos.pos, Iterator.fresh] using hA.key
    · intro heq
      subst heq
      constructor
      · intro hk; exact ⟨hd, (List.mem_filter.mp hmem).1, hk⟩
      · rintro ⟨y, hy, hyk⟩
        have := (hmin y hy (by rw [hyk, aboveBound_self])).2
        rcases this with h1 | h1
        · rw [h1, hyk]
        · rw [hyk] at h1
          simp [aboveBound, h1] at hab
    · intro heq hk
      subst heq
      rw [hk, aboveBound_self] at hab
      cases hab

/-- C2 (amended) on the tree without gate, with the stored key `01 03` as
exclusive lower bound: the search returns true on the leaf of key `02 00`. -/
theorem LowerBound_positions_witness :
    plainTree.WF = true ∧ keyFits (ARTKey.of [1, 3] 0).bytes plainTree.leaves ∧
    flagOf (LowerBound plainTree Iterator.fresh (ARTKey.of [1, 3] 0) false 0) = some true ∧
    ∃ (r : Bool) (it1 : Iterator),
      LowerBound plainTree Iterator.fresh (ARTKey.of [1, 3] 0) false 0 = .ok (r, it1) ∧
      (r = true →
        ∃ x ∈ plainTree.leaves, it1.last_leaf = x.node ∧ it1.current_key = x.path ∧
          aboveBound (ARTKey.of [1, 3] 0).bytes false x.key = true ∧
          (∀ y ∈ plainTree.leaves, aboveBound (ARTKey.of [1, 3] 0).bytes false y.key = true →
            (y.path = x.path ∨ LexLt x.path y.path) ∧ keyLe x y) ∧
          (false = true → (x.key = (ARTKey.of [1, 3] 0).bytes ↔
            ∃ y ∈ plainTree.leaves, y.key = (ARTKey.of [1, 3] 0).bytes)) ∧
          (false = false → x.key ≠ (ARTKey.of [1, 3] 0).bytes)) :=
  have hfit : keyFits (ARTKey.of [1, 3] 0).bytes plainTree.leaves := by decide
  ⟨rfl, hfit, rfl, LowerBound_positions plainTree rfl (ARTKey.of [1, 3] 0) false hfit⟩

/-- C3, counterexample. On the tree with the keys `01 02`, `01 03` and `02 00`,
`LowerBound(key = 02, equal = true)` on a fresh iterator, with the byte `c8` in
memory behind the one byte of the key, returns false although the key `02 00`
of the tree is `≥ 02`: at the node below the byte `02` line 172 reads `key[1]`,
past the end of the key, finds no child with a byte `≥ c8`, and `Next` empties
the stack. -/
theorem LowerBound_false_counterexample :
    plainTree.WF = true ∧
    flagOf (LowerBound plainTree Iterator.fresh (ARTKey.of [2] 200) true 0) = some false ∧
    plainTree.leaves.map LeafPos.key = [[1, 2], [1, 3], [2, 0]] ∧
    aboveBound [2] true [2, 0] = true := by
  refine ⟨rfl, rfl, rfl, by decide⟩

/-- C3, amended. For a fresh iterator, every tree that is well-formed or empty
and every key that is prefix-free against the stored keys (no stored key is a
proper prefix of it, and it is a proper prefix of no stored key), whatever the
memory holds behind the key, `LowerBound(root, key, equal)` returns, and it
returns false if and only if the tree has no leaf whose key is `≥ key`
(`equal = true`) or `> key` (`equal = false`); a root without metadata yields
false for every iterator, key and depth. -/
theorem LowerBound_false_iff (root : Node) (hroot : root.WF = true ∨ root = .empty)
    (key : ARTKey) (equal : Bool) (hfit : keyFits key.bytes root.leaves) :
    (∃ (r : Bool) (it1 : Iterator), LowerBound root Iterator.fresh key equal 0 = .ok (r, it1) ∧
      (r = false ↔ ∀ x ∈ root.leaves, aboveBound key.bytes equal x.key = false)) ∧
    (∀ (it : Iterator) (key1 : ARTKey) (equal1 : Bool) (depth : Nat),
      LowerBound .empty it key1 equal1 depth = .ok (false, it)) := by
  refine ⟨?_, fun it key1 equal1 depth => rfl⟩
  rcases hroot with hwf | hempty
  · have hnil : (∀ x ∈ root.leaves, aboveBound key.bytes equal x.key = false) ↔
        root.leaves.filter (fun y => aboveBound key.bytes equal y.key) = [] := by
      rw [List.filter_eq_nil_iff]
      simp
    rw [hnil]
    rcases LowerBound_root root hwf key equal hfit with ⟨hc, hres⟩ | ⟨hd, tl, it2, hc, hres, _⟩
    · rw [hres, Next_nil _ rfl]
      exact ⟨false, _, rfl, fun _ => hc, fun _ => rfl⟩
    · refine ⟨true, it2, hres, ?_⟩
      rw [hc]
      constructor
      · intro h; cases h
      · intro h; cases h
  · subst hempty
    exact ⟨false, Iterator.fresh, rfl, fun _ x hx => by simp [Node.leaves] at hx, fun _ => rfl⟩

/-- C3 (amended) on the tree without gate, with its largest key `02 00` as
exclusive lower bound: the search returns false. -/
theorem LowerBound_false_iff_witness :
    (plainTree.WF = true ∨ plainTree = .empty) ∧
    keyFits (ARTKey.of [2, 0] 0).bytes plainTree.leaves ∧
    flagOf (LowerBound plainTree Iterator.fresh (ARTKey.of [2, 0] 0) false 0) = some false ∧
    ∃ (r : Bool) (it1 : Iterator),
      LowerBound plainTree Iterator.fresh (ARTKey.of [2, 0] 0) false 0 = .ok (r, it1) ∧
      (r = false ↔
        ∀ x ∈ plainTree.leaves, aboveBound (ARTKey.of [2, 0] 0).bytes false x.key = false) :=
  ⟨Or.inl rfl, by decide, rfl,
    (LowerBound_false_iff plainTree (Or.inl rfl) (ARTKey.of [2, 0] 0) false (by decide)).1⟩

/-! ## Contains -/

theorem Contains_loop_cons (x y : Nat) (a b : Bytes) (n i : Nat) :
    Contains.loop (x :: a) (y :: b) n (i + 1) = Contains.loop a b n i := by
  induction n generalizing i with
  | zero => rfl
  | succ n ih => simp [Contains.loop, ih]

theorem Contains_prefix_iff (key_bytes key : Bytes) :
    Contains key_bytes key = true ↔ key <+: key_bytes := by
  induction key generalizing key_bytes with
  | nil => simp [Contains, Contains.loop]
  | cons y key ih =>
    cases key_bytes with
    | nil => simp [Contains]
    | cons x kb =>
      have hstep : Contains (x :: kb) (y :: key) = (decide (x = y) && Contains kb key) := by
        unfold Contains
        by_cases hlen : kb.length < key.length
        · have h1 : (x :: kb).length < (y :: key).length := by simpa using hlen
          simp [hlen, h1]
        · have h1 : ¬ (x :: kb).length < (y :: key).length := by simpa using hlen
          simp only [h1, hlen, if_false, List.length_cons, Contains.loop, List.getD_cons_zero,
            Contains_loop_cons]
          by_cases hxy : x = y
          · simp [hxy]
            intro _
            omega
          · simp [hxy]
      rw [hstep, Bool.and_eq_true, ih, List.cons_prefix_cons, decide_eq_true_eq]
      constructor <;> rintro ⟨h1, h2⟩ <;> exact ⟨h1.symm, h2⟩

/-- C11. `IteratorKey::Contains(key)` returns true if and only if `key` is a
prefix of the buffer, that is, if and only if `Size() ≥ key.len` and the first
`key.len` bytes of the buffer are the bytes of `key`; the empty key is contained
in every buffer. -/
theorem Contains_spec (key_bytes key : Bytes) :
    (Contains key_bytes key = true ↔ key <+: key_bytes) ∧
    (Contains key_bytes key = true ↔
      key_bytes.length ≥ key.length ∧ key_bytes.take key.length = key) ∧
    Contains key_bytes [] = true := by
  refine ⟨Contains_prefix_iff key_bytes key, ?_, (Contains_prefix_iff key_bytes []).mpr
    List.nil_prefix⟩
  rw [Contains_prefix_iff]
  constructor
  · intro h
    exact ⟨h.length_le, (List.prefix_iff_eq_take.mp h).symm⟩
  · rintro ⟨_, h2⟩
    rw [← h2]
    exact List.take_prefix _ _

/-! ## The cases of the `switch` of `Scan` -/

theorem emit_throw_iff (it : Iterator) (m : Nat) (a : List Int) :
    (Scan.emit it m a = .throw .invalidLeafType a ↔ validLeafType it.last_leaf.GetType = false) ∧
    (∀ e o, Scan.emit it m a = .throw e o →
      e = .invalidLeafType ∧ o = a ∧ validLeafType it.last_leaf.GetType = false) := by
  unfold Scan.emit
  cases h : it.last_leaf with
  | leafInlined r =>
    simp only [Node.GetType, validLeafType]
    by_cases hc : a.length + 1 > m <;> simp [hc]
  | leaf rs =>
    simp only [Node.GetType, validLeafType, DeprecatedGetRowIds]
    by_cases hc : a.length + rs.length > m <;> simp [hc]
  | byteLeaf k bs =>
    have hv : validLeafType (Node.byteLeaf k bs).GetType = true := by cases k <;> rfl
    rw [hv]
    cases hb : Scan.byteLoop bs m 257 0 it.row_id a with
    | none => simp [hb]
    | some res =>
      obtain ⟨f, r, o⟩ := res
      cases f <;> simp [hb]
  | prefixInlined bs => simp [Node.GetType, validLeafType]
  | empty =>
    simp only [Node.GetType, validLeafType, ScanStep.throw.injEq, true_and, and_true]
    exact fun e o h => ⟨h.1.symm, h.2.symm⟩
  | pfx g bytes c =>
    simp only [Node.GetType, validLeafType, ScanStep.throw.injEq, true_and, and_true]
    exact fun e o h => ⟨h.1.symm, h.2.symm⟩
  | inner k g cs =>
    have hv : validLeafType (Node.inner k g cs).GetType = false := by cases k <;> rfl
    rw [hv]
    simp only [ScanStep.throw.injEq, true_and, and_true]
    exact fun e o h => ⟨h.1.symm, h.2.symm⟩

theorem FindMinimum_fault (n : Node) :
    ∀ it : Iterator, FindMinimum n it ≠ .error .invalidLeafType := by
  induction n using Node.induction with
  | h0 => intro it h; simp [FindMinimum] at h
  | h1 r => intro it h; simp [FindMinimum] at h
  | h2 rs => intro it h; simp [FindMinimum] at h
  | h3 k bs => intro it h; simp [FindMinimum] at h
  | h4 bs => intro it h; simp [FindMinimum] at h
  | h5 g bytes c ih => intro it; rw [FindMinimum]; exact ih _
  | h6 k g cs ih =>
    intro it
    rw [FindMinimum, FindMinimum_descend_eq]
    cases hg : GetNextChild cs 0 with
    | none => simp
    | some p =>
      obtain ⟨b, c⟩ := p
      exact ih (b, c) (GetNextChild_ge hg).2 _

theorem Next_go_fault : ∀ (s : List StackFrame) (it : Iterator),
    Next.go s it ≠ .error .invalidLeafType := by
  intro s
  induction s with
  | nil => intro it h; simp [Next.go] at h
  | cons top rest ih =>
    intro it
    rw [Next.go]
    split
    · exact ih _
    · split
      · exact ih _
      · cases hc : top.node.GetNextChild (top.byte + 1) with
        | error e =>
          have he : e = .invalidNode := by
            cases hn : top.node <;> simp [hn, Node.GetNextChild] at hc <;> exact hc.symm
          subst he
          simp
        | ok o =>
          cases o with
          | none => exact ih _
          | some p =>
            obtain ⟨b, c⟩ := p
            simp only
            have := FindMinimum_fault c (replaceTop it top rest b)
            cases hf : FindMinimum c (replaceTop it top rest b) with
            | error e =>
              rw [hf] at this
              simpa using this
            | ok it1 => simp

/-- C19. A pass of the `switch` of `Scan` throws the internal error "invalid leaf
type" if and only if the type of `last_leaf` is none of `LEAF_INLINED`, `LEAF`,
`NODE_7_LEAF`, `NODE_15_LEAF`, `NODE_256_LEAF` and `PREFIX_INLINED`, and then it
leaves the output vector as it found it; it throws nothing else, and nothing
for the six types.  When an iteration of `Scan` passes the upper-bound test with
a `last_leaf` of another type, `Scan` ends with that error and the output
vector holds what it held when the iteration began; when it passes the test
with a `last_leaf` of one of the six types, that iteration does not raise the
error: if `Scan` ends with it, the pass has appended, `Next` has returned true,
and a later iteration has raised it. -/
theorem Scan_invalid_leaf (it : Iterator) (upper_bound : Bytes) (max_count : Nat)
    (row_ids : List Int) (equal : Bool) (fuel : Nat) :
    (Scan.emit it max_count row_ids = .throw .invalidLeafType row_ids ↔
      validLeafType it.last_leaf.GetType = false) ∧
    (∀ e out, Scan.emit it max_count row_ids = .throw e out →
      e = .invalidLeafType ∧ out = row_ids ∧ validLeafType it.last_leaf.GetType = false) ∧
    ((!upper_bound.isEmpty && !it.inside_gate &&
        GreaterThan it.current_key upper_bound equal) = false →
      validLeafType it.last_leaf.GetType = false →
      Scan (fuel + 1) it upper_bound max_count row_ids equal =
        some (.error (.invalidLeafType, row_ids))) ∧
    ((!upper_bound.isEmpty && !it.inside_gate &&
        GreaterThan it.current_key upper_bound equal) = false →
      validLeafType it.last_leaf.GetType = true → ∀ out,
      Scan (fuel + 1) it upper_bound max_count row_ids equal =
        some (.error (.invalidLeafType, out)) →
      ∃ it1 out1 it2, Scan.emit it max_count row_ids = .next it1 out1 ∧
        Next it1 = .ok (true, it2) ∧
        Scan fuel it2 upper_bound max_count out1 equal =
          some (.error (.invalidLeafType, out))) := by
  refine ⟨(emit_throw_iff it max_count row_ids).1, (emit_throw_iff it max_count row_ids).2, ?_, ?_⟩
  · intro hT hv
    rw [Scan_succ_of_emit hT, (emit_throw_iff it max_count row_ids).1.mpr hv]
  · intro hT hv out h
    rw [Scan_succ_of_emit hT] at h
    cases he : Scan.emit it max_count row_ids with
    | ret r it1 o => rw [he] at h; simp at h
    | stuck => rw [he] at h; simp at h
    | throw e o =>
      have := ((emit_throw_iff it max_count row_ids).2 e o he).2.2
      rw [hv] at this
      cases this
    | next it1 out1 =>
      rw [he] at h
      simp only at h
      cases hN : Next it1 with
      | error e =>
        rw [hN] at h
        simp only [Option.some.injEq, Except.error.injEq, Prod.mk.injEq] at h
        have := Next_go_fault it1.nodes it1
        rw [← Next, hN, h.1] at this
        exact absurd rfl this
      | ok p =>
        obtain ⟨b, it2⟩ := p
        cases b with
        | false => rw [hN] at h; simp at h
        | true =>
          rw [hN] at h
          exact ⟨it1, out1, it2, rfl, hN, h⟩

/-- C19 on a fresh iterator, whose `last_leaf` is the empty node, with one row
id in the output vector already: `Scan` ends with the error and the vector is
as it was. -/
theorem Scan_invalid_leaf_witness :
    validLeafType Iterator.fresh.last_leaf.GetType = false ∧
    Scan 1 Iterator.fresh [] 5 [1] true = some (.error (.invalidLeafType, [1])) :=
  ⟨rfl, (Scan_invalid_leaf Iterator.fresh [] 5 [1] true 0).2.2.1 rfl rfl⟩

theorem stageLast_append (r : List Nat) (bs : List Nat) (b : Nat) :
    stageLast r (bs ++ [b]) = (stageLast r bs).set 7 b := by
  simp [stageLast, List.foldl_append]

theorem stageLast_cons (r : List Nat) (b : Nat) (bs : List Nat) :
    stageLast r (b :: bs) = stageLast (r.set 7 b) bs := rfl

/-- The loop over a byte-set leaf with ascending bytes, when the bytes from
`byte` on all fit under the cap: it appends the row id of each of them, in their
order, decoded from the staging buffer with the byte in its last cell. -/
theorem byteLoop_exact (bytes : List Nat) (hasc : ascending bytes = true) (m : Nat) :
    ∀ (fuel byte : Nat) (row_id : List Nat) (out : List Int), byte ≤ 255 → 256 < fuel + byte →
      out.length + (bytes.filter (fun x => decide (byte ≤ x))).length ≤ m →
      Scan.byteLoop bytes m fuel byte row_id out =
        some (true, stageLast row_id (bytes.filter (fun x => decide (byte ≤ x))),
          out ++ (bytes.filter (fun x => decide (byte ≤ x))).map
            (fun b => GetRowID (row_id.set 7 b))) := by
  intro fuel
  induction fuel with
  | zero => intro byte row_id out h1 h2; omega
  | succ fuel ih =>
    intro byte row_id out h1 h2 hfit
    rw [Scan.byteLoop, GetNextByte_eq_head]
    cases hF : bytes.filter (fun x => decide (byte ≤ x)) with
    | nil => simp [stageLast]
    | cons b F =>
      obtain ⟨e1, e2, e3⟩ := filter_ge_next hasc hF
      rw [hF] at hfit
      simp only [List.length_cons] at hfit
      have hcap : ¬ out.length + 1 > m := by omega
      simp only [List.head?_cons, hcap, if_false]
      by_cases h255 : b = 255
      · have hFnil := e3 h255
        subst hFnil
        simp [h255, stageLast]
      · simp only [h255, if_false]
        have hb : byte ≤ b := by
          have hm : b ∈ bytes.filter (fun y => decide (byte ≤ y)) := by
            rw [hF]; exact List.mem_cons_self _ _
          simpa using (List.mem_filter.mp hm).2
        have hb255 : b ≤ 255 := ascending_le hasc b
          (List.mem_of_mem_filter (hF ▸ List.mem_cons_self b F))
        rw [Nat.mod_eq_of_lt (by omega),
          ih (b + 1) (row_id.set 7 b) (out ++ [GetRowID (row_id.set 7 b)]) (by omega) (by omega)
          (by rw [e1]; simp; omega), e1]
        simp [stageLast_cons, List.set_set]

/-- The values the counter of the loop over a byte-set leaf takes when it is
incremented: the successor of every byte the loop has emitted, the byte 255
apart, after which the loop is left. -/
theorem byteLoop_counter (bytes : List Nat) (hasc : ascending bytes = true) (m : Nat) :
    ∀ (fuel byte : Nat) (row_id : List Nat) (out : List Int), byte ≤ 255 → 256 < fuel + byte →
      Scan.byteLoop.counter bytes m fuel byte row_id out =
        (((bytes.filter (fun x => decide (byte ≤ x))).take (m - out.length)).filter
          (fun b => decide (b ≠ 255))).map (fun b => b + 1) := by
  intro fuel
  induction fuel with
  | zero => intro byte row_id out h1 h2; omega
  | succ fuel ih =>
    intro byte row_id out h1 h2
    rw [Scan.byteLoop.counter, GetNextByte_eq_head]
    cases hF : bytes.filter (fun x => decide (byte ≤ x)) with
    | nil => simp
    | cons b F =>
      obtain ⟨e1, e2, e3⟩ := filter_ge_next hasc hF
      simp only [List.head?_cons]
      by_cases hcap : out.length + 1 > m
      · have h0 : m - out.length = 0 := by omega
        simp [hcap, h0]
      · obtain ⟨k, hk⟩ : ∃ k, m - out.length = k + 1 := ⟨m - out.length - 1, by omega⟩
        simp only [hcap, if_false, hk, List.take_succ_cons]
        by_cases h255 : b = 255
        · have hFnil := e3 h255
          subst hFnil
          simp [h255]
        · have hb : byte ≤ b := by
            have hm : b ∈ bytes.filter (fun y => decide (byte ≤ y)) := by
              rw [hF]; exact List.mem_cons_self _ _
            simpa using (List.mem_filter.mp hm).2
          simp only [h255, if_false]
          rw [Nat.mod_eq_of_lt (by omega),
            ih (b + 1) (row_id.set 7 b) (out ++ [GetRowID (row_id.set 7 b)]) (by omega) (by omega),
            e1, List.filter_cons_of_pos (by simpa using h255)]
          have hk1 : m - (out ++ [GetRowID (row_id.set 7 b)]).length = k := by
            simp only [List.length_append, List.length_singleton]
            omega
          rw [hk1]
          rfl

/-- C17. When `last_leaf` is a byte-set leaf holding the bytes `S` (in ascending
order) and the output vector has room for `|S|` more row ids, a pass of the
`switch` of `Scan` appends exactly one row id per byte of `S`, in the order of
the bytes, each decoded from the staging buffer with that byte in `row_id[7]`,
and goes on to `Next`.  For every cap and output vector the loop over the bytes
finishes, also when 255 is in `S`, and its 8-bit counter does not wrap around:
the values it takes when it is incremented are the successors `b + 1` of the
bytes `b` other than 255 that the loop has emitted, none of them 0 (at the byte
255 the loop is left before the counter is incremented). -/
theorem Scan_emit_byteLeaf (it : Iterator) (kind : ByteLeaf) (S : List Nat)
    (hl : it.last_leaf = .byteLeaf kind S) (hS : ascending S = true) (max_count : Nat)
    (row_ids : List Int) (hcap : row_ids.length + S.length ≤ max_count) :
    Scan.emit it max_count row_ids =
      .next { it with row_id := stageLast it.row_id S }
        (row_ids ++ S.map (fun b => GetRowID (it.row_id.set 7 b))) ∧
    (it.row_id.length = 8 → ∀ b, (it.row_id.set 7 b)[7]? = some b) ∧
    (∀ m out, (∃ res, Scan.byteLoop S m 257 0 it.row_id out = some res) ∧
      Scan.emit it m out ≠ .stuck ∧
      Scan.byteLoop.counter S m 257 0 it.row_id out =
        ((S.take (m - out.length)).filter (fun b => decide (b ≠ 255))).map (fun b => b + 1) ∧
      ∀ c ∈ Scan.byteLoop.counter S m 257 0 it.row_id out, 0 < c ∧ c ≤ 255) := by
  have hall : S.filter (fun x => decide (0 ≤ x)) = S := by
    rw [List.filter_eq_self]; intro x _; simp
  refine ⟨?_, ?_, ?_⟩
  · have := byteLoop_exact S hS max_count 257 0 it.row_id row_ids (by omega) (by omega)
      (by rw [hall]; exact hcap)
    rw [hall] at this
    unfold Scan.emit
    rw [hl]
    simp only [this]
  · intro h8 b
    rw [List.getElem?_set_self (by omega)]
  · intro m out
    have hfin := byteLoop_finishes S (ascending_le hS) m 257 0 it.row_id out (by omega) (by omega)
    have hcnt := byteLoop_counter S hS m 257 0 it.row_id out (by omega) (by omega)
    rw [hall] at hcnt
    refine ⟨?_, ?_, hcnt, ?_⟩
    · cases hb : Scan.byteLoop S m 257 0 it.row_id out with
      | none => exact absurd hb hfin
      | some res => exact ⟨res, rfl⟩
    · unfold Scan.emit
      rw [hl]
      cases hb : Scan.byteLoop S m 257 0 it.row_id out with
      | none => exact absurd hb hfin
      | some res =>
        obtain ⟨f, r, o⟩ := res
        cases f <;> simp [hb]
    · intro c hc
      rw [hcnt] at hc
      simp only [List.mem_map, List.mem_filter, decide_eq_true_eq] at hc
      obtain ⟨b, ⟨hb1, hb2⟩, rfl⟩ := hc
      have := ascending_le hS b (List.mem_of_mem_take hb1)
      omega

/-- C17 on a byte-set leaf with the bytes 3 and 255: both row ids are appended,
and the counter is incremented once, to 4. -/
theorem Scan_emit_byteLeaf_witness :
    byteLeafStart.last_leaf = .byteLeaf .n7 [3, 255] ∧ ascending [3, 255] = true ∧
    Scan.emit byteLeafStart 2 [] =
      .next { byteLeafStart with row_id := [0, 0, 0, 0, 0, 0, 0, 255] } [3, 255] ∧
    Scan.byteLoop.counter [3, 255] 2 257 0 byteLeafStart.row_id [] = [4] :=
  ⟨rfl, rfl, (Scan_emit_byteLeaf byteLeafStart .n7 [3, 255] rfl rfl 2 [] (by decide)).1,
    ((Scan_emit_byteLeaf byteLeafStart .n7 [3, 255] rfl rfl 2 [] (by decide)).2.2 2 []).2.2.1⟩

/-! ## The descent of FindMinimum -/

theorem descentMin_mem {cs : List (Nat × Node)} {b : Nat} {d : Descent}
    (h : Node.descentMin cs = some (b, d)) : b ∈ cs.map Prod.fst := by
  induction cs generalizing b d with
  | nil => simp [Node.descentMin] at h
  | cons a rest ih =>
    obtain ⟨x, c⟩ := a
    rw [Node.descentMin] at h
    cases hr : Node.descentMin rest with
    | none =>
      rw [hr] at h
      cases hc : Node.descent c with
      | none => simp [hc] at h
      | some d0 =>
        simp only [hc, Option.some.injEq, Prod.mk.injEq] at h
        simp [h.1]
    | some p =>
      obtain ⟨b1, d1⟩ := p
      rw [hr] at h
      simp only at h
      by_cases hle : x ≤ b1
      · simp only [hle, if_true] at h
        cases hc : Node.descent c with
        | none => simp [hc] at h
        | some d0 =>
          simp only [hc, Option.some.injEq, Prod.mk.injEq] at h
          simp [h.1]
      · simp only [hle, if_false, Option.some.injEq, Prod.mk.injEq] at h
        have := ih hr
        rw [h.1] at this
        simp only [List.map_cons, List.mem_cons]
        exact Or.inr this

theorem descentMin_head {b : Nat} {c : Node} {rest : List (Nat × Node)} {d : Descent}
    (hasc : ascending (((b, c) :: rest).map Prod.fst) = true) (hc : Node.descent c = some d) :
    Node.descentMin ((b, c) :: rest) = some (b, d) := by
  have hgt := (ascending_cons (by simpa using hasc : ascending (b :: rest.map Prod.fst) = true)).2.1
  rw [Node.descentMin]
  cases hr : Node.descentMin rest with
  | none => simp [hc]
  | some p =>
    obtain ⟨b1, d1⟩ := p
    have := hgt b1 (descentMin_mem hr)
    have hle : b ≤ b1 := by omega
    simp [hle, hc]

theorem FindMinimum_descent (n : Node) (hn : n.WF = true) :
    ∀ it : Iterator, ∃ d it1, n.descent = some d ∧ FindMinimum n it = .ok it1 ∧
      it1.last_leaf = d.leaf ∧ it1.current_key = it.current_key ++ d.key ∧
      it1.nodes = d.frames ++ it.nodes := by
  induction n using Node.induction with
  | h0 => simp [Node.WF] at hn
  | h1 r => intro it; exact ⟨_, _, rfl, rfl, rfl, by simp, by simp⟩
  | h2 rs => intro it; exact ⟨_, _, rfl, rfl, rfl, by simp, by simp⟩
  | h3 k bs => intro it; exact ⟨_, _, rfl, rfl, rfl, by simp, by simp⟩
  | h4 bs => intro it; exact ⟨_, _, rfl, rfl, rfl, by simp, by simp⟩
  | h5 g bytes c ih =>
    intro it
    have hc : c.WF = true := by simpa [Node.WF] using hn
    obtain ⟨d, it1, h1, h2, h3, h4, h5⟩ := ih hc
      { pushPrefix bytes (enterGate (.pfx g bytes c) it) with
        nodes := ⟨.pfx g bytes c, 0⟩ :: (pushPrefix bytes (enterGate (.pfx g bytes c) it)).nodes }
    refine ⟨{ frames := d.frames ++ [⟨.pfx g bytes c, 0⟩], key := bytes ++ d.key, leaf := d.leaf },
      it1, by rw [Node.descent, h1], by rw [FindMinimum]; exact h2, h3, ?_, ?_⟩
    · rw [h4]; simp
    · rw [h5]; simp
  | h6 k g cs ih =>
    intro it
    simp only [Node.WF, Bool.and_eq_true, Bool.not_eq_true', List.isEmpty_eq_false] at hn
    obtain ⟨⟨hne, hasc⟩, hwfs⟩ := hn
    cases cs with
    | nil => simp at hne
    | cons a rest =>
      obtain ⟨b, c⟩ := a
      have hc : c.WF = true := WFs_mem hwfs (b, c) (List.mem_cons_self _ _)
      obtain ⟨d, it1, h1, h2, h3, h4, h5⟩ := ih (b, c) (List.mem_cons_self _ _) hc
        { mirror { enterGate (.inner k g ((b, c) :: rest)) it with
                   current_key := Push (enterGate (.inner k g ((b, c) :: rest)) it).current_key b } b
          with nodes := ⟨.inner k g ((b, c) :: rest), b⟩ ::
            (mirror { enterGate (.inner k g ((b, c) :: rest)) it with
                      current_key :=
                        Push (enterGate (.inner k g ((b, c) :: rest)) it).current_key b } b).nodes }
      refine ⟨{ frames := d.frames ++ [⟨.inner k g ((b, c) :: rest), b⟩], key := b :: d.key,
                leaf := d.leaf },
        it1, by rw [Node.descent, descentMin_head hasc h1], ?_, h3, ?_, ?_⟩
      · rw [FindMinimum, FindMinimum.descend]
        simp only [Nat.zero_le, if_true]
        exact h2
      · rw [h4]; simp [Push]
      · rw [h5]; simp

/-- C16. On a well-formed subtree `FindMinimum(node)` returns, with `last_leaf`
the leaf reached by taking the child with the smallest byte at each fan-out node
and the single child of each `PREFIX` node; it has appended to `current_key`
exactly the bytes along that path, in order, and pushed exactly one frame per
node passed (byte 0 for a `PREFIX` node, the byte taken otherwise) on top of the
frames the stack had, which are unchanged like the key bytes that were there. -/
theorem FindMinimum_descends (node : Node) (h : node.WF = true) (it : Iterator) :
    ∃ d it1, node.descent = some d ∧ FindMinimum node it = .ok it1 ∧
      it1.last_leaf = d.leaf ∧ it1.current_key = it.current_key ++ d.key ∧
      it1.nodes = d.frames ++ it.nodes :=
  FindMinimum_descent node h it

/-- C16 on the example tree. -/
theorem FindMinimum_descends_witness :
    demoTree.WF = true ∧
    ∃ d it1, demoTree.descent = some d ∧ FindMinimum demoTree Iterator.fresh = .ok it1 ∧
      it1.last_leaf = d.leaf ∧ it1.current_key = Iterator.fresh.current_key ++ d.key ∧
      it1.nodes = d.frames ++ Iterator.fresh.nodes :=
  ⟨rfl, FindMinimum_descends demoTree rfl Iterator.fresh⟩

/-! ## The storage version table -/

theorem GetStorageVersion_loop_none (tbl : List (String × Nat)) (name : String)
    (h : name ∉ tbl.map Prod.fst) : GetStorageVersion.loop tbl name = none := by
  induction tbl with
  | nil => rfl
  | cons p rest ih =>
    obtain ⟨a, v⟩ := p
    simp only [List.map_cons, List.mem_cons, not_or] at h
    rw [GetStorageVersion.loop, if_neg (fun e => h.1 e.symm)]
    exact ih h.2

theorem collect_eq_filter (tbl : List (String × Nat)) (v : Nat) :
    GetDuckDBVersion.collect tbl v = (tbl.filter (fun p => p.2 = v)).map Prod.fst := by
  induction tbl with
  | nil => rfl
  | cons p rest ih =>
    obtain ⟨a, w⟩ := p
    rw [GetDuckDBVersion.collect, ih]
    by_cases h : v = w
    · simp [h]
    · have : ¬ w = v := fun e => h e.symm
      simp [h, this]

theorem GetDuckDBVersion_loop_eq (size : Nat) :
    ∀ (rest : List String) (i : Nat) (result : String), 1 ≤ i → size = i + rest.length →
      GetDuckDBVersion.loop size i rest result = result ++ formatRest rest := by
  intro rest
  induction rest with
  | nil => intro i result _ _; simp [GetDuckDBVersion.loop, formatRest]
  | cons a rest ih =>
    intro i result hi hs
    rw [GetDuckDBVersion.loop]
    have h0 : i ≠ 0 := by omega
    cases rest with
    | nil =>
      have h1 : i + 1 = size := by simp at hs; omega
      simp [h0, h1, GetDuckDBVersion.loop, formatRest, String.append_assoc]
    | cons b rest2 =>
      have h1 : ¬ i + 1 = size := by simp at hs; omega
      simp only [h0, h1, ne_eq, not_false_eq_true, if_true, if_false]
      rw [ih (i + 1) _ (by omega) (by simp at hs ⊢; omega)]
      simp [formatRest, String.append_assoc]

theorem GetDuckDBVersion_eq (v : Nat) : GetDuckDBVersion v = formatVersions (sharing v) := by
  unfold GetDuckDBVersion sharing
  rw [collect_eq_filter]
  cases h : (storage_version_info.filter (fun p => p.2 = v)).map Prod.fst with
  | nil => rfl
  | cons a rest =>
    simp only [List.isEmpty_cons, Bool.false_eq_true, if_false, List.length_cons]
    rw [GetDuckDBVersion.loop]
    simp only [ne_eq, not_true_eq_false, if_false]
    rw [GetDuckDBVersion_loop_eq _ rest 1 _ (by omega) (by omega)]
    simp [formatVersions]

theorem table_lookup :
    ∀ p ∈ storage_version_info, GetStorageVersion p.1 = some p.2 ∧ 0 < p.1.length := by
  decide

theorem mem_sharing {name : String} {v : Nat} (h : (name, v) ∈ storage_version_info) :
    name ∈ sharing v := by
  unfold sharing
  simp only [List.mem_map, List.mem_filter, decide_eq_true_eq]
  exact ⟨(name, v), ⟨h, rfl⟩, rfl⟩

theorem sharing_sub {name : String} {v : Nat} (h : name ∈ sharing v) :
    (name, v) ∈ storage_version_info := by
  unfold sharing at h
  simp only [List.mem_map, List.mem_filter, decide_eq_true_eq] at h
  obtain ⟨⟨a, w⟩, ⟨h1, h2⟩, h3⟩ := h
  simp only at h2 h3
  rw [← h2, ← h3]; exact h1

theorem formatVersions_length (names : List String) (a : String) (ha : a ∈ names)
    (hpos : ∀ b ∈ names, 0 < b.length) : 0 < (formatVersions names).length := by
  cases names with
  | nil => simp at ha
  | cons b rest =>
    rw [formatVersions, String.length_append]
    have := hpos b (List.mem_cons_self _ _)
    omega

/-- C20. For every entry `(name, v)` of `storage_version_info`,
`GetStorageVersion(name)` returns the valid version `v`, and `GetDuckDBVersion(v)`
is a non-empty string: the names sharing `v`, `name` among them, in table order
with `", "` between the entries and `" or "` before the last. For a name that is
not in the table `GetStorageVersion` returns the invalid optional, and for a
number without an entry `GetDuckDBVersion` returns the empty string. -/
theorem storage_version_round_trip :
    (∀ name v, (name, v) ∈ storage_version_info →
      GetStorageVersion name = some v ∧ GetDuckDBVersion v ≠ "" ∧
      name ∈ sharing v ∧ GetDuckDBVersion v = formatVersions (sharing v)) ∧
    (∀ name, name ∉ storage_version_info.map Prod.fst → GetStorageVersion name = none) ∧
    (∀ n, n ∉ storage_version_info.map Prod.snd → GetDuckDBVersion n = "") := by
  refine ⟨?_, ?_, ?_⟩
  · intro name v h
    refine ⟨(table_lookup (name, v) h).1, ?_, mem_sharing h, GetDuckDBVersion_eq v⟩
    intro he
    have hl := formatVersions_length (sharing v) name (mem_sharing h)
      (fun b hb => (table_lookup (b, v) (sharing_sub hb)).2)
    rw [← GetDuckDBVersion_eq, he] at hl
    simp at hl
  · intro name h
    exact GetStorageVersion_loop_none _ name h
  · intro n h
    have : sharing n = [] := by
      unfold sharing
      simp only [List.map_eq_nil_iff, List.filter_eq_nil_iff, decide_eq_true_eq]
      intro p hp e
      exact h (List.mem_map.2 ⟨p, hp, e⟩)
    rw [GetDuckDBVersion_eq, this]; rfl

/-- C20 at the name `v0.9.0` and at the number 64 it maps to. -/
theorem storage_version_round_trip_witness :
    ("v0.9.0", 64) ∈ storage_version_info ∧ GetStorageVersion "v0.9.0" = some 64 ∧
    GetDuckDBVersion 64 = "v0.9.0, v0.9.1, v0.9.2, v0.10.0, v0.10.1 or v0.10.2" ∧
    GetStorageVersion "latest" = none ∧ GetDuckDBVersion 2 = "" :=
  ⟨by decide, (storage_version_round_trip.1 "v0.9.0" 64 (by decide)).1, by decide,
    by decide, by decide⟩

/-! ## Properties of every reachable state -/

theorem Next_go_inv {Mid I : Iterator → Prop} {Ready : Node → Iterator → Prop}
    (P : Preserved Mid I Ready) : ∀ (s : List StackFrame) (it : Iterator) (r : Bool)
    (it1 : Iterator), it.nodes = s → Mid it → Next.go s it = .ok (r, it1) → I it1 := by
  intro s
  induction s with
  | nil =>
    intro it r it1 hn hm h
    simp only [Next.go, Except.ok.injEq, Prod.mk.injEq] at h
    rw [← h.2]; exact P.exhausted it hm hn
  | cons top rest ih =>
    intro it r it1 hn hm h
    have hpop : Next.go rest (PopNode it) = .ok (r, it1) → I it1 :=
      fun h1 => ih (PopNode it) r it1 (PopNode_nodes hn) (P.popNode it hm) h1
    rw [Next.go] at h
    by_cases hT : top.node.GetType = NType.PREFIX
    · simp only [hT, if_true] at h; exact hpop h
    · simp only [hT, if_false] at h
      by_cases h255 : top.byte = 255
      · simp only [h255, if_true] at h; exact hpop h
      · simp only [h255, if_false] at h
        cases hg : top.node.GetNextChild (top.byte + 1) with
        | error e => simp [hg] at h
        | ok res =>
          cases res with
          | none => simp only [hg] at h; exact hpop h
          | some bc =>
            obtain ⟨b1, c1⟩ := bc
            simp only [hg] at h
            cases hf : FindMinimum c1 (replaceTop it top rest b1) with
            | error e => simp [hf] at h
            | ok it2 =>
              simp only [hf, Except.ok.injEq, Prod.mk.injEq] at h
              rw [← h.2]
              cases hnode : top.node with
              | inner k g cs =>
                rw [hnode] at hg
                simp only [Node.GetNextChild, Except.ok.injEq] at hg
                have hge := GetNextChild_ge hg
                exact P.findMinimum c1 _ it2
                  (P.replaceTop it top rest k g cs b1 c1 hm hn hnode (by omega) hge.2) hf
              | _ => rw [hnode] at hg; simp [Node.GetNextChild] at hg

theorem Next_inv {Mid I : Iterator → Prop} {Ready : Node → Iterator → Prop}
    (P : Preserved Mid I Ready) (it : Iterator) (r : Bool) (it1 : Iterator) (hm : Mid it)
    (h : Next it = .ok (r, it1)) : I it1 :=
  Next_go_inv P it.nodes it r it1 rfl hm h

theorem atLeafOrGate_inv {Mid I : Iterator → Prop} {Ready : Node → Iterator → Prop}
    (P : Preserved Mid I Ready) (node : Node) (it : Iterator) (key : ARTKey) (equal r : Bool)
    (it1 : Iterator) (hr : Ready node it)
    (hleaf : node.IsGate = false → FindMinimum node it = .ok { it with last_leaf := node })
    (h : LowerBound.atLeafOrGate node it key equal = .ok (r, it1)) : I it1 := by
  unfold LowerBound.atLeafOrGate at h
  by_cases hc : (!equal && Contains it.current_key key.bytes) = true
  · rw [if_pos hc] at h
    exact Next_inv P it r it1 (P.ready_mid _ _ hr) h
  · rw [if_neg hc] at h
    by_cases hg : node.IsGate = true
    · rw [if_pos hg] at h
      cases hf : FindMinimum node it with
      | error e => simp [hf] at h
      | ok it2 =>
        simp only [hf, Except.ok.injEq, Prod.mk.injEq] at h
        rw [← h.2]; exact P.findMinimum node it it2 hr hf
    · rw [if_neg hg] at h
      simp only [Except.ok.injEq, Prod.mk.injEq] at h
      rw [← h.2]
      exact P.findMinimum node it _ hr (hleaf (by simpa using hg))

theorem LowerBound_inv {Mid I : Iterator → Prop} {Ready : Node → Iterator → Prop}
    (P : Preserved Mid I Ready) (n : Node) :
    ∀ (it : Iterator) (key : ARTKey) (equal : Bool) (depth : Nat) (r : Bool) (it1 : Iterator),
      Ready n it → it.inside_gate = false →
      LowerBound n it key equal depth = .ok (r, it1) → I it1 := by
  induction n using Node.induction with
  | h0 =>
    intro it key equal depth r it1 hr _ h
    simp only [LowerBound, Except.ok.injEq, Prod.mk.injEq] at h
    rw [← h.2]; exact P.empty it hr
  | h1 x =>
    intro it key equal depth r it1 hr _ h
    rw [LowerBound] at h
    exact atLeafOrGate_inv P _ it key equal r it1 hr (fun _ => rfl) h
  | h2 x =>
    intro it key equal depth r it1 hr _ h
    rw [LowerBound] at h
    exact atLeafOrGate_inv P _ it key equal r it1 hr (fun _ => rfl) h
  | h3 k x =>
    intro it key equal depth r it1 hr _ h
    rw [LowerBound] at h
    exact atLeafOrGate_inv P _ it key equal r it1 hr (fun _ => rfl) h
  | h4 x =>
    intro it key equal depth r it1 hr _ h
    rw [LowerBound] at h
    exact atLeafOrGate_inv P _ it key equal r it1 hr (fun _ => rfl) h
  | h5 g bytes c ih =>
    intro it key equal depth r it1 hr hig h
    rw [LowerBound] at h
    cases g with
    | true =>
      simp only [if_true] at h
      exact atLeafOrGate_inv P _ it key equal r it1 hr (fun hg => by simp [Node.IsGate] at hg) h
    | false =>
      simp only [Bool.false_eq_true, if_false] at h
      have hr1 := P.push_pfx bytes c it hr hig
      simp only [pushAll_eq] at h
      cases hcmp : comparePrefix bytes key depth with
      | lt => rw [hcmp] at h; exact Next_inv P _ r it1 (P.ready_mid _ _ hr1) h
      | gt =>
        rw [hcmp] at h
        simp only at h
        cases hf : FindMinimum c
            { it with current_key := it.current_key ++ bytes
                      nodes := ⟨.pfx false bytes c, 0⟩ :: it.nodes } with
        | error e => simp [hf] at h
        | ok it2 =>
          simp only [hf, Except.ok.injEq, Prod.mk.injEq] at h
          rw [← h.2]; exact P.findMinimum c _ it2 hr1 hf
      | eq => rw [hcmp] at h; exact ih _ key equal _ r it1 hr1 hig h
  | h6 k g cs ih =>
    intro it key equal depth r it1 hr hig h
    rw [LowerBound] at h
    cases g with
    | true =>
      simp only [if_true] at h
      exact atLeafOrGate_inv P _ it key equal r it1 hr (fun hg => by simp [Node.IsGate] at hg) h
    | false =>
      simp only [Bool.false_eq_true, if_false] at h
      rw [LowerBound_descend_eq] at h
      cases hg : GetNextChild cs (key.get depth) with
      | none =>
        simp only [hg] at h
        exact Next_inv P it r it1 (P.ready_mid _ _ hr) h
      | some bc =>
        obtain ⟨b, c⟩ := bc
        simp only [hg] at h
        have hmem := (GetNextChild_ge hg).2
        have hr1 := P.push_inner k cs b c it hr hig hmem
        by_cases hb : b > key.get depth
        · rw [if_pos hb] at h
          cases hf : FindMinimum c
              { it with current_key := Push it.current_key b
                        nodes := ⟨.inner k false cs, b⟩ :: it.nodes } with
          | error e => simp [hf] at h
          | ok it2 =>
            simp only [hf, Except.ok.injEq, Prod.mk.injEq] at h
            rw [← h.2]; exact P.findMinimum c _ it2 hr1 hf
        · rw [if_neg hb] at h
          exact ih (b, c) hmem _ key equal _ r it1 hr1 hig h

theorem Reachable_inv {Mid I : Iterator → Prop} {Ready : Node → Iterator → Prop}
    (P : Preserved Mid I Ready) (root : Node) (h0 : Ready root Iterator.fresh)
    (hfresh : I Iterator.fresh) :
    ∀ it, Reachable root it → I it := by
  intro it h
  induction h with
  | fresh => exact hfresh
  | findMinimum h => exact P.findMinimum root _ _ h0 h
  | lowerBound h => exact LowerBound_inv P root _ _ _ _ _ _ h0 rfl h
  | next _ h ih => exact Next_inv P _ _ _ (P.inv_mid _ ih) h
  | emit _ h ih => exact P.emit _ _ _ _ _ ih (Or.inl h)
  | cap _ h ih => exact P.emit _ _ _ _ _ ih (Or.inr ⟨_, h⟩)

theorem emit_state (it : Iterator) (m : Nat) (a : List Int) (it1 : Iterator)
    (out : List Int)
    (h : Scan.emit it m a = .next it1 out ∨ ∃ r, Scan.emit it m a = .ret r it1 out) :
    ∃ row_id, it1 = { it with row_id := row_id } := by
  obtain ⟨ck, nodes, ll, rid0, ig, nd⟩ := it
  unfold Scan.emit at h
  cases hl : ll with
  | empty => simp [hl] at h
  | pfx g bytes c => simp [hl] at h
  | inner k g cs => simp [hl] at h
  | leafInlined x =>
    simp only [hl] at h
    refine ⟨rid0, ?_⟩
    by_cases hc : a.length + 1 > m
    · simp only [hc, if_true, reduceCtorEq, ScanStep.ret.injEq, false_or] at h
      obtain ⟨_, _, h2, _⟩ := h
      exact h2.symm
    · simp only [hc, if_false, ScanStep.next.injEq, reduceCtorEq, exists_false, or_false] at h
      exact h.1.symm
  | leaf rs =>
    simp only [hl] at h
    refine ⟨rid0, ?_⟩
    cases hd : DeprecatedGetRowIds rs a m with
    | mk fl o =>
      cases fl with
      | false =>
        simp only [hd, reduceCtorEq, ScanStep.ret.injEq, false_or] at h
        obtain ⟨_, _, h2, _⟩ := h
        exact h2.symm
      | true =>
        simp only [hd, ScanStep.next.injEq, reduceCtorEq, exists_false, or_false] at h
        exact h.1.symm
  | byteLeaf kd bs =>
    simp only [hl] at h
    cases hb : Scan.byteLoop bs m 257 0 rid0 a with
    | none => simp [hb] at h
    | some res =>
      obtain ⟨fl, rid, o⟩ := res
      refine ⟨rid, ?_⟩
      cases fl with
      | false =>
        simp only [hb, reduceCtorEq, ScanStep.ret.injEq, false_or] at h
        obtain ⟨_, _, h2, _⟩ := h
        exact h2.symm
      | true =>
        simp only [hb, ScanStep.next.injEq, reduceCtorEq, exists_false, or_false] at h
        exact h.1.symm
  | prefixInlined bs =>
    simp only [hl, ScanStep.next.injEq, reduceCtorEq, exists_false, or_false] at h
    exact ⟨_, h.1.symm⟩

theorem Scan_reachable (root : Node) (upper_bound : Bytes) (max_count : Nat) (equal : Bool) :
    ∀ (fuel : Nat) (it : Iterator) (row_ids : List Int) (r : Bool) (it1 : Iterator)
      (out : List Int), Reachable root it →
      Scan fuel it upper_bound max_count row_ids equal = some (.ok (r, it1, out)) →
      Reachable root it1 := by
  intro fuel
  induction fuel with
  | zero => intro it row_ids r it1 out _ h; simp [Scan] at h
  | succ fuel ih =>
    intro it row_ids r it1 out hr h
    rw [Scan] at h
    cases hb : Scan.body it upper_bound max_count row_ids equal with
    | throw e => simp [hb] at h
    | stuck => simp [hb] at h
    | ret r0 it0 out0 =>
      simp only [hb, Option.some.injEq, Except.ok.injEq, Prod.mk.injEq] at h
      rw [← h.2.1]
      unfold Scan.body at hb
      split at hb
      · simp only [ScanStep.ret.injEq] at hb
        rw [← hb.2.1]; exact hr
      · exact Reachable.cap hr hb
    | next it0 out0 =>
      simp only [hb] at h
      have hr0 : Reachable root it0 := by
        unfold Scan.body at hb
        split at hb
        · simp at hb
        · exact Reachable.emit hr hb
      cases hn : Next it0 with
      | error e => simp [hn] at h
      | ok res =>
        obtain ⟨fl, it2⟩ := res
        have hr2 : Reachable root it2 := Reachable.next hr0 hn
        cases fl with
        | false =>
          simp only [hn, Option.some.injEq, Except.ok.injEq, Prod.mk.injEq] at h
          rw [← h.2.1]; exact hr2
        | true =>
          simp only [hn] at h
          exact ih it2 out0 r it1 out hr2 h

/-! ## Key and stack in step -/

theorem contrib_keyBytes (f : StackFrame) : f.contrib.length = f.node.keyBytes := by
  obtain ⟨node, b⟩ := f
  cases node <;> simp [StackFrame.contrib, Node.keyBytes]

theorem PopNode_inside_gate {it : Iterator} {top : StackFrame} {rest : List StackFrame}
    (h : it.nodes = top :: rest) :
    (PopNode it).inside_gate = (if top.node.IsGate then false else it.inside_gate) := by
  simp [PopNode, h]

theorem PopNode_nil {it : Iterator} (h : it.nodes = []) : PopNode it = it := by
  simp [PopNode, h]

theorem PopNode_sync {it : Iterator} (hk : it.current_key = base it.nodes) :
    (PopNode it).current_key = base (PopNode it).nodes := by
  cases hn : it.nodes with
  | nil => rw [PopNode_nil hn]; exact hk
  | cons top rest =>
    rw [PopNode_nodes hn, PopNode_current_key hn, hk, hn, base, ← contrib_keyBytes, Pop_append]

theorem replaceTop_sync {it : Iterator} {top : StackFrame} {rest : List StackFrame}
    {k : FanOut} {g : Bool} {cs : List (Nat × Node)} (b : Nat)
    (hk : it.current_key = base it.nodes) (hn : it.nodes = top :: rest)
    (hnode : top.node = .inner k g cs) :
    (replaceTop it top rest b).current_key = base (replaceTop it top rest b).nodes := by
  have hc : top.contrib = [top.byte] := by simp [StackFrame.contrib, hnode]
  have h1 : Pop it.current_key 1 = base rest := by
    rw [hk, hn, base, hc]
    exact Pop_append (base rest) [top.byte]
  simp [replaceTop, h1, Push, base, StackFrame.contrib, hnode]

theorem Synced_preserved : Preserved Synced Synced (fun _ it => Synced it) where
  ready_mid := fun _ _ h => h
  inv_mid := fun _ h => h
  push_pfx := by
    intro bytes c it h hg
    exact ⟨by simp [base, StackFrame.contrib, h.1], fun hg1 => by simp [hg] at hg1⟩
  push_inner := by
    intro k cs b c it h hg _
    exact ⟨by simp [base, StackFrame.contrib, h.1, Push], fun hg1 => by simp [hg] at hg1⟩
  findMinimum := by
    intro n it it1 h hf
    refine ⟨(FindMinimum_sync n it it1 hf h.1).2, ?_⟩
    obtain ⟨fr, h1, h2⟩ := FindMinimum_gate n it it1 hf
    intro hg
    rw [h2, Bool.or_eq_true] at hg
    rw [h1]
    rcases hg with hg | hg
    · obtain ⟨f, hf1, hf2⟩ := h.2 hg
      exact ⟨f, List.mem_append_right _ hf1, hf2⟩
    · obtain ⟨f, hf1, hf2⟩ := List.any_eq_true.1 hg
      exact ⟨f, List.mem_append_left _ hf1, hf2⟩
  popNode := by
    intro it h
    refine ⟨PopNode_sync h.1, ?_⟩
    cases hn : it.nodes with
    | nil => rw [PopNode_nil hn]; exact h.2
    | cons top rest =>
      rw [PopNode_inside_gate hn, PopNode_nodes hn]
      intro hg
      by_cases ht : top.node.IsGate = true
      · simp [ht] at hg
      · simp only [ht, if_false] at hg
        obtain ⟨f, hf1, hf2⟩ := h.2 hg
        rw [hn] at hf1
        rcases List.mem_cons.1 hf1 with hf1 | hf1
        · subst hf1; exact absurd hf2 ht
        · exact ⟨f, hf1, hf2⟩
  replaceTop := by
    intro it top rest k g cs b c h hn hnode _ _
    refine ⟨replaceTop_sync b h.1 hn hnode, ?_⟩
    intro hg
    obtain ⟨f, hf1, hf2⟩ := h.2 hg
    rw [hn] at hf1
    rcases List.mem_cons.1 hf1 with hf1 | hf1
    · subst hf1
      exact ⟨⟨f.node, b⟩, by simp [replaceTop], hf2⟩
    · exact ⟨f, by simp [replaceTop, hf1], hf2⟩
  exhausted := fun _ h _ => h
  empty := fun _ h => h
  emit := by
    intro it m a it1 out h he
    obtain ⟨rid, h1⟩ := emit_state it m a it1 out he
    rw [h1]; exact h

theorem Reachable_synced (root : Node) (it : Iterator) (h : Reachable root it) : Synced it :=
  Reachable_inv Synced_preserved root ⟨rfl, fun h => by simp [Iterator.fresh] at h⟩
    ⟨rfl, fun h => by simp [Iterator.fresh] at h⟩ it h

theorem PopNode_checked_eq {it : Iterator} (hk : it.current_key = base it.nodes) :
    PopNode.checked it = some (PopNode it) := by
  unfold PopNode.checked
  cases hn : it.nodes with
  | nil => simp [PopNode_nil hn]
  | cons top rest =>
    have : it.current_key.length ≥ top.node.keyBytes := by
      rw [hk, hn, base, List.length_append, contrib_keyBytes]; omega
    simp [Pop.checked, this]

theorem Next_checked_eq : ∀ (s : List StackFrame) (it : Iterator), it.nodes = s →
    it.current_key = base s → Next.checked s it = some (Next.go s it) := by
  intro s
  induction s with
  | nil => intro it _ _; rfl
  | cons top rest ih =>
    intro it hn hk
    have hk1 : it.current_key = base it.nodes := by rw [hn]; exact hk
    have hpop : (match PopNode.checked it with
        | none => none
        | some it1 => Next.checked rest it1) = some (Next.go rest (PopNode it)) := by
      rw [PopNode_checked_eq hk1]
      exact ih (PopNode it) (PopNode_nodes hn) (by rw [← PopNode_nodes hn]; exact PopNode_sync hk1)
    rw [Next.checked, Next.go]
    by_cases hT : top.node.GetType = NType.PREFIX
    · simp only [hT, if_true]; exact hpop
    · simp only [hT, if_false]
      by_cases h255 : top.byte = 255
      · simp only [h255, if_true]; exact hpop
      · simp only [h255, if_false]
        cases hg : top.node.GetNextChild (top.byte + 1) with
        | error e => rfl
        | ok res =>
          cases res with
          | none => exact hpop
          | some bc =>
            obtain ⟨b1, c1⟩ := bc
            have hlen : it.current_key.length ≥ 1 := by
              rw [hk, base, List.length_append, contrib_keyBytes]
              cases hnode : top.node with
              | inner k g cs => simp [Node.keyBytes]
              | _ => rw [hnode] at hg; simp [Node.GetNextChild] at hg
            simp only [Pop.checked, hlen, if_true]
            cases FindMinimum c1 (replaceTop it top rest b1) <;> rfl

/-- C18. In every reachable state `current_key` is the concatenation, bottom to
top, of the contributions of the stack frames (all prefix bytes for a `PREFIX`
frame, the frame's byte otherwise); hence `current_key` is empty whenever the
stack is empty, and every `Pop(n)` that `Next` and `PopNode` issue from the state
finds `Size() ≥ n`: `Next` with the preconditions tested does what `Next` does. -/
theorem key_stack_sync (root : Node) (it : Iterator) (h : Reachable root it) :
    it.current_key = base it.nodes ∧
    (it.nodes = [] → it.current_key = []) ∧
    PopNode.checked it = some (PopNode it) ∧
    Next.checked it.nodes it = some (Next it) := by
  have hs := (Reachable_synced root it h).1
  refine ⟨hs, ?_, PopNode_checked_eq hs, Next_checked_eq it.nodes it rfl hs⟩
  intro hn
  rw [hs, hn]; rfl

/-- C18 on the example tree after `FindMinimum(root)`. -/
theorem key_stack_sync_witness :
    Reachable demoTree demoStart ∧ demoStart.current_key = base demoStart.nodes ∧
    Next.checked demoStart.nodes demoStart = some (Next demoStart) :=
  have hr : Reachable demoTree demoStart := @Reachable.findMinimum demoTree demoStart rfl
  ⟨hr, (key_stack_sync demoTree demoStart hr).1, (key_stack_sync demoTree demoStart hr).2.2.2⟩

/-! ## Stack balance -/

theorem Next_go_false_nodes : ∀ (s : List StackFrame) (it it1 : Iterator), it.nodes = s →
    Next.go s it = .ok (false, it1) → it1.nodes = [] := by
  intro s
  induction s with
  | nil =>
    intro it it1 hn h
    simp only [Next.go, Except.ok.injEq, Prod.mk.injEq, true_and] at h
    rw [← h]; exact hn
  | cons top rest ih =>
    intro it it1 hn h
    have hpop : Next.go rest (PopNode it) = .ok (false, it1) → it1.nodes = [] :=
      fun h1 => ih (PopNode it) it1 (PopNode_nodes hn) h1
    rw [Next.go] at h
    by_cases hT : top.node.GetType = NType.PREFIX
    · simp only [hT, if_true] at h; exact hpop h
    · simp only [hT, if_false] at h
      by_cases h255 : top.byte = 255
      · simp only [h255, if_true] at h; exact hpop h
      · simp only [h255, if_false] at h
        cases hg : top.node.GetNextChild (top.byte + 1) with
        | error e => simp [hg] at h
        | ok res =>
          cases res with
          | none => simp only [hg] at h; exact hpop h
          | some bc =>
            obtain ⟨b1, c1⟩ := bc
            simp only [hg] at h
            cases hf : FindMinimum c1 (replaceTop it top rest b1) with
            | error e => simp [hf] at h
            | ok it2 => simp [hf] at h

/-- C12. When `Next` returns false in a reachable state, of a well-formed tree or
of any other, it leaves the stack `nodes` empty and `inside_gate` false. -/
theorem Next_false_balanced (root : Node) (it it1 : Iterator) (h : Reachable root it)
    (hn : Next it = .ok (false, it1)) : it1.nodes = [] ∧ it1.inside_gate = false := by
  have hnodes := Next_go_false_nodes it.nodes it it1 rfl hn
  have hs := Reachable_synced root it1 (Reachable.next h hn)
  refine ⟨hnodes, ?_⟩
  cases hg : it1.inside_gate with
  | false => rfl
  | true =>
    obtain ⟨f, hf, _⟩ := hs.2 hg
    rw [hnodes] at hf
    cases hf

theorem demoLast_reachable : Reachable demoTree demoLast :=
  have h0 : Reachable demoTree demoStart := @Reachable.findMinimum demoTree demoStart rfl
  have h1 : Reachable demoTree (nextOf demoStart) :=
    @Reachable.next demoTree demoStart true (nextOf demoStart) h0 rfl
  have h2 : Reachable demoTree (nextOf (nextOf demoStart)) :=
    @Reachable.next demoTree (nextOf demoStart) true (nextOf (nextOf demoStart)) h1 rfl
  @Reachable.next demoTree (nextOf (nextOf demoStart)) true demoLast h2 rfl

/-- C12 on the example tree: `Next` on its last leaf, inside the gate. -/
theorem Next_false_balanced_witness :
    Reachable demoTree demoLast ∧ demoLast.inside_gate = true ∧
    Next demoLast = .ok (false, nextOf demoLast) ∧
    (nextOf demoLast).nodes = [] ∧ (nextOf demoLast).inside_gate = false :=
  ⟨demoLast_reachable, rfl, rfl,
    Next_false_balanced demoTree demoLast (nextOf demoLast) demoLast_reachable rfl⟩

/-! ## The gate flag -/

theorem FindMinimum_induct {R : Node → Iterator → Prop} {Q : Iterator → Prop}
    (hleaf : ∀ n it, n.IsAnyLeaf = true → R n it → Q { it with last_leaf := n })
    (hpfx : ∀ g bytes c it, R (.pfx g bytes c) it →
      R c { pushPrefix bytes (enterGate (.pfx g bytes c) it) with
            nodes := ⟨.pfx g bytes c, 0⟩ :: (pushPrefix bytes (enterGate (.pfx g bytes c) it)).nodes })
    (hinner : ∀ k g cs b c it, R (.inner k g cs) it → (b, c) ∈ cs →
      R c { mirror { enterGate (.inner k g cs) it with
                     current_key := Push (enterGate (.inner k g cs) it).current_key b } b with
            nodes := ⟨.inner k g cs, b⟩ ::
              (mirror { enterGate (.inner k g cs) it with
                        current_key := Push (enterGate (.inner k g cs) it).current_key b } b).nodes })
    (n : Node) : ∀ it it1 : Iterator, R n it → FindMinimum n it = .ok it1 → Q it1 := by
  induction n using Node.induction with
  | h0 => intro it it1 _ h; simp [FindMinimum] at h
  | h1 x =>
    intro it it1 hr h
    simp only [FindMinimum, Except.ok.injEq] at h
    rw [← h]; exact hleaf _ it rfl hr
  | h2 x =>
    intro it it1 hr h
    simp only [FindMinimum, Except.ok.injEq] at h
    rw [← h]; exact hleaf _ it rfl hr
  | h3 k x =>
    intro it it1 hr h
    simp only [FindMinimum, Except.ok.injEq] at h
    rw [← h]; exact hleaf _ it rfl hr
  | h4 x =>
    intro it it1 hr h
    simp only [FindMinimum, Except.ok.injEq] at h
    rw [← h]; exact hleaf _ it rfl hr
  | h5 g bytes c ih =>
    intro it it1 hr h
    rw [FindMinimum] at h
    exact ih _ it1 (hpfx g bytes c it hr) h
  | h6 k g cs ih =>
    intro it it1 hr h
    rw [FindMinimum, FindMinimum_descend_eq] at h
    cases hg : GetNextChild cs 0 with
    | none => simp [hg] at h
    | some bc =>
      obtain ⟨b, c⟩ := bc
      simp only [hg] at h
      have hmem := (GetNextChild_ge hg).2
      exact ih (b, c) hmem _ it1 (hinner k g cs b c it hr hmem) h

theorem all_kid {p : Node → Bool} {n c : Node} (h : n.all p = true) (hc : c ∈ n.kids) :
    c.all p = true := by
  cases n with
  | pfx g bytes d =>
    simp only [Node.kids, List.mem_singleton] at hc
    simp only [Node.all, Bool.and_eq_true] at h
    rw [hc]; exact h.2
  | inner k g cs =>
    simp only [Node.kids, List.mem_map] at hc
    obtain ⟨x, hx, rfl⟩ := hc
    simp only [Node.all, Bool.and_eq_true] at h
    exact allOf_mem h.2 x hx
  | _ => simp [Node.kids] at hc

theorem gateFit_kid {n c : Node} {inside : Bool} (h : gateFit n inside = true)
    (hc : c ∈ n.kids) : gateFit c (inside || n.IsGate) = true := by
  cases inside with
  | true => simp only [gateFit, if_true, Bool.true_or] at h ⊢; exact all_kid h hc
  | false =>
    simp only [gateFit, Bool.false_eq_true, if_false, Bool.false_or] at h ⊢
    cases hg : n.IsGate with
    | false => simp only [Bool.false_eq_true, if_false]; exact all_kid h hc
    | true =>
      simp only [if_true]
      have hf : n.flatGate = true := all_self h
      cases n with
      | pfx g bytes d =>
        simp only [Node.IsGate] at hg
        subst hg
        simp only [Node.kids, List.mem_singleton] at hc
        rw [hc]; exact hf
      | inner k g cs =>
        simp only [Node.IsGate] at hg
        subst hg
        simp only [Node.kids, List.mem_map] at hc
        obtain ⟨x, hx, rfl⟩ := hc
        exact allOf_mem hf x hx
      | _ => simp [Node.kids] at hc

theorem GateFlag_push {it it1 : Iterator} {n : Node} {b : Nat} (h : GateFlag it)
    (hfit : gateFit n it.inside_gate = true) (hn : it1.nodes = ⟨n, b⟩ :: it.nodes)
    (hg : it1.inside_gate = (it.inside_gate || n.IsGate)) :
    GateFlag it1 ∧ ∀ c ∈ n.kids, gateFit c it1.inside_gate = true := by
  refine ⟨⟨?_, ?_⟩, ?_⟩
  · rw [hg, hn, h.1]; simp [hasGate, Bool.or_comm]
  · rw [hn, gateStack, h.2, ← h.1, hfit]; rfl
  · intro c hc
    rw [hg]; exact gateFit_kid hfit hc

theorem GateFlag_preserved :
    Preserved GateFlag GateFlag (fun n it => GateFlag it ∧ gateFit n it.inside_gate = true) where
  ready_mid := fun _ _ h => h.1
  inv_mid := fun _ h => h
  push_pfx := by
    intro bytes c it h hg
    exact GateFlag_push h.1 h.2 rfl (by simp [Node.IsGate]) |>.imp id
      (fun hk => hk c (by simp [Node.kids]))
  push_inner := by
    intro k cs b c it h hg hmem
    exact GateFlag_push h.1 h.2 rfl (by simp [Node.IsGate]) |>.imp id
      (fun hk => hk c (by simp only [Node.kids, List.mem_map]; exact ⟨(b, c), hmem, rfl⟩))
  findMinimum := by
    intro n it it1 h hf
    refine @FindMinimum_induct (fun n it => GateFlag it ∧ gateFit n it.inside_gate = true)
      GateFlag ?_ ?_ ?_ n it it1 h hf
    · intro n it _ h; exact h.1
    · intro g bytes c it h
      exact (GateFlag_push (b := 0) h.1 h.2 (by simp)
        (by simp [enterGate_inside_gate])).imp id (fun hk => hk c (by simp [Node.kids]))
    · intro k g cs b c it h hmem
      exact (GateFlag_push (b := b) h.1 h.2 (by simp)
        (by simp [enterGate_inside_gate])).imp id
        (fun hk => hk c (by simp only [Node.kids, List.mem_map]; exact ⟨(b, c), hmem, rfl⟩))
  popNode := by
    intro it h
    cases hn : it.nodes with
    | nil => rw [PopNode_nil hn]; exact h
    | cons top rest =>
      have h2 := h.2
      rw [hn, gateStack, Bool.and_eq_true] at h2
      refine ⟨?_, by rw [PopNode_nodes hn]; exact h2.1⟩
      rw [PopNode_inside_gate hn, PopNode_nodes hn, h.1, hn]
      cases ht : top.node.IsGate with
      | false => simp [hasGate, ht]
      | true =>
        simp only [if_true]
        cases hr : hasGate rest with
        | false => rfl
        | true =>
          have := h2.2
          rw [hr, gateFit, if_pos rfl] at this
          have := all_self this
          simp [ht] at this
  replaceTop := by
    intro it top rest k g cs b c h hn hnode _ hmem
    have h2 := h.2
    rw [hn, gateStack, Bool.and_eq_true] at h2
    have hflag : it.inside_gate = (hasGate rest || top.node.IsGate) := by
      rw [h.1, hn]; simp [hasGate, Bool.or_comm]
    refine ⟨⟨?_, ?_⟩, ?_⟩
    · show it.inside_gate = hasGate (⟨top.node, b⟩ :: rest)
      rw [hflag]; simp [hasGate, Bool.or_comm]
    · show gateStack (⟨top.node, b⟩ :: rest) = true
      rw [gateStack, h2.1, h2.2]; rfl
    · show gateFit c it.inside_gate = true
      rw [hflag]
      exact gateFit_kid h2.2 (by
        rw [hnode]; simp only [Node.kids, List.mem_map]; exact ⟨(b, c), hmem, rfl⟩)
  exhausted := fun _ h _ => h
  empty := fun _ h => h.1
  emit := by
    intro it m a it1 out h he
    obtain ⟨rid, h1⟩ := emit_state it m a it1 out he
    rw [h1]; exact h

theorem gateStack_single : ∀ s : List StackFrame, gateStack s = true →
    (s.filter (fun f => f.node.IsGate)).length ≤ 1 ∧
    (hasGate s = false → s.filter (fun f => f.node.IsGate) = []) := by
  intro s
  induction s with
  | nil => intro _; simp
  | cons f rest ih =>
    intro h
    rw [gateStack, Bool.and_eq_true] at h
    obtain ⟨ih1, ih2⟩ := ih h.1
    cases hf : f.node.IsGate with
    | false =>
      simp only [List.filter_cons, hf, Bool.false_eq_true, if_false]
      refine ⟨ih1, fun hh => ih2 ?_⟩
      simpa [hasGate, hf] using hh
    | true =>
      have hr : hasGate rest = false := by
        cases hr : hasGate rest with
        | false => rfl
        | true =>
          have := h.2
          rw [hr, gateFit, if_pos rfl] at this
          have := all_self this
          simp [hf] at this
      simp only [List.filter_cons, hf, if_true, List.length_cons]
      rw [ih2 hr]
      exact ⟨by simp, fun hh => by simp [hasGate, hf] at hh⟩

/-- C14. On a tree without nested gates, in every reachable state `inside_gate`
is true if and only if some frame of the stack `nodes` holds a gate node, and at
most one frame does. -/
theorem gate_flag_invariant (root : Node) (hroot : root.noNested = true) (it : Iterator)
    (h : Reachable root it) :
    (it.inside_gate = true ↔ ∃ f ∈ it.nodes, f.node.IsGate = true) ∧
    (it.nodes.filter (fun f => f.node.IsGate)).length ≤ 1 := by
  have hfresh : GateFlag Iterator.fresh := ⟨rfl, rfl⟩
  have hg := Reachable_inv GateFlag_preserved root ⟨hfresh, hroot⟩ hfresh it h
  refine ⟨?_, (gateStack_single it.nodes hg.2).1⟩
  rw [hg.1, hasGate, List.any_eq_true]

/-- C14 on the example tree, on its last leaf, inside the gate. -/
theorem gate_flag_invariant_witness :
    demoTree.noNested = true ∧ Reachable demoTree demoLast ∧ demoLast.inside_gate = true ∧
    (demoLast.nodes.filter (fun f => f.node.IsGate)).length = 1 ∧
    (demoLast.inside_gate = true ↔ ∃ f ∈ demoLast.nodes, f.node.IsGate = true) :=
  ⟨rfl, demoLast_reachable, rfl, rfl,
    (gate_flag_invariant demoTree rfl demoLast demoLast_reachable).1⟩

/-! ## The key buffer and the path of the current leaf -/

theorem pathsOf_append (l1 l2 : List (Nat × Node)) :
    Node.pathsOf (l1 ++ l2) = Node.pathsOf l1 ++ Node.pathsOf l2 := by
  induction l1 with
  | nil => rfl
  | cons a rest ih =>
    obtain ⟨b, c⟩ := a
    rw [List.cons_append, Node.pathsOf, Node.pathsOf, ih, List.append_assoc]

theorem pathsOf_split {cs : List (Nat × Node)} {b : Nat} {c : Node}
    (hp : (cs.map Prod.fst).Pairwise (· < ·)) (hmem : (b, c) ∈ cs) :
    ∃ l1, Node.pathsOf cs = Node.pathsOf l1 ++
      (c.paths.map (fun x => (b :: x.1, x.2)) ++
        Node.pathsOf (cs.filter (fun x => decide (b < x.1)))) := by
  obtain ⟨l1, l2, rfl⟩ := List.append_of_mem hmem
  refine ⟨l1, ?_⟩
  rw [List.map_append, List.pairwise_append] at hp
  obtain ⟨_, h2, h3⟩ := hp
  have e1 : l1.filter (fun x => decide (b < x.1)) = [] := by
    rw [List.filter_eq_nil_iff]
    intro x hx
    have := h3 x.1 (List.mem_map_of_mem _ hx) b (by simp)
    simp only [decide_eq_true_eq]
    omega
  have e2 : l2.filter (fun x => decide (b < x.1)) = l2 := by
    rw [List.filter_eq_self]
    intro x hx
    simp only [List.map_cons, List.pairwise_cons] at h2
    simpa using h2.1 x.1 (List.mem_map_of_mem _ hx)
  rw [List.filter_append, e1, List.filter_cons_of_neg (by simp), e2, pathsOf_append,
    Node.pathsOf]
  rfl

theorem frameOK_inner {k : FanOut} {g : Bool} {cs : List (Nat × Node)} {b : Nat}
    (h : (Node.inner k g cs).WF = true) :
    frameOK ⟨.inner k g cs, b⟩ = true ∧ (cs.map Prod.fst).Pairwise (· < ·) ∧
    ∀ x ∈ cs, x.2.WF = true := by
  have h1 := h
  simp only [Node.WF, Bool.and_eq_true] at h1
  exact ⟨by simp [frameOK, h, Node.IsAnyLeaf], ascending_pairwise h1.1.2, WFs_mem h1.2⟩

theorem PosReady_child {root : Node} {it it1 : Iterator} {k : FanOut} {g : Bool}
    {cs : List (Nat × Node)} {b : Nat} {c : Node} {lower : Nat}
    (hwf : (Node.inner k g cs).WF = true) (hmem : (b, c) ∈ cs) (hs : StackWF it.nodes)
    (hk : it.current_key = base it.nodes)
    (hsuf : ((Node.pathsOf (cs.filter (fun x => decide (lower < x.1)))).map
      (under it.current_key) ++ pending it.nodes) <:+ root.paths)
    (hlow : lower < b)
    (hn : it1.nodes = ⟨.inner k g cs, b⟩ :: it.nodes)
    (hk1 : it1.current_key = it.current_key ++ [b]) : PosReady root c it1 := by
  obtain ⟨hok, hpw, hall⟩ := @frameOK_inner k g cs b hwf
  refine ⟨hall (b, c) hmem, ?_, ?_, ?_⟩
  · rw [hn]
    intro f hf
    rcases List.mem_cons.1 hf with hf | hf
    · rw [hf]; exact hok
    · exact hs f hf
  · rw [hn, hk1, hk]; simp [base, StackFrame.contrib]
  · have hpw1 : ((cs.filter (fun x => decide (lower < x.1))).map Prod.fst).Pairwise (· < ·) :=
      List.Pairwise.sublist (List.Sublist.map _ (List.filter_sublist _)) hpw
    have hmem1 : (b, c) ∈ cs.filter (fun x => decide (lower < x.1)) := by
      rw [List.mem_filter]; exact ⟨hmem, by simpa using hlow⟩
    obtain ⟨l1, hl1⟩ := pathsOf_split hpw1 hmem1
    have hff : (cs.filter (fun x => decide (lower < x.1))).filter (fun x => decide (b < x.1)) =
        cs.filter (fun x => decide (b < x.1)) := by
      rw [List.filter_filter]
      apply List.filter_congr
      intro x _
      by_cases hx : b < x.1
      · have : lower < x.1 := by omega
        simp [hx, this]
      · simp [hx]
    rw [hff] at hl1
    rw [hl1] at hsuf
    refine List.IsSuffix.trans ?_ hsuf
    rw [hn, hk1, pending, frameRest]
    simp only [List.map_append, List.map_map, List.append_assoc, ← hk]
    refine ⟨(Node.pathsOf l1).map (under it.current_key), ?_⟩
    congr 2
    apply List.map_congr_left
    intro x _
    simp [under]

theorem Pos_preserved (root : Node) :
    Preserved (PosMid root) (PosInv root) (PosReady root) where
  ready_mid := by
    intro n it h
    exact ⟨h.2.1, h.2.2.1, List.IsSuffix.trans (List.suffix_append _ _) h.2.2.2⟩
  inv_mid := by
    intro it h
    rcases h with h | ⟨hd, pend, hA, hsuf⟩
    · refine ⟨(by rw [h.1]; intro f hf; cases hf), (by rw [h.1, h.2]; rfl), ?_⟩
      rw [h.1]; exact List.nil_suffix
    · refine ⟨hA.wf, by rw [hA.key, hA.sync], ?_⟩
      rw [hA.rest]
      exact List.IsSuffix.trans (List.suffix_cons _ _) hsuf
  push_pfx := by
    intro bytes c it h _
    obtain ⟨hwf, hs, hk, hsuf⟩ := h
    refine ⟨by simpa [Node.WF] using hwf, ?_, ?_, ?_⟩
    · intro f hf
      rcases List.mem_cons.1 hf with hf | hf
      · rw [hf]; simp [frameOK, hwf, Node.IsAnyLeaf]
      · exact hs f hf
    · show it.current_key ++ bytes = base (⟨.pfx false bytes c, 0⟩ :: it.nodes)
      rw [hk]; simp [base, StackFrame.contrib]
    · show (c.paths.map (under (it.current_key ++ bytes)) ++
        pending (⟨.pfx false bytes c, 0⟩ :: it.nodes)) <:+ root.paths
      simp only [Node.paths, List.map_map] at hsuf
      simp only [pending, frameRest, List.map_nil, List.nil_append]
      have : c.paths.map (under (it.current_key ++ bytes)) =
          c.paths.map (under it.current_key ∘ fun x => (bytes ++ x.1, x.2)) := by
        apply List.map_congr_left
        intro x _
        simp [under]
      rw [this]; exact hsuf
  push_inner := by
    intro k cs b c it h _ hmem
    obtain ⟨hwf, hs, hk, hsuf⟩ := h
    obtain ⟨_, hpw, _⟩ := @frameOK_inner k false cs b hwf
    obtain ⟨l1, hl1⟩ := pathsOf_split hpw hmem
    refine ⟨(@frameOK_inner k false cs b hwf).2.2 (b, c) hmem, ?_, ?_, ?_⟩
    · intro f hf
      rcases List.mem_cons.1 hf with hf | hf
      · rw [hf]; exact (@frameOK_inner k false cs b hwf).1
      · exact hs f hf
    · show Push it.current_key b = base (⟨.inner k false cs, b⟩ :: it.nodes)
      rw [hk]; simp [base, StackFrame.contrib, Push]
    · show (c.paths.map (under (Push it.current_key b)) ++
        pending (⟨.inner k false cs, b⟩ :: it.nodes)) <:+ root.paths
      simp only [Node.paths] at hsuf
      rw [hl1] at hsuf
      refine List.IsSuffix.trans ?_ hsuf
      rw [pending, frameRest]
      simp only [List.map_append, List.map_map, List.append_assoc, ← hk, Push]
      refine ⟨(Node.pathsOf l1).map (under it.current_key), ?_⟩
      congr 2
      apply List.map_congr_left
      intro x _
      simp [under]
  findMinimum := by
    intro n it it1 h hf
    obtain ⟨hwf, hs, hk, hsuf⟩ := h
    obtain ⟨it2, hd, tl, h1, h2, h3⟩ := FindMinimum_spec n hwf it hs hk
    rw [h1] at hf
    simp only [Except.ok.injEq] at hf
    subst hf
    refine Or.inr ⟨_, _, h3, ?_⟩
    rw [h2] at hsuf
    simpa using hsuf
  popNode := by
    intro it h
    obtain ⟨hs, hk, hsuf⟩ := h
    cases hn : it.nodes with
    | nil => rw [PopNode_nil hn]; exact ⟨hs, hk, hsuf⟩
    | cons top rest =>
      refine ⟨?_, PopNode_sync hk, ?_⟩
      · rw [PopNode_nodes hn]
        intro f hf
        exact hs f (by rw [hn]; exact List.mem_cons_of_mem _ hf)
      · rw [PopNode_nodes hn]
        rw [hn, pending] at hsuf
        exact List.IsSuffix.trans (List.suffix_append _ _) hsuf
  replaceTop := by
    intro it top rest k g cs b c h hn hnode hlt hmem
    obtain ⟨hs, hk, hsuf⟩ := h
    have htop : frameOK top = true := hs top (by rw [hn]; exact List.mem_cons_self _ _)
    have hwf : (Node.inner k g cs).WF = true := by
      rw [← hnode]
      simp only [frameOK, Bool.and_eq_true] at htop
      exact htop.1
    have hsr : StackWF rest := fun f hf => hs f (by rw [hn]; exact List.mem_cons_of_mem _ hf)
    have hc : top.contrib = [top.byte] := by simp [StackFrame.contrib, hnode]
    have hpop : Pop it.current_key 1 = base rest := by
      rw [hk, hn, base, hc]
      exact Pop_append (base rest) [top.byte]
    rw [hn, pending, frameRest, hnode] at hsuf
    exact @PosReady_child root { it with nodes := rest, current_key := base rest }
      (replaceTop it top rest b) k g cs b c top.byte hwf hmem hsr rfl hsuf hlt
      (by simp [replaceTop, hnode]) (by simp [replaceTop, hpop, Push])
  exhausted := by
    intro it h hn
    exact Or.inl ⟨hn, (by rw [h.2.1, hn]; rfl)⟩
  empty := by
    intro it h
    have := h.1
    simp [Node.WF] at this
  emit := by
    intro it m a it1 out h he
    obtain ⟨rid, h1⟩ := emit_state it m a it1 out he
    rw [h1]
    rcases h with h | ⟨hd, pend, hA, hsuf⟩
    · exact Or.inl h
    · exact Or.inr ⟨hd, pend, At_congr hA rfl rfl rfl, hsuf⟩

theorem inlinedNext_reachable : Reachable inlinedTree (nextOf inlinedStart) :=
  @Reachable.next inlinedTree inlinedStart true (nextOf inlinedStart)
    (@Reachable.findMinimum inlinedTree inlinedStart rfl) rfl

/-- C13, counterexample. On the tree with the key `04`, whose row ids 5 and 263
are stored below a gate, the state after `FindMinimum(root)` and one `Next` is on
the second leaf: the key of that leaf is `04` and the bytes from the gate to it
are `00 00 00 00 00 00 01`, and `current_key` holds all eight bytes, those below
the gate included (lines 124 and 140 push every byte onto `current_key`, inside a
gate or not), while `row_id` holds the seven bytes below the gate as well. -/
theorem current_key_counterexample :
    Reachable inlinedTree (nextOf inlinedStart) ∧
    (nextOf inlinedStart).inside_gate = true ∧
    inlinedTree.leaves.map (fun x => (x.key, x.sub)) =
      [([4], [0, 0, 0, 0, 0, 0, 0]), ([4], [0, 0, 0, 0, 0, 0, 1])] ∧
    (nextOf inlinedStart).current_key = [4, 0, 0, 0, 0, 0, 0, 1] ∧
    (nextOf inlinedStart).current_key ≠ [4] ∧
    (nextOf inlinedStart).row_id.take 7 = [0, 0, 0, 0, 0, 0, 1] :=
  ⟨inlinedNext_reachable, rfl, rfl, rfl, by decide, rfl⟩

/-- C13, amended. On a well-formed tree, in every reachable state the iterator
either has no position (it is fresh or exhausted: the stack and `current_key` are
empty) or stands on a leaf of the tree, and then `current_key` is the exact byte
path from the root to that leaf: the bytes of its key followed by the bytes
below the gate, which are not left out. -/
theorem current_key_path (root : Node) (hroot : root.WF = true) (it : Iterator)
    (h : Reachable root it) :
    (it.nodes = [] ∧ it.current_key = []) ∨
    ∃ x ∈ root.leaves, it.last_leaf = x.node ∧ it.current_key = x.key ++ x.sub := by
  have hready : PosReady root root Iterator.fresh := by
    refine ⟨hroot, (by intro f hf; cases hf), rfl, ?_⟩
    have : root.paths.map (under Iterator.fresh.current_key) = root.paths := by
      conv_rhs => rw [← List.map_id root.paths]
      apply List.map_congr_left
      intro x _
      simp [under, Iterator.fresh]
    rw [this]
    simp [pending, Iterator.fresh]
  rcases Reachable_inv (Pos_preserved root) root hready (Or.inl ⟨rfl, rfl⟩) it h with
    h1 | ⟨hd, pend, hA, hsuf⟩
  · exact Or.inl h1
  · right
    have hmem : hd ∈ root.paths := hsuf.subset (List.mem_cons_self _ _)
    rw [paths_eq_leaves, List.mem_map] at hmem
    obtain ⟨x, hx, hpos⟩ := hmem
    refine ⟨x, hx, ?_, ?_⟩
    · rw [hA.leaf, ← hpos]; rfl
    · rw [hA.key, ← hpos]; simp [LeafPos.pos, LeafPos.path]

/-- C13, amended, on the second leaf of the tree with the key `04`. -/
theorem current_key_path_witness :
    inlinedTree.WF = true ∧ Reachable inlinedTree (nextOf inlinedStart) ∧
    (((nextOf inlinedStart).nodes = [] ∧ (nextOf inlinedStart).current_key = []) ∨
      ∃ x ∈ inlinedTree.leaves, (nextOf inlinedStart).last_leaf = x.node ∧
        (nextOf inlinedStart).current_key = x.key ++ x.sub) :=
  ⟨rfl, inlinedNext_reachable,
    current_key_path inlinedTree rfl (nextOf inlinedStart) inlinedNext_reachable⟩

/-! ## The staging of row ids -/

theorem take_succ_set {l : List Nat} {d : Nat} (b : Nat) (h : d < l.length) :
    (l.set d b).take (d + 1) = l.take d ++ [b] := by
  induction l generalizing d with
  | nil => simp at h
  | cons a rest ih =>
    cases d with
    | zero => simp
    | succ d =>
      simp only [List.length_cons] at h
      simp only [List.set_cons_succ, List.take_succ_cons, List.cons_append, List.cons.injEq,
        true_and]
      exact ih (by omega)

theorem take_set_ge {l : List Nat} {d i : Nat} (b : Nat) (h : d ≤ i) :
    (l.set i b).take d = l.take d := by
  induction l generalizing d i with
  | nil => simp
  | cons a rest ih =>
    cases d with
    | zero => simp
    | succ d =>
      cases i with
      | zero => omega
      | succ i =>
        simp only [List.set_cons_succ, List.take_succ_cons, List.cons.injEq, true_and]
        exact ih (by omega)

theorem mirror_stage {it : Iterator} {g : Bytes} (b : Nat) (hs : Stage it g)
    (hl : it.row_id.length = 8) (hb : it.inside_gate = true → g.length < 8) :
    Stage (mirror it b) (g ++ [b]) ∧ (mirror it b).row_id.length = 8 ∧
    ∀ i ∈ mirror.writes it, inBuffer i := by
  unfold mirror mirror.writes
  cases hg : it.inside_gate with
  | false =>
    simp only [Bool.false_eq_true, if_false]
    exact ⟨fun h => by simp [hg] at h, hl, fun i hi => by cases hi⟩
  | true =>
    simp only [if_true]
    obtain ⟨h1, h2⟩ := hs hg
    have hb1 := hb hg
    refine ⟨fun _ => ⟨?_, ?_⟩, by simp [hl], ?_⟩
    · show (it.nested_depth + 1) % 256 = (g ++ [b]).length
      rw [h1, List.length_append, List.length_singleton]; omega
    · show (it.row_id.set it.nested_depth b).take ((it.nested_depth + 1) % 256) = g ++ [b]
      have : (it.nested_depth + 1) % 256 = it.nested_depth + 1 := by omega
      rw [this, take_succ_set b (by omega), h2]
    · intro i hi
      simp only [List.mem_singleton] at hi
      subst hi
      unfold inBuffer
      omega

theorem pushPrefix_stage (bytes : List Nat) : ∀ {it : Iterator} {g : Bytes}, Stage it g →
    it.row_id.length = 8 → (it.inside_gate = true → g.length + bytes.length ≤ 8) →
    Stage (pushPrefix bytes it) (g ++ bytes) ∧ (pushPrefix bytes it).row_id.length = 8 ∧
    ∀ i ∈ pushPrefix.writes bytes it, inBuffer i := by
  induction bytes with
  | nil =>
    intro it g hs hl _
    simpa [pushPrefix, pushPrefix.writes] using ⟨hs, hl⟩
  | cons b rest ih =>
    intro it g hs hl hb
    simp only [List.length_cons] at hb
    rw [pushPrefix, pushPrefix.writes]
    have h1 := @mirror_stage { it with current_key := Push it.current_key b } g b hs hl
      (fun hi => by have := hb hi; omega)
    have h2 := @ih _ (g ++ [b]) h1.1 h1.2.1 (fun hi => by
      have := hb (by simpa using hi)
      simp only [List.length_append, List.length_singleton]; omega)
    refine ⟨by simpa using h2.1, h2.2.1, ?_⟩
    intro i hi
    rcases List.mem_append.1 hi with hi | hi
    · exact h1.2.2 i hi
    · exact h2.2.2 i hi

theorem spellsOf_mem {cs : List (Nat × Node)} {d : Nat} (h : Node.spellsOf cs d = true) :
    ∀ x ∈ cs, x.2.spells d = true := by
  induction cs with
  | nil => intro x hx; cases hx
  | cons a rest ih =>
    obtain ⟨b, c⟩ := a
    simp only [Node.spellsOf, Bool.and_eq_true] at h
    intro x hx
    rcases List.mem_cons.mp hx with hx | hx
    · subst hx; exact h.1
    · exact ih h.2 x hx

theorem spells_not_gate {n : Node} {d : Nat} (h : n.spells d = true) : n.IsGate = false := by
  cases n <;> simp_all [Node.spells, Node.IsGate]

theorem gateBytes_nil_of {s : List StackFrame} (h : hasGate s = false) : gateBytes s = [] := by
  cases s with
  | nil => rfl
  | cons f rest =>
    simp only [hasGate, List.any_cons, Bool.or_eq_false_iff] at h
    simp [gateBytes, h.1, hasGate, h.2]

theorem keyTreeOf_mem {cs : List (Nat × Node)} (h : Node.keyTreeOf cs = true) :
    ∀ x ∈ cs, x.2.keyTree = true := by
  induction cs with
  | nil => intro x hx; cases hx
  | cons a rest ih =>
    obtain ⟨b, c⟩ := a
    simp only [Node.keyTreeOf, Bool.and_eq_true] at h
    intro x hx
    rcases List.mem_cons.mp hx with hx | hx
    · subst hx; exact h.1
    · exact ih h.2 x hx

theorem keyTree_kid {n c : Node} (h : n.keyTree = true) (hg : n.IsGate = false)
    (hc : c ∈ n.kids) : c.keyTree = true := by
  cases n with
  | pfx g bytes ch =>
    simp only [Node.IsGate] at hg
    subst hg
    simp only [Node.kids, List.mem_singleton] at hc
    subst hc
    simpa [Node.keyTree] using h
  | inner k g cs =>
    simp only [Node.IsGate] at hg
    subst hg
    simp only [Node.kids, List.mem_map] at hc
    obtain ⟨y, hy, rfl⟩ := hc
    simp only [Node.keyTree, Bool.false_eq_true, if_false] at h
    exact keyTreeOf_mem h y hy
  | _ => simp [Node.kids] at hc

/-- A node that fits where it is pushed extends the bytes below the gate by at
most 8 in all, and its children fit on top of it. -/
theorem depthFit_push {n : Node} {b : Nat} {s : List StackFrame}
    (hfit : depthFit n (hasGate s) (gateBytes s).length = true)
    (hn : n.IsAnyLeaf = false) :
    (gateBytes (⟨n, b⟩ :: s)).length ≤ 8 ∧
    (hasGate (⟨n, b⟩ :: s) = true →
      gateBytes (⟨n, b⟩ :: s) =
        (if n.IsGate then [] else gateBytes s) ++ StackFrame.contrib ⟨n, b⟩) ∧
    ∀ c ∈ n.kids,
      depthFit c (hasGate (⟨n, b⟩ :: s)) (gateBytes (⟨n, b⟩ :: s)).length = true := by
  cases hs : hasGate s with
  | true =>
    rw [hs, depthFit, if_pos rfl] at hfit
    have hng := spells_not_gate hfit
    have hgb : gateBytes (⟨n, b⟩ :: s) = gateBytes s ++ StackFrame.contrib ⟨n, b⟩ := by
      simp [gateBytes, hng, hs]
    have hh : hasGate (⟨n, b⟩ :: s) = true := by simp [hasGate, hng]; simpa [hasGate] using hs
    rw [hgb, hh]
    cases n with
    | pfx g bytes c =>
      simp only [Node.spells, Bool.and_eq_true, decide_eq_true_eq] at hfit
      refine ⟨by simp [StackFrame.contrib]; omega, fun _ => by simp [hng], ?_⟩
      intro x hx
      simp only [Node.kids, List.mem_singleton] at hx
      subst hx
      simpa [depthFit, StackFrame.contrib] using hfit.2
    | inner k g cs =>
      simp only [Node.spells, Bool.and_eq_true, decide_eq_true_eq] at hfit
      refine ⟨by simp [StackFrame.contrib]; omega, fun _ => by simp [hng], ?_⟩
      intro x hx
      simp only [Node.kids, List.mem_map] at hx
      obtain ⟨y, hy, rfl⟩ := hx
      simpa [depthFit, StackFrame.contrib] using spellsOf_mem hfit.2 y hy
    | _ => simp [Node.spells, Node.IsAnyLeaf] at hfit hn
  | false =>
    rw [hs, depthFit] at hfit
    simp only [Bool.false_eq_true, if_false] at hfit
    cases hg : n.IsGate with
    | false =>
      have hgb : gateBytes (⟨n, b⟩ :: s) = [] := by simp [gateBytes, hg, hs]
      have hh : hasGate (⟨n, b⟩ :: s) = false := by
        simp only [hasGate, List.any_cons, hg, Bool.false_or]; simpa [hasGate] using hs
      rw [hgb, hh]
      refine ⟨by simp, fun h => by simp at h, ?_⟩
      intro c hc
      simp only [depthFit, Bool.false_eq_true, if_false]
      exact keyTree_kid hfit hg hc
    | true =>
      have hgb : gateBytes (⟨n, b⟩ :: s) = StackFrame.contrib ⟨n, b⟩ := by simp [gateBytes, hg]
      have hh : hasGate (⟨n, b⟩ :: s) = true := by simp [hasGate, hg]
      rw [hgb, hh]
      cases n with
      | pfx g bytes c =>
        simp only [Node.IsGate] at hg
        subst hg
        have hg8 := hfit
        simp only [Node.keyTree, if_true, Bool.and_eq_true, decide_eq_true_eq] at hg8
        refine ⟨by simpa [StackFrame.contrib] using hg8.1, fun _ => by simp [Node.IsGate], ?_⟩
        intro x hx
        simp only [Node.kids, List.mem_singleton] at hx
        subst hx
        simpa [depthFit, StackFrame.contrib] using hg8.2
      | inner k g cs =>
        simp only [Node.IsGate] at hg
        subst hg
        have hg8 := hfit
        simp only [Node.keyTree, if_true] at hg8
        refine ⟨by simp [StackFrame.contrib], fun _ => by simp [Node.IsGate], ?_⟩
        intro x hx
        simp only [Node.kids, List.mem_map] at hx
        obtain ⟨y, hy, rfl⟩ := hx
        simpa [depthFit, StackFrame.contrib] using spellsOf_mem hg8 y hy
      | _ => simp [Node.IsGate] at hg

/-- A frame pushed with the staging in step leaves the staging in order, and the
children of its node fit on top of it. -/
theorem Staged_push {it it1 : Iterator} {n : Node} {b : Nat} (h : StagedReady n it)
    (hn : n.IsAnyLeaf = false) (hn1 : it1.nodes = ⟨n, b⟩ :: it.nodes)
    (hg : it1.inside_gate = (it.inside_gate || n.IsGate)) (hl : it1.row_id.length = 8)
    (hs : Stage it1 ((if n.IsGate then [] else gateBytes it.nodes) ++ StackFrame.contrib ⟨n, b⟩)) :
    Staged it1 ∧ ∀ c ∈ n.kids, StagedReady c it1 := by
  obtain ⟨hst, hfit⟩ := h
  rw [hst.flag] at hfit
  obtain ⟨h1, h2, h3⟩ := @depthFit_push n b it.nodes hfit hn
  have hflag : it1.inside_gate = hasGate it1.nodes := by
    rw [hg, hn1, hst.flag]; simp [hasGate, Bool.or_comm]
  have hS : Staged it1 := by
    refine ⟨hflag, ?_, hl, by rw [hn1]; exact h1, ?_⟩
    · rw [hn1, depthStack, hst.stack, hfit]; rfl
    · intro hi
      rw [hn1, h2 (by rw [← hn1, ← hflag]; exact hi)]
      exact hs hi
  refine ⟨hS, fun c hc => ⟨hS, ?_⟩⟩
  rw [hflag, hn1]
  exact h3 c hc

theorem enterGate_stage {n : Node} {it : Iterator} (h : Staged it) :
    Stage (enterGate n it) (if n.IsGate then [] else gateBytes it.nodes) ∧
    (enterGate n it).row_id.length = 8 := by
  unfold enterGate
  cases hg : n.IsGate with
  | true => exact ⟨fun _ => ⟨rfl, by simp⟩, h.len⟩
  | false => simpa using ⟨h.stage, h.len⟩

/-- The `PREFIX` case of `FindMinimum` keeps the staging in order, and writes
within the staging buffer. -/
theorem Staged_step_pfx {g : Bool} {bytes : List Nat} {c : Node} {it : Iterator}
    (h : StagedReady (.pfx g bytes c) it) :
    StagedReady c
      { pushPrefix bytes (enterGate (.pfx g bytes c) it) with
        nodes := ⟨.pfx g bytes c, 0⟩ :: (pushPrefix bytes (enterGate (.pfx g bytes c) it)).nodes } ∧
    ∀ i ∈ pushPrefix.writes bytes (enterGate (.pfx g bytes c) it), inBuffer i := by
  have hfit := h.2
  rw [h.1.flag] at hfit
  obtain ⟨hb, hgb, _⟩ := @depthFit_push (.pfx g bytes c) 0 it.nodes hfit rfl
  obtain ⟨hs0, hl0⟩ := @enterGate_stage (.pfx g bytes c) it h.1
  have hflag0 : (enterGate (.pfx g bytes c) it).inside_gate =
      hasGate (⟨.pfx g bytes c, 0⟩ :: it.nodes) := by
    rw [enterGate_inside_gate, h.1.flag]; simp [hasGate, Bool.or_comm]
  obtain ⟨hs1, hl1, hw⟩ := pushPrefix_stage bytes hs0 hl0 (by
    intro hi
    rw [hflag0] at hi
    have := hgb hi
    rw [this] at hb
    simpa [StackFrame.contrib] using hb)
  refine ⟨?_, hw⟩
  exact (@Staged_push it
    { pushPrefix bytes (enterGate (.pfx g bytes c) it) with
      nodes := ⟨.pfx g bytes c, 0⟩ :: (pushPrefix bytes (enterGate (.pfx g bytes c) it)).nodes }
    (.pfx g bytes c) 0 h rfl (by simp)
    (by simp [enterGate_inside_gate]) hl1
    (fun hi => by simpa [StackFrame.contrib] using hs1 (by simpa using hi))).2 c
    (by simp [Node.kids])

/-- The fan-out case of `FindMinimum` keeps the staging in order, and writes
within the staging buffer. -/
theorem Staged_step_inner {k : FanOut} {g : Bool} {cs : List (Nat × Node)} {b : Nat} {c : Node}
    {it : Iterator} (h : StagedReady (.inner k g cs) it) (hmem : (b, c) ∈ cs) :
    StagedReady c
      { mirror { enterGate (.inner k g cs) it with
                 current_key := Push (enterGate (.inner k g cs) it).current_key b } b with
        nodes := ⟨.inner k g cs, b⟩ ::
          (mirror { enterGate (.inner k g cs) it with
                    current_key := Push (enterGate (.inner k g cs) it).current_key b } b).nodes } ∧
    ∀ i ∈ mirror.writes { enterGate (.inner k g cs) it with
        current_key := Push (enterGate (.inner k g cs) it).current_key b }, inBuffer i := by
  have hfit := h.2
  rw [h.1.flag] at hfit
  obtain ⟨hb, hgb, _⟩ := @depthFit_push (.inner k g cs) b it.nodes hfit rfl
  obtain ⟨hs0, hl0⟩ := @enterGate_stage (.inner k g cs) it h.1
  have hflag0 : (enterGate (.inner k g cs) it).inside_gate =
      hasGate (⟨.inner k g cs, b⟩ :: it.nodes) := by
    rw [enterGate_inside_gate, h.1.flag]; simp [hasGate, Bool.or_comm]
  obtain ⟨hs1, hl1, hw⟩ := @mirror_stage
    { enterGate (.inner k g cs) it with
      current_key := Push (enterGate (.inner k g cs) it).current_key b } _ b hs0 hl0 (by
    intro hi
    have hi1 : (enterGate (.inner k g cs) it).inside_gate = true := hi
    rw [hflag0] at hi1
    have := hgb hi1
    rw [this] at hb
    simp only [List.length_append, StackFrame.contrib, List.length_singleton] at hb
    omega)
  refine ⟨?_, hw⟩
  exact (@Staged_push it
    { mirror { enterGate (.inner k g cs) it with
               current_key := Push (enterGate (.inner k g cs) it).current_key b } b with
      nodes := ⟨.inner k g cs, b⟩ ::
        (mirror { enterGate (.inner k g cs) it with
                  current_key := Push (enterGate (.inner k g cs) it).current_key b } b).nodes }
    (.inner k g cs) b h rfl (by simp)
    (by simp [enterGate_inside_gate]) hl1
    (fun hi => by simpa [StackFrame.contrib] using hs1 (by simpa using hi))).2 c
    (by simp only [Node.kids, List.mem_map]; exact ⟨(b, c), hmem, rfl⟩)

theorem byteLoop_stage (bytes : List Nat) (m : Nat) :
    ∀ (fuel byte : Nat) (row_id : List Nat) (out : List Int) (res : Bool × List Nat × List Int),
      Scan.byteLoop bytes m fuel byte row_id out = some res →
      res.2.1.length = row_id.length ∧ ∀ d, d ≤ 7 → res.2.1.take d = row_id.take d := by
  intro fuel
  induction fuel with
  | zero => intro byte row_id out res h; simp [Scan.byteLoop] at h
  | succ fuel ih =>
    intro byte row_id out res h
    rw [Scan.byteLoop] at h
    cases hg : GetNextByte bytes byte with
    | none =>
      simp only [hg, Option.some.injEq] at h
      rw [← h]; exact ⟨rfl, fun _ _ => rfl⟩
    | some b =>
      simp only [hg] at h
      by_cases hc : out.length + 1 > m
      · simp only [hc, if_true, Option.some.injEq] at h
        rw [← h]; exact ⟨rfl, fun _ _ => rfl⟩
      · simp only [hc, if_false] at h
        by_cases hb : b = 255
        · simp only [hb, if_true, Option.some.injEq] at h
          rw [← h]
          exact ⟨by simp, fun d hd => take_set_ge _ hd⟩
        · simp only [hb, if_false] at h
          obtain ⟨h1, h2⟩ := ih _ _ _ _ h
          refine ⟨by rw [h1]; simp, fun d hd => ?_⟩
          rw [h2 d hd, take_set_ge _ hd]

theorem copyPrefix_stage (bytes : List Nat) : ∀ (pos : Nat) (row_id : List Nat),
    (Scan.copyPrefix bytes pos row_id).length = row_id.length ∧
    ∀ d, d ≤ pos → (Scan.copyPrefix bytes pos row_id).take d = row_id.take d := by
  induction bytes with
  | nil => intro pos row_id; exact ⟨rfl, fun _ _ => rfl⟩
  | cons p rest ih =>
    intro pos row_id
    rw [Scan.copyPrefix]
    obtain ⟨h1, h2⟩ := ih (pos + 1) (row_id.set pos p)
    refine ⟨by rw [h1]; simp, fun d hd => ?_⟩
    rw [h2 d (by omega), take_set_ge _ hd]

/-- A pass through the `switch` of `Scan` changes nothing but the staging
buffer, and of that only the cells from `nested_depth` on or, at a byte-set
leaf, the last cell. -/
theorem emit_stage (it : Iterator) (m : Nat) (a : List Int) (it1 : Iterator)
    (out : List Int)
    (h : Scan.emit it m a = .next it1 out ∨ ∃ r, Scan.emit it m a = .ret r it1 out) :
    ∃ row_id, it1 = { it with row_id := row_id } ∧ row_id.length = it.row_id.length ∧
      ∀ d, d ≤ it.nested_depth → (∀ k bs, it.last_leaf = .byteLeaf k bs → d ≤ 7) →
        row_id.take d = it.row_id.take d := by
  obtain ⟨ck, nodes, ll, rid0, ig, nd⟩ := it
  unfold Scan.emit at h
  cases hl : ll with
  | empty => simp [hl] at h
  | pfx g bytes c => simp [hl] at h
  | inner k g cs => simp [hl] at h
  | leafInlined x =>
    simp only [hl] at h
    refine ⟨rid0, ?_, rfl, fun _ _ _ => rfl⟩
    by_cases hc : a.length + 1 > m
    · simp only [hc, if_true, reduceCtorEq, ScanStep.ret.injEq, false_or] at h
      obtain ⟨_, _, h2, _⟩ := h
      exact h2.symm
    · simp only [hc, if_false, ScanStep.next.injEq, reduceCtorEq, exists_false, or_false] at h
      exact h.1.symm
  | leaf rs =>
    simp only [hl] at h
    refine ⟨rid0, ?_, rfl, fun _ _ _ => rfl⟩
    cases hd : DeprecatedGetRowIds rs a m with
    | mk fl o =>
      cases fl with
      | false =>
        simp only [hd, reduceCtorEq, ScanStep.ret.injEq, false_or] at h
        obtain ⟨_, _, h2, _⟩ := h
        exact h2.symm
      | true =>
        simp only [hd, ScanStep.next.injEq, reduceCtorEq, exists_false, or_false] at h
        exact h.1.symm
  | byteLeaf kd bs =>
    simp only [hl] at h
    cases hb : Scan.byteLoop bs m 257 0 rid0 a with
    | none => simp [hb] at h
    | some res =>
      obtain ⟨fl, rid, o⟩ := res
      obtain ⟨h1, h2⟩ := byteLoop_stage bs m 257 0 rid0 a _ hb
      refine ⟨rid, ?_, h1, fun d _ hd => h2 d (hd kd bs rfl)⟩
      cases fl with
      | false =>
        simp only [hb, reduceCtorEq, ScanStep.ret.injEq, false_or] at h
        obtain ⟨_, _, h2, _⟩ := h
        exact h2.symm
      | true =>
        simp only [hb, ScanStep.next.injEq, reduceCtorEq, exists_false, or_false] at h
        exact h.1.symm
  | prefixInlined bs =>
    simp only [hl, ScanStep.next.injEq, reduceCtorEq, exists_false, or_false] at h
    obtain ⟨h1, h2⟩ := copyPrefix_stage bs nd rid0
    exact ⟨_, h.1.symm, h1, fun d hd _ => h2 d hd⟩

theorem decDepth_sub {d n : Nat} (hn : n ≤ d) (hd : d ≤ 8) : decDepth d n = d - n := by
  unfold decDepth; omega

theorem gateBytes_cons_inside {f : StackFrame} {rest : List StackFrame}
    (h : hasGate (f :: rest) = true) :
    gateBytes (f :: rest) = (if f.node.IsGate then [] else gateBytes rest) ++ f.contrib := by
  cases hg : f.node.IsGate with
  | true => simp [gateBytes, hg]
  | false =>
    have : hasGate rest = true := by simpa [hasGate, hg] using h
    simp [gateBytes, hg, this]

theorem depthStack_top {top : StackFrame} {rest : List StackFrame}
    (h : depthStack (top :: rest) = true) :
    depthStack rest = true ∧
    depthFit top.node (hasGate rest) (gateBytes rest).length = true ∧
    (hasGate rest = true → top.node.IsGate = false) := by
  rw [depthStack, Bool.and_eq_true] at h
  refine ⟨h.1, h.2, fun hr => ?_⟩
  have := h.2
  rw [hr, depthFit, if_pos rfl] at this
  exact spells_not_gate this

theorem Staged_popNode {it : Iterator} (h : Staged it) : Staged (PopNode it) := by
  cases hn : it.nodes with
  | nil => rw [PopNode_nil hn]; exact h
  | cons top rest =>
    obtain ⟨hs1, hs2, hs3⟩ := depthStack_top (by rw [← hn]; exact h.stack)
    have hflag : (PopNode it).inside_gate = hasGate rest := by
      rw [PopNode_inside_gate hn, h.flag, hn]
      cases ht : top.node.IsGate with
      | false => simp [hasGate, ht]
      | true =>
        simp only [if_true]
        cases hr : hasGate rest with
        | false => rfl
        | true => rw [hs3 hr] at ht; cases ht
    refine ⟨by rw [PopNode_nodes hn]; exact hflag, by rw [PopNode_nodes hn]; exact hs1,
      by simp [PopNode, hn, h.len], ?_, ?_⟩
    · rw [PopNode_nodes hn]
      cases hr : hasGate rest with
      | false => simp [gateBytes_nil_of hr]
      | true =>
        have hb := h.bound
        rw [hn, gateBytes_cons_inside (by simp [hasGate] at hr ⊢; exact Or.inr hr), hs3 hr] at hb
        simp only [Bool.false_eq_true, if_false, List.length_append] at hb
        omega
    · intro hi
      rw [PopNode_nodes hn]
      rw [hflag] at hi
      have htg := hs3 hi
      have hin : it.inside_gate = true := by
        rw [h.flag, hn]; simp only [hasGate, List.any_cons, htg, Bool.false_or]
        simpa [hasGate] using hi
      obtain ⟨hd, htake⟩ := h.stage hin
      have hgb : gateBytes it.nodes = gateBytes rest ++ top.contrib := by
        rw [hn, gateBytes_cons_inside (by rw [← hn, ← h.flag]; exact hin), htg]; simp
      have hb := h.bound
      rw [hgb] at hd htake hb
      rw [List.length_append, contrib_keyBytes] at hd hb
      have hnd : (PopNode it).nested_depth = (gateBytes rest).length := by
        simp only [PopNode, hn, htg, Bool.false_eq_true, if_false, hin, if_true]
        rw [decDepth_sub (by omega) (by omega)]; omega
      refine ⟨hnd, ?_⟩
      rw [hnd]
      have hrid : (PopNode it).row_id = it.row_id := by simp [PopNode, hn]
      rw [hrid]
      have : (it.row_id.take it.nested_depth).take (gateBytes rest).length =
          it.row_id.take (gateBytes rest).length := by
        rw [List.take_take]; congr 1; omega
      rw [← this, htake, List.take_left']
      rfl

/-- The replacement of the top byte in `Next` keeps the staging in order, and
writes within the staging buffer. -/
theorem Staged_replaceTop {it : Iterator} {top : StackFrame} {rest : List StackFrame}
    {k : FanOut} {g : Bool} {cs : List (Nat × Node)} {b : Nat} {c : Node} (h : Staged it)
    (hn : it.nodes = top :: rest) (hnode : top.node = .inner k g cs) (hmem : (b, c) ∈ cs) :
    StagedReady c (replaceTop it top rest b) ∧ ∀ i ∈ replaceTop.writes it, inBuffer i := by
  obtain ⟨hs1, hs2, hs3⟩ := depthStack_top (by rw [← hn]; exact h.stack)
  have hP := Staged_popNode h
  have hPn : (PopNode it).nodes = rest := PopNode_nodes hn
  have hPf : (PopNode it).inside_gate = hasGate rest := by rw [hP.flag, hPn]
  have hready : StagedReady top.node (PopNode it) := ⟨hP, by rw [hPf, hPn]; exact hs2⟩
  have hcontrib : top.contrib = [top.byte] := by simp [StackFrame.contrib, hnode]
  have hcb : StackFrame.contrib ⟨top.node, b⟩ = [b] := by simp [StackFrame.contrib, hnode]
  have hflag : it.inside_gate = (hasGate rest || top.node.IsGate) := by
    rw [h.flag, hn]; simp [hasGate, Bool.or_comm]
  have hdepth : it.inside_gate = true →
      it.nested_depth = (if top.node.IsGate then [] else gateBytes rest).length + 1 ∧
      it.row_id.take it.nested_depth =
        (if top.node.IsGate then [] else gateBytes rest) ++ [top.byte] ∧
      it.nested_depth ≤ 8 := by
    intro hi
    obtain ⟨hd, htake⟩ := h.stage hi
    have hb := h.bound
    have hgb : gateBytes it.nodes =
        (if top.node.IsGate then [] else gateBytes rest) ++ [top.byte] := by
      rw [hn, gateBytes_cons_inside (by rw [← hn, ← h.flag]; exact hi), hcontrib]
    rw [hgb] at hd htake hb
    rw [List.length_append, List.length_singleton] at hd hb
    exact ⟨hd, htake, by omega⟩
  constructor
  · refine (@Staged_push (PopNode it) (replaceTop it top rest b) top.node b hready
      (by rw [hnode]; rfl) (by simp [replaceTop, hPn]) (by rw [hPf]; exact hflag) ?_ ?_).2 c
      (by rw [hnode]; simp only [Node.kids, List.mem_map]; exact ⟨(b, c), hmem, rfl⟩)
    · simp only [replaceTop]
      split
      · split
        · exact h.len
        · simp [h.len]
      · exact h.len
    · intro hi
      have hi1 : it.inside_gate = true := hi
      obtain ⟨hd, htake, hle⟩ := hdepth hi1
      rw [hPn, hcb]
      have hnd : (replaceTop it top rest b).nested_depth = it.nested_depth := rfl
      have hrid : (replaceTop it top rest b).row_id = it.row_id.set (it.nested_depth - 1) b := by
        simp only [replaceTop, hi1, if_true]
        rw [if_neg (by omega)]
      rw [hnd, hrid]
      refine ⟨by rw [hd]; simp, ?_⟩
      have h1 : it.nested_depth = (it.nested_depth - 1) + 1 := by omega
      have h2 : it.row_id.take (it.nested_depth - 1) =
          (if top.node.IsGate then [] else gateBytes rest) := by
        have : (it.row_id.take it.nested_depth).take (it.nested_depth - 1) =
            it.row_id.take (it.nested_depth - 1) := by
          rw [List.take_take]; congr 1; omega
        rw [← this, htake]
        have hlen : it.nested_depth - 1 =
            (if top.node.IsGate then [] else gateBytes rest).length := by omega
        rw [hlen, List.take_left']
        rfl
      obtain ⟨e, he⟩ : ∃ e, it.nested_depth = e + 1 := ⟨it.nested_depth - 1, h1⟩
      rw [he, Nat.add_sub_cancel] at h2
      rw [he, Nat.add_sub_cancel, take_succ_set b (by rw [h.len]; omega), h2]
  · intro i hi
    unfold replaceTop.writes at hi
    cases hg : it.inside_gate with
    | false => simp [hg] at hi
    | true =>
      simp only [hg, if_true, List.mem_singleton] at hi
      obtain ⟨hd, _, hle⟩ := hdepth hg
      subst hi
      unfold inBuffer
      omega

theorem Staged_congr {it it1 : Iterator} (h : Staged it) (h1 : it1.nodes = it.nodes)
    (h2 : it1.inside_gate = it.inside_gate) (h3 : it1.nested_depth = it.nested_depth)
    (h4 : it1.row_id.length = 8)
    (h5 : it.inside_gate = true →
      it1.row_id.take it.nested_depth = it.row_id.take it.nested_depth) : Staged it1 := by
  refine ⟨by rw [h1, h2]; exact h.flag, by rw [h1]; exact h.stack, h4,
    by rw [h1]; exact h.bound, ?_⟩
  intro hi
  rw [h2] at hi
  rw [h1, h3, h5 hi]
  exact h.stage hi

theorem Staged_preserved : Preserved Staged StagedLeaf StagedReady where
  ready_mid := fun _ _ h => h.1
  inv_mid := fun _ h => h.1
  push_pfx := by
    intro bytes c it h hg
    exact (@Staged_push it
      { it with current_key := it.current_key ++ bytes
                nodes := ⟨.pfx false bytes c, 0⟩ :: it.nodes }
      (.pfx false bytes c) 0 h rfl rfl (by simp [Node.IsGate]) h.1.len
      (fun hi => by simp [hg] at hi)).2 c (by simp [Node.kids])
  push_inner := by
    intro k cs b c it h hg hmem
    exact (@Staged_push it
      { it with current_key := Push it.current_key b
                nodes := ⟨.inner k false cs, b⟩ :: it.nodes }
      (.inner k false cs) b h rfl rfl (by simp [Node.IsGate]) h.1.len
      (fun hi => by simp [hg] at hi)).2 c
      (by simp only [Node.kids, List.mem_map]; exact ⟨(b, c), hmem, rfl⟩)
  findMinimum := by
    intro n it it1 h hf
    refine @FindMinimum_induct StagedReady StagedLeaf ?_ ?_ ?_ n it it1 h hf
    · intro n it _ h
      refine ⟨Staged_congr h.1 rfl rfl rfl h.1.len (fun _ => rfl), ?_⟩
      intro hi
      have hi1 : it.inside_gate = true := hi
      have := h.2
      rw [hi1, depthFit, if_pos rfl] at this
      exact this
    · intro g bytes c it h
      exact (Staged_step_pfx h).1
    · intro k g cs b c it h hmem
      exact (Staged_step_inner h hmem).1
  popNode := fun _ h => Staged_popNode h
  replaceTop := by
    intro it top rest k g cs b c h hn hnode _ hmem
    exact (Staged_replaceTop h hn hnode hmem).1
  exhausted := by
    intro it h hn
    refine ⟨h, fun hi => ?_⟩
    rw [h.flag, hn] at hi
    cases hi
  empty := by
    intro it h
    refine ⟨h.1, fun hi => ?_⟩
    have := h.2
    rw [hi, depthFit, if_pos rfl] at this
    simp [Node.spells] at this
  emit := by
    intro it m a it1 out h he
    obtain ⟨rid, h1, h2, h3⟩ := emit_stage it m a it1 out he
    have hS : Staged it1 := by
      rw [h1]
      refine Staged_congr h.1 rfl rfl rfl (by rw [← h.1.len]; exact h2) ?_
      intro hi
      refine h3 _ (le_refl _) ?_
      intro k bs hl
      have := h.2 hi
      rw [hl] at this
      simp only [Node.spells, decide_eq_true_eq] at this
      rw [(h.1.stage hi).1, this]
    refine ⟨hS, ?_⟩
    intro hi
    rw [h1] at hi ⊢
    exact h.2 hi

/-- The leaf `FindMinimum` ends on fits where it stands. -/
theorem FindMinimum_leaf_fit (n : Node) (it it1 : Iterator) (h : StagedReady n it)
    (hf : FindMinimum n it = .ok it1) :
    depthFit it1.last_leaf it1.inside_gate (gateBytes it1.nodes).length = true := by
  refine @FindMinimum_induct StagedReady
    (fun it1 => depthFit it1.last_leaf it1.inside_gate (gateBytes it1.nodes).length = true)
    ?_ ?_ ?_ n it it1 h hf
  · intro n it _ h
    exact h.2
  · intro g bytes c it h
    exact (Staged_step_pfx h).1
  · intro k g cs b c it h hmem
    exact (Staged_step_inner h hmem).1

theorem Slack_of_fit {it : Iterator} (h : Staged it)
    (hfit : depthFit it.last_leaf it.inside_gate (gateBytes it.nodes).length = true) :
    Slack it := by
  intro bs hl
  cases hi : it.inside_gate with
  | true =>
    rw [hi, depthFit, if_pos rfl, hl] at hfit
    simp only [Node.spells, decide_eq_true_eq] at hfit
    have := (h.stage hi).1
    omega
  | false =>
    rw [hi, depthFit, hl] at hfit
    simp [Node.keyTree] at hfit

/-- `PopNode` does not increase `nested_depth`. -/
theorem PopNode_depth_le {it : Iterator} (h : Staged it) :
    (PopNode it).nested_depth ≤ it.nested_depth := by
  cases hn : it.nodes with
  | nil => rw [PopNode_nil hn]
  | cons top rest =>
    have hP := Staged_popNode h
    cases hi : (PopNode it).inside_gate with
    | false =>
      have : (PopNode it).nested_depth = it.nested_depth := by
        rw [PopNode_inside_gate hn] at hi
        simp only [PopNode, hn]
        rw [hi]
        simp
      omega
    | true =>
      have hin : it.inside_gate = true := by
        rw [PopNode_inside_gate hn] at hi
        by_cases hg : top.node.IsGate = true
        · simp [hg] at hi
        · simpa [hg] using hi
      have htg : top.node.IsGate = false := by
        rw [PopNode_inside_gate hn] at hi
        by_cases hg : top.node.IsGate = true
        · simp [hg] at hi
        · simpa using hg
      have h1 := (hP.stage hi).1
      rw [PopNode_nodes hn] at h1
      have h2 := (h.stage hin).1
      rw [hn, gateBytes_cons_inside (by rw [← hn, ← h.flag]; exact hin), htg] at h2
      simp only [Bool.false_eq_true, if_false, List.length_append] at h2
      omega

/-- The staging with the room for an inlined prefix: in every state between the
steps of the iterator, the bytes of an inlined prefix in `last_leaf` fit in the
staging buffer from `nested_depth` on. -/
theorem Slack_preserved :
    Preserved (fun it => Staged it ∧ Slack it) (fun it => StagedLeaf it ∧ Slack it)
      (fun n it => StagedReady n it ∧ Slack it) where
  ready_mid := fun _ _ h => ⟨h.1.1, h.2⟩
  inv_mid := fun _ h => ⟨h.1.1, h.2⟩
  push_pfx := fun bytes c it h hg => ⟨Staged_preserved.push_pfx bytes c it h.1 hg, h.2⟩
  push_inner := fun k cs b c it h hg hmem =>
    ⟨Staged_preserved.push_inner k cs b c it h.1 hg hmem, h.2⟩
  findMinimum := by
    intro n it it1 h hf
    have hL := Staged_preserved.findMinimum n it it1 h.1 hf
    exact ⟨hL, Slack_of_fit hL.1 (FindMinimum_leaf_fit n it it1 h.1 hf)⟩
  popNode := by
    intro it h
    refine ⟨Staged_popNode h.1, ?_⟩
    intro bs hl
    rw [PopNode_last_leaf] at hl
    have := h.2 bs hl
    have := PopNode_depth_le h.1
    omega
  replaceTop := by
    intro it top rest k g cs b c h hn hnode hlt hmem
    exact ⟨Staged_preserved.replaceTop it top rest k g cs b c h.1 hn hnode hlt hmem, h.2⟩
  exhausted := fun it h hn => ⟨Staged_preserved.exhausted it h.1 hn, h.2⟩
  empty := fun it h => ⟨Staged_preserved.empty it h.1, h.2⟩
  emit := by
    intro it m a it1 out h he
    refine ⟨Staged_preserved.emit it m a it1 out h.1 he, ?_⟩
    obtain ⟨rid, h1⟩ := emit_state it m a it1 out he
    rw [h1]
    exact h.2

theorem FindMinimum_descendWrites_eq (node : Node) (cs : List (Nat × Node)) (byte : Nat)
    (it : Iterator) :
    FindMinimum.descendWrites node cs byte it =
      (match GetNextChild cs byte with
       | none => []
       | some (b, c) =>
         mirror.writes { it with current_key := Push it.current_key b } ++
           FindMinimum.writes c
             { mirror { it with current_key := Push it.current_key b } b with
               nodes := ⟨node, b⟩ ::
                 (mirror { it with current_key := Push it.current_key b } b).nodes }) := by
  induction cs with
  | nil => rfl
  | cons a rest ih =>
    obtain ⟨b, c⟩ := a
    rw [FindMinimum.descendWrites, GetNextChild]
    by_cases h : byte ≤ b
    · simp [h]
    · simp [h, ih]

theorem LowerBound_descendWrites_eq (node : Node) (kb : Nat) (cs : List (Nat × Node))
    (it : Iterator) (key : ARTKey) (equal : Bool) (depth : Nat) :
    LowerBound.descendWrites node kb cs it key equal depth =
      (match GetNextChild cs kb with
       | none => Next.writes it.nodes it
       | some (b, c) =>
         if b > kb then
           FindMinimum.writes c
             { it with current_key := Push it.current_key b, nodes := ⟨node, b⟩ :: it.nodes }
         else
           LowerBound.writes c
             { it with current_key := Push it.current_key b, nodes := ⟨node, b⟩ :: it.nodes }
             key equal (depth + 1)) := by
  induction cs with
  | nil => rfl
  | cons a rest ih =>
    obtain ⟨b, c⟩ := a
    rw [LowerBound.descendWrites, GetNextChild]
    by_cases h : kb ≤ b
    · simp [h]
    · simp [h, ih]

theorem FindMinimum_writes_bound (n : Node) :
    ∀ it : Iterator, StagedReady n it → ∀ i ∈ FindMinimum.writes n it, inBuffer i := by
  induction n using Node.induction with
  | h0 => intro it _ i hi; simp [FindMinimum.writes] at hi
  | h1 x => intro it _ i hi; simp [FindMinimum.writes] at hi
  | h2 x => intro it _ i hi; simp [FindMinimum.writes] at hi
  | h3 k x => intro it _ i hi; simp [FindMinimum.writes] at hi
  | h4 x => intro it _ i hi; simp [FindMinimum.writes] at hi
  | h5 g bytes c ih =>
    intro it h i hi
    rw [FindMinimum.writes] at hi
    obtain ⟨h1, h2⟩ := Staged_step_pfx h
    rcases List.mem_append.1 hi with hi | hi
    · exact h2 i hi
    · exact ih _ h1 i hi
  | h6 k g cs ih =>
    intro it h i hi
    rw [FindMinimum.writes, FindMinimum_descendWrites_eq] at hi
    cases hg : GetNextChild cs 0 with
    | none => simp [hg] at hi
    | some bc =>
      obtain ⟨b, c⟩ := bc
      simp only [hg] at hi
      have hmem := (GetNextChild_ge hg).2
      obtain ⟨h1, h2⟩ := Staged_step_inner h hmem
      rcases List.mem_append.1 hi with hi | hi
      · exact h2 i hi
      · exact ih (b, c) hmem _ h1 i hi

theorem Next_writes_bound : ∀ (s : List StackFrame) (it : Iterator), it.nodes = s →
    Staged it → ∀ i ∈ Next.writes s it, inBuffer i := by
  intro s
  induction s with
  | nil => intro it _ _ i hi; simp [Next.writes] at hi
  | cons top rest ih =>
    intro it hn hm i hi
    have hpop : i ∈ Next.writes rest (PopNode it) → inBuffer i :=
      fun h1 => ih (PopNode it) (PopNode_nodes hn) (Staged_popNode hm) i h1
    rw [Next.writes] at hi
    by_cases hT : top.node.GetType = NType.PREFIX
    · simp only [hT, if_true] at hi; exact hpop hi
    · simp only [hT, if_false] at hi
      by_cases h255 : top.byte = 255
      · simp only [h255, if_true] at hi; exact hpop hi
      · simp only [h255, if_false] at hi
        cases hg : top.node.GetNextChild (top.byte + 1) with
        | error e => simp [hg] at hi
        | ok res =>
          cases res with
          | none => simp only [hg] at hi; exact hpop hi
          | some bc =>
            obtain ⟨b1, c1⟩ := bc
            simp only [hg] at hi
            cases hnode : top.node with
            | inner k g cs =>
              rw [hnode] at hg
              simp only [Node.GetNextChild, Except.ok.injEq] at hg
              obtain ⟨h1, h2⟩ := Staged_replaceTop hm hn hnode (GetNextChild_ge hg).2
              rcases List.mem_append.1 hi with hi | hi
              · exact h2 i hi
              · exact FindMinimum_writes_bound c1 _ h1 i hi
            | _ => rw [hnode] at hg; simp [Node.GetNextChild] at hg

theorem atLeafOrGate_writes_bound (node : Node) (it : Iterator) (key : ARTKey) (equal : Bool)
    (hr : StagedReady node it) :
    ∀ i ∈ LowerBound.atLeafOrGate.writes node it key equal, inBuffer i := by
  intro i hi
  unfold LowerBound.atLeafOrGate.writes at hi
  split at hi
  · exact Next_writes_bound it.nodes it rfl hr.1 i hi
  · split at hi
    · exact FindMinimum_writes_bound node it hr i hi
    · cases hi

theorem LowerBound_writes_bound (n : Node) :
    ∀ (it : Iterator) (key : ARTKey) (equal : Bool) (depth : Nat), StagedReady n it →
      it.inside_gate = false → ∀ i ∈ LowerBound.writes n it key equal depth, inBuffer i := by
  induction n using Node.induction with
  | h0 => intro it key equal depth _ _ i hi; simp [LowerBound.writes] at hi
  | h1 x =>
    intro it key equal depth hr _ i hi
    rw [LowerBound.writes] at hi
    exact atLeafOrGate_writes_bound _ it key equal hr i hi
  | h2 x =>
    intro it key equal depth hr _ i hi
    rw [LowerBound.writes] at hi
    exact atLeafOrGate_writes_bound _ it key equal hr i hi
  | h3 k x =>
    intro it key equal depth hr _ i hi
    rw [LowerBound.writes] at hi
    exact atLeafOrGate_writes_bound _ it key equal hr i hi
  | h4 x =>
    intro it key equal depth hr _ i hi
    rw [LowerBound.writes] at hi
    exact atLeafOrGate_writes_bound _ it key equal hr i hi
  | h5 g bytes c ih =>
    intro it key equal depth hr hig i hi
    rw [LowerBound.writes] at hi
    cases g with
    | true =>
      simp only [if_true] at hi
      exact atLeafOrGate_writes_bound _ it key equal hr i hi
    | false =>
      simp only [Bool.false_eq_true, if_false, pushAll_eq] at hi
      have hr1 := Staged_preserved.push_pfx bytes c it hr hig
      cases hcmp : comparePrefix bytes key depth with
      | lt => rw [hcmp] at hi; exact Next_writes_bound _ _ rfl hr1.1 i hi
      | gt => rw [hcmp] at hi; exact FindMinimum_writes_bound c _ hr1 i hi
      | eq => rw [hcmp] at hi; exact ih _ key equal _ hr1 hig i hi
  | h6 k g cs ih =>
    intro it key equal depth hr hig i hi
    rw [LowerBound.writes] at hi
    cases g with
    | true =>
      simp only [if_true] at hi
      exact atLeafOrGate_writes_bound _ it key equal hr i hi
    | false =>
      simp only [Bool.false_eq_true, if_false] at hi
      rw [LowerBound_descendWrites_eq] at hi
      cases hg : GetNextChild cs (key.get depth) with
      | none =>
        simp only [hg] at hi
        exact Next_writes_bound it.nodes it rfl hr.1 i hi
      | some bc =>
        obtain ⟨b, c⟩ := bc
        simp only [hg] at hi
        have hmem := (GetNextChild_ge hg).2
        have hr1 := Staged_preserved.push_inner k cs b c it hr hig hmem
        by_cases hb : b > key.get depth
        · rw [if_pos hb] at hi
          exact FindMinimum_writes_bound c _ hr1 i hi
        · rw [if_neg hb] at hi
          exact ih (b, c) hmem _ key equal _ hr1 hig i hi

theorem emit_writes_bound {it : Iterator} (h : Slack it) :
    ∀ i ∈ Scan.emit.writes it, inBuffer i := by
  intro i hmem
  unfold Scan.emit.writes at hmem
  cases hl : it.last_leaf with
  | byteLeaf k bs =>
    simp only [hl, List.mem_map] at hmem
    obtain ⟨_, _, rfl⟩ := hmem
    unfold inBuffer; omega
  | prefixInlined bs =>
    have := h bs hl
    simp only [hl, List.mem_map, List.mem_range] at hmem
    obtain ⟨j, hj, rfl⟩ := hmem
    unfold inBuffer
    omega
  | _ => simp [hl] at hmem

/-! ## The leaf under the stack -/

theorem leavesOf_mem {g : Bool} {cs : List (Nat × Node)} {b : Nat} {c : Node}
    (hmem : (b, c) ∈ cs) {y : LeafPos} (hy : y ∈ c.leaves) :
    y.extend g [b] ∈ Node.leavesOf g cs := by
  induction cs with
  | nil => cases hmem
  | cons a rest ih =>
    obtain ⟨b1, c1⟩ := a
    simp only [Node.leavesOf, List.mem_append, List.mem_map]
    rcases List.mem_cons.1 hmem with h | h
    · simp only [Prod.mk.injEq] at h
      obtain ⟨rfl, rfl⟩ := h
      exact Or.inl ⟨y, hy, rfl⟩
    · exact Or.inr (ih h)

theorem LeafedReady_push {root : Node} {it it1 : Iterator} {n c : Node} {b : Nat} {g : Bool}
    {bytes : Bytes} (h : LeafedReady root n it) (hn : it1.nodes = ⟨n, b⟩ :: it.nodes)
    (hg : n.IsGate = g) (hc : StackFrame.contrib ⟨n, b⟩ = bytes) (hwf : c.WF = true)
    (hkid : ∀ y ∈ c.leaves, y.extend g bytes ∈ n.leaves) : LeafedReady root c it1 := by
  refine ⟨hwf, ?_, ?_⟩
  · rw [hn]; exact ⟨⟨h.1, h.2.2⟩, h.2.1⟩
  · intro y hy
    rw [hn, lift, hc, hg]
    exact h.2.2 _ (hkid y hy)

theorem Leafed_preserved (root : Node) :
    Preserved (fun it => chain root it.nodes) (Leafed root) (LeafedReady root) where
  ready_mid := fun _ _ h => h.2.1
  inv_mid := fun _ h => h.1
  push_pfx := by
    intro bytes c it h _
    exact @LeafedReady_push root it _ (.pfx false bytes c) c 0 false bytes h rfl rfl rfl
      (by simpa [Node.WF] using h.1)
      (fun y hy => by simp only [Node.leaves, List.mem_map]; exact ⟨y, hy, rfl⟩)
  push_inner := by
    intro k cs b c it h _ hmem
    exact @LeafedReady_push root it _ (.inner k false cs) c b false [b] h rfl rfl rfl
      ((@frameOK_inner k false cs b h.1).2.2 (b, c) hmem)
      (fun y hy => by simp only [Node.leaves]; exact leavesOf_mem hmem hy)
  findMinimum := by
    intro n it it1 h hf
    refine @FindMinimum_induct (LeafedReady root) (Leafed root) ?_ ?_ ?_ n it it1 h hf
    · intro n it hl h
      refine ⟨h.2.1, Or.inr ?_⟩
      exact h.2.2 _ (by rw [leaves_leaf_key hl]; exact List.mem_singleton.2 rfl)
    · intro g bytes c it h
      exact @LeafedReady_push root it _ (.pfx g bytes c) c 0 g bytes h (by simp) rfl rfl
        (by simpa [Node.WF] using h.1)
        (fun y hy => by simp only [Node.leaves, List.mem_map]; exact ⟨y, hy, rfl⟩)
    · intro k g cs b c it h hmem
      exact @LeafedReady_push root it _ (.inner k g cs) c b g [b] h (by simp) rfl rfl
        ((@frameOK_inner k g cs b h.1).2.2 (b, c) hmem)
        (fun y hy => by simp only [Node.leaves]; exact leavesOf_mem hmem hy)
  popNode := by
    intro it h
    cases hn : it.nodes with
    | nil => rw [PopNode_nil hn, hn]; trivial
    | cons top rest =>
      rw [PopNode_nodes hn]
      rw [hn] at h
      exact h.2
  replaceTop := by
    intro it top rest k g cs b c h hn hnode _ hmem
    rw [hn] at h
    obtain ⟨⟨hwf, hl⟩, hrest⟩ := h
    rw [hnode] at hwf hl
    refine ⟨(@frameOK_inner k g cs b hwf).2.2 (b, c) hmem, ?_, ?_⟩
    · show chain root (⟨top.node, b⟩ :: rest)
      rw [hnode]
      exact ⟨⟨hwf, hl⟩, hrest⟩
    · intro y hy
      show lift (⟨top.node, b⟩ :: rest) y ∈ root.leaves
      rw [lift, hnode]
      exact hl _ (by simp only [Node.leaves, Node.IsGate, StackFrame.contrib]
                     exact leavesOf_mem hmem hy)
  exhausted := fun _ h hn => ⟨h, Or.inl hn⟩
  empty := by
    intro it h
    have := h.1
    simp [Node.WF] at this
  emit := by
    intro it m a it1 out h he
    obtain ⟨rid, h1⟩ := emit_state it m a it1 out he
    rw [h1]; exact h

theorem lift_node : ∀ (s : List StackFrame) (y : LeafPos), (lift s y).node = y.node := by
  intro s
  induction s with
  | nil => intro y; rfl
  | cons f rest ih => intro y; rw [lift, ih]; simp

theorem lift_path : ∀ (s : List StackFrame) (y : LeafPos),
    (lift s y).path = base s ++ y.path := by
  intro s
  induction s with
  | nil => intro y; simp [lift, base]
  | cons f rest ih => intro y; rw [lift, ih]; simp [base]

theorem lift_sub_outside : ∀ (s : List StackFrame) (y : LeafPos), hasGate s = false →
    (lift s y).sub = y.sub := by
  intro s
  induction s with
  | nil => intro y _; rfl
  | cons f rest ih =>
    intro y h
    simp only [hasGate, List.any_cons, Bool.or_eq_false_iff] at h
    rw [lift, ih _ (by simpa [hasGate] using h.2), h.1]
    simp [LeafPos.extend]

theorem lift_sub_inside : ∀ (s : List StackFrame) (y : LeafPos), oneGate s →
    hasGate s = true → (lift s y).sub = gateBytes s ++ (y.key ++ y.sub) := by
  intro s
  induction s with
  | nil => intro y _ h; simp [hasGate] at h
  | cons f rest ih =>
    intro y ho h
    rw [lift]
    cases hf : f.node.IsGate with
    | true =>
      have hr : hasGate rest = false := by
        cases hr : hasGate rest with
        | false => rfl
        | true => have := ho.1 hr; rw [this] at hf; cases hf
      rw [lift_sub_outside _ _ hr]
      simp [LeafPos.extend, gateBytes, hf]
    | false =>
      have hr : hasGate rest = true := by simpa [hasGate, hf] using h
      rw [ih _ ho.2 hr]
      simp [LeafPos.extend, gateBytes, hf, hr]

theorem depthStack_oneGate : ∀ s : List StackFrame, depthStack s = true → oneGate s := by
  intro s
  induction s with
  | nil => intro _; trivial
  | cons f rest ih =>
    intro h
    obtain ⟨h1, _, h3⟩ := depthStack_top h
    exact ⟨h3, ih h1⟩

theorem set_last {l : List Nat} (b : Nat) (h : l.length = 8) : l.set 7 b = l.take 7 ++ [b] := by
  rw [← take_succ_set b (by omega)]
  rw [List.take_of_length_le (by simp [h])]

theorem copyPrefix_eq (bytes : List Nat) : ∀ (pos : Nat) (row_id : List Nat),
    pos + bytes.length = row_id.length →
    Scan.copyPrefix bytes pos row_id = row_id.take pos ++ bytes := by
  induction bytes with
  | nil =>
    intro pos row_id h
    simp only [List.length_nil, Nat.add_zero] at h
    simp [Scan.copyPrefix, h]
  | cons p rest ih =>
    intro pos row_id h
    simp only [List.length_cons] at h
    rw [Scan.copyPrefix, ih (pos + 1) _ (by simp; omega), take_succ_set p (by omega)]
    simp

/-- The row ids a pass through the `switch` appends inside a gate are decoded
from the bytes below the gate followed by the bytes of the leaf. -/
theorem emit_rows {it : Iterator} (h : StagedLeaf it) (hi : it.inside_gate = true) :
    (∀ t ∈ it.last_leaf.tails, (gateBytes it.nodes ++ t).length = 8) ∧
    ∀ (m : Nat) (a : List Int) (it1 : Iterator) (out : List Int),
      (Scan.emit it m a = .next it1 out ∨ ∃ r, Scan.emit it m a = .ret r it1 out) →
      ∃ tails : List Bytes, (∀ t ∈ tails, t ∈ it.last_leaf.tails) ∧
        out = a ++ tails.map (fun t => GetRowID (gateBytes it.nodes ++ t)) := by
  have hsp := h.2 hi
  obtain ⟨hd, htake⟩ := h.1.stage hi
  have hlen := h.1.len
  cases hl : it.last_leaf with
  | empty => rw [hl] at hsp; simp [Node.spells] at hsp
  | leafInlined x => rw [hl] at hsp; simp [Node.spells] at hsp
  | leaf x => rw [hl] at hsp; simp [Node.spells] at hsp
  | pfx g bytes c =>
    refine ⟨by simp [Node.tails], ?_⟩
    intro m a it1 out he
    unfold Scan.emit at he
    simp [hl] at he
  | inner k g cs =>
    refine ⟨by simp [Node.tails], ?_⟩
    intro m a it1 out he
    unfold Scan.emit at he
    simp [hl] at he
  | byteLeaf k bs =>
    rw [hl] at hsp
    simp only [Node.spells, decide_eq_true_eq] at hsp
    rw [hd, hsp] at htake
    constructor
    · intro t ht
      simp only [Node.tails, List.mem_map] at ht
      obtain ⟨b, _, rfl⟩ := ht
      simp [hsp]
    · intro m a it1 out he
      unfold Scan.emit at he
      simp only [hl] at he
      cases hb : Scan.byteLoop bs m 257 0 it.row_id a with
      | none => simp [hb] at he
      | some res =>
        obtain ⟨bs1, h1, h2⟩ := byteLoop_emits bs m 257 0 it.row_id a res hb
        obtain ⟨fl, rid, o⟩ := res
        have ho : out = o := by
          cases fl with
          | false =>
            simp only [hb, reduceCtorEq, ScanStep.ret.injEq, false_or] at he
            obtain ⟨_, _, _, h3⟩ := he
            exact h3.symm
          | true =>
            simp only [hb, ScanStep.next.injEq, reduceCtorEq, exists_false, or_false] at he
            exact he.2.symm
        refine ⟨bs1.map (fun b => [b]), ?_, ?_⟩
        · intro t ht
          simp only [List.mem_map] at ht
          obtain ⟨b, hb1, rfl⟩ := ht
          simp only [Node.tails, List.mem_map]
          exact ⟨b, h2 b hb1, rfl⟩
        · rw [ho]
          simp only at h1
          rw [h1, List.map_map]
          congr 1
          apply List.map_congr_left
          intro b _
          simp only [Function.comp]
          rw [set_last b hlen, htake]
  | prefixInlined bs =>
    rw [hl] at hsp
    simp only [Node.spells, decide_eq_true_eq] at hsp
    constructor
    · intro t ht
      simp only [Node.tails, List.mem_singleton] at ht
      subst ht
      simp only [List.length_append]; omega
    · intro m a it1 out he
      unfold Scan.emit at he
      simp only [hl, ScanStep.next.injEq, reduceCtorEq, exists_false, or_false] at he
      refine ⟨[bs], by simp [Node.tails], ?_⟩
      rw [← he.2, copyPrefix_eq bs _ _ (by rw [hlen, hd]; exact hsp), htake]
      simp

theorem gate_split : ∀ s : List StackFrame, hasGate s = true →
    ∃ above g below, s = above ++ g :: below ∧ g.node.IsGate = true ∧ hasGate above = false ∧
      gateBytes s = base (above ++ [g]) ∧ base s = base below ++ gateBytes s := by
  intro s
  induction s with
  | nil => intro h; simp [hasGate] at h
  | cons f rest ih =>
    intro h
    cases hf : f.node.IsGate with
    | true =>
      exact ⟨[], f, rest, rfl, hf, rfl, by simp [gateBytes, hf, base], by simp [gateBytes, hf, base]⟩
    | false =>
      have hr : hasGate rest = true := by simpa [hasGate, hf] using h
      obtain ⟨above, g, below, h1, h2, h3, h4, h5⟩ := ih hr
      refine ⟨f :: above, g, below, by rw [h1]; rfl, h2, ?_, ?_, ?_⟩
      · simpa [hasGate, hf] using h3
      · simp only [gateBytes, hf, hr, Bool.false_eq_true, if_false, if_true, h4,
          List.cons_append, base]
        rfl
      · simp only [gateBytes, hf, hr, Bool.false_eq_true, if_false, if_true, base, h5,
          List.append_assoc]

/-- C15. On a tree in which every path from the root of a gate to a leaf spells
exactly 8 bytes (the leaves of the row-id subtrees, byte-set leaves and inlined
prefixes, occurring below gates only), `FindMinimum(root)` and
`LowerBound(root, ...)` on a fresh iterator write within the 8 cells of `row_id`,
and in every reachable state the buffer has its 8 cells and `Next` and a pass
through the `switch` of `Scan` write within them; in every reachable state with
`inside_gate` true, `nested_depth` is at most 8, the cells
`row_id[0..nested_depth)` hold the bytes on the path from the gate node
(inclusive) to the current position, which are the last bytes of `current_key`,
the contributions of the stack from the gate frame on and, on a well-formed
tree, the bytes from the gate to the leaf the iterator stands on; and every row
id a pass through the `switch` appends there is decoded from these bytes
followed by the bytes of the leaf, 8 in all. -/
theorem row_id_staging (root : Node) (hroot : root.keyTree = true) :
    (∀ i ∈ FindMinimum.writes root Iterator.fresh, inBuffer i) ∧
    (∀ key equal, ∀ i ∈ LowerBound.writes root Iterator.fresh key equal 0, inBuffer i) ∧
    ∀ it, Reachable root it →
      it.row_id.length = 8 ∧
      (∀ i ∈ Next.writes it.nodes it, inBuffer i) ∧
      (∀ i ∈ Scan.emit.writes it, inBuffer i) ∧
      (it.inside_gate = true →
        it.nested_depth ≤ 8 ∧
        it.row_id.take it.nested_depth = gateBytes it.nodes ∧
        (∃ above g below, it.nodes = above ++ g :: below ∧ g.node.IsGate = true ∧
          hasGate above = false ∧ gateBytes it.nodes = base (above ++ [g]) ∧
          it.current_key = base below ++ gateBytes it.nodes) ∧
        (root.WF = true → ∃ x ∈ root.leaves, x.node = it.last_leaf ∧
          x.sub = gateBytes it.nodes ∧ x.key ++ x.sub = it.current_key) ∧
        (∀ t ∈ it.last_leaf.tails, (gateBytes it.nodes ++ t).length = 8) ∧
        ∀ (m : Nat) (a : List Int) (it1 : Iterator) (out : List Int),
          (Scan.emit it m a = .next it1 out ∨ ∃ r, Scan.emit it m a = .ret r it1 out) →
          ∃ tails : List Bytes, (∀ t ∈ tails, t ∈ it.last_leaf.tails) ∧
            out = a ++ tails.map (fun t => GetRowID (gateBytes it.nodes ++ t))) := by
  have hS : Staged Iterator.fresh :=
    ⟨rfl, rfl, rfl, by simp [Iterator.fresh, gateBytes], fun h => by simp [Iterator.fresh] at h⟩
  have hready : StagedReady root Iterator.fresh := ⟨hS, hroot⟩
  have hfresh : StagedLeaf Iterator.fresh := ⟨hS, fun h => by simp [Iterator.fresh] at h⟩
  have hslack : Slack Iterator.fresh := fun bs h => by simp [Iterator.fresh] at h
  refine ⟨FindMinimum_writes_bound root _ hready,
    fun key equal => LowerBound_writes_bound root _ key equal 0 hready rfl, ?_⟩
  intro it hr
  have hLS := Reachable_inv Slack_preserved root ⟨hready, hslack⟩ ⟨hfresh, hslack⟩ it hr
  have hL := hLS.1
  have hk := (Reachable_synced root it hr).1
  refine ⟨hL.1.len, Next_writes_bound it.nodes it rfl hL.1, emit_writes_bound hLS.2, ?_⟩
  intro hi
  obtain ⟨hd, htake⟩ := hL.1.stage hi
  obtain ⟨above, g, below, h1, h2, h3, h4, h5⟩ := gate_split it.nodes (by rw [← hL.1.flag]; exact hi)
  have hgate : hasGate it.nodes = true := by rw [← hL.1.flag]; exact hi
  refine ⟨by rw [hd]; exact hL.1.bound, htake,
    ⟨above, g, below, h1, h2, h3, h4, by rw [hk]; exact h5⟩, ?_,
    (emit_rows hL hi).1, (emit_rows hL hi).2⟩
  intro hwf
  have hLf := Reachable_inv (Leafed_preserved root) root ⟨hwf, trivial, fun y hy => hy⟩
    ⟨trivial, Or.inl rfl⟩ it hr
  rcases hLf.2 with hn | hx
  · rw [hn] at hgate; cases hgate
  · refine ⟨_, hx, lift_node _ _, ?_, ?_⟩
    · rw [lift_sub_inside _ _ (depthStack_oneGate _ hL.1.stack) hgate]; simp
    · have := lift_path it.nodes { key := [], sub := [], node := it.last_leaf }
      simp only [LeafPos.path, List.append_nil] at this
      rw [this, hk]

/-- C15 on the tree with the key `04` and the row ids 5 and 263 below a gate: on
its second leaf, and in the state the next call of `Next` leaves, outside the
gate with `nested_depth` as the gate left it, where the `switch` of `Scan` writes
the byte of the retained inlined prefix at `row_id[6]`. -/
theorem row_id_staging_witness :
    inlinedTree.keyTree = true ∧ Reachable inlinedTree (nextOf inlinedStart) ∧
    (nextOf inlinedStart).inside_gate = true ∧ (nextOf inlinedStart).nested_depth = 7 ∧
    gateBytes (nextOf inlinedStart).nodes = [0, 0, 0, 0, 0, 0, 1] ∧
    (nextOf inlinedStart).row_id.take (nextOf inlinedStart).nested_depth =
      gateBytes (nextOf inlinedStart).nodes ∧
    Scan.emit (nextOf inlinedStart) 1 [] =
      .next { nextOf inlinedStart with row_id := [0, 0, 0, 0, 0, 0, 1, 7] } [263] ∧
    (nextOf (nextOf inlinedStart)).inside_gate = false ∧
    Scan.emit.writes (nextOf (nextOf inlinedStart)) = [6] ∧
    ∀ i ∈ Scan.emit.writes (nextOf (nextOf inlinedStart)), inBuffer i :=
  ⟨rfl, inlinedNext_reachable, rfl, rfl, rfl,
    (((row_id_staging inlinedTree rfl).2.2 (nextOf inlinedStart) inlinedNext_reachable).2.2.2
      rfl).2.1,
    rfl, rfl, rfl,
    ((row_id_staging inlinedTree rfl).2.2 (nextOf (nextOf inlinedStart))
      (@Reachable.next inlinedTree (nextOf inlinedStart) false (nextOf (nextOf inlinedStart))
        inlinedNext_reachable rfl)).2.2.1⟩

/-! ## The row ids of a scan -/

/-- The loop over a byte-set leaf with ascending bytes, from `byte` on: it
appends the row ids of the bytes `≥ byte`, in their order, as many as fit under
the cap, and returns false exactly when they do not all fit. -/
theorem byteLoop_spec (bytes : List Nat) (hasc : ascending bytes = true) (m : Nat) :
    ∀ (fuel byte : Nat) (row_id : List Nat) (out : List Int), byte ≤ 255 → 256 < fuel + byte →
      Scan.byteLoop bytes m fuel byte row_id out =
        some (decide ((bytes.filter (fun x => decide (byte ≤ x))).length ≤ m - out.length),
          stageLast row_id ((bytes.filter (fun x => decide (byte ≤ x))).take (m - out.length)),
          out ++ ((bytes.filter (fun x => decide (byte ≤ x))).take (m - out.length)).map
            (fun b => GetRowID (row_id.set 7 b))) := by
  intro fuel
  induction fuel with
  | zero => intro byte row_id out h1 h2; omega
  | succ fuel ih =>
    intro byte row_id out h1 h2
    rw [Scan.byteLoop, GetNextByte_eq_head]
    cases hF : bytes.filter (fun x => decide (byte ≤ x)) with
    | nil => simp [stageLast]
    | cons b F =>
      obtain ⟨e1, e2, e3⟩ := filter_ge_next hasc hF
      simp only [List.head?_cons, List.length_cons]
      by_cases hcap : out.length + 1 > m
      · have h0 : m - out.length = 0 := by omega
        simp [hcap, h0, stageLast]
      · obtain ⟨k, hk⟩ : ∃ k, m - out.length = k + 1 := ⟨m - out.length - 1, by omega⟩
        simp only [hcap, if_false, hk, List.take_succ_cons, List.map_cons, stageLast_cons]
        by_cases h255 : b = 255
        · have hFnil := e3 h255
          subst hFnil
          simp [h255, stageLast]
        · have hb : byte ≤ b := by
            have hm : b ∈ bytes.filter (fun y => decide (byte ≤ y)) := by
              rw [hF]; exact List.mem_cons_self _ _
            simpa using (List.mem_filter.mp hm).2
          simp only [h255, if_false]
          rw [Nat.mod_eq_of_lt (by omega),
            ih (b + 1) (row_id.set 7 b) (out ++ [GetRowID (row_id.set 7 b)]) (by omega) (by omega),
            e1]
          have hk1 : m - (out ++ [GetRowID (row_id.set 7 b)]).length = k := by
            simp only [List.length_append, List.length_singleton]
            omega
          rw [hk1]
          simp [List.set_set]

theorem Diverge_lt {a b : Bytes} (h : Diverge a b) : LexLt a b := by
  obtain ⟨p, u, v, s, t, rfl, rfl, huv⟩ := h
  exact LexLt_diverge p s t huv

theorem Diverge_append_left (p : Bytes) {a b : Bytes} (h : Diverge a b) :
    Diverge (p ++ a) (p ++ b) := by
  obtain ⟨q, u, v, s, t, rfl, rfl, huv⟩ := h
  exact ⟨p ++ q, u, v, s, t, by simp, by simp, huv⟩

theorem Diverge_append_right {a b : Bytes} (t1 t2 : Bytes) (h : Diverge a b) :
    Diverge (a ++ t1) (b ++ t2) := by
  obtain ⟨q, u, v, s, t, rfl, rfl, huv⟩ := h
  exact ⟨q, u, v, s ++ t1, t ++ t2, by simp, by simp, huv⟩

theorem Diverge_cancel_left (p : Bytes) {a b : Bytes} (h : Diverge (p ++ a) (p ++ b)) :
    Diverge a b := by
  induction p with
  | nil => exact h
  | cons x p ih =>
    apply ih
    obtain ⟨q, u, v, s, t, h1, h2, huv⟩ := h
    cases q with
    | nil =>
      simp only [List.nil_append, List.cons_append, List.cons.injEq] at h1 h2
      omega
    | cons y q =>
      simp only [List.cons_append, List.cons.injEq] at h1 h2
      exact ⟨q, u, v, s, t, h1.2, h2.2, huv⟩

theorem leavesOf_path_head {g : Bool} {cs : List (Nat × Node)} {x : LeafPos}
    (hx : x ∈ Node.leavesOf g cs) : ∃ b k, b ∈ cs.map Prod.fst ∧ x.path = b :: k := by
  induction cs with
  | nil => simp [Node.leavesOf] at hx
  | cons a rest ih =>
    obtain ⟨b, c⟩ := a
    simp only [Node.leavesOf, List.mem_append, List.mem_map] at hx
    rcases hx with ⟨y, _, rfl⟩ | hx
    · exact ⟨b, y.path, by simp, by simp⟩
    · obtain ⟨b1, k, h1, h2⟩ := ih hx
      exact ⟨b1, k, by simp only [List.map_cons, List.mem_cons]; exact Or.inr h1, h2⟩

/-- The byte paths of the leaves of a well-formed tree part from one another,
each from the later ones with the smaller byte. -/
theorem leaves_diverge (n : Node) (hn : n.WF = true) :
    n.leaves.Pairwise (fun x y => Diverge x.path y.path) := by
  induction n using Node.induction with
  | h0 => simp [Node.leaves]
  | h1 r => simp [Node.leaves]
  | h2 r => simp [Node.leaves]
  | h3 k bs => simp [Node.leaves]
  | h4 bs => simp [Node.leaves]
  | h5 g bytes c ih =>
    have hc : c.WF = true := by simpa [Node.WF] using hn
    simp only [Node.leaves]
    rw [List.pairwise_map]
    refine (ih hc).imp ?_
    intro x y h
    simp only [extend_path]
    exact Diverge_append_left bytes h
  | h6 k g cs ih =>
    simp only [Node.WF, Bool.and_eq_true] at hn
    obtain ⟨⟨_, hasc⟩, hwfs⟩ := hn
    simp only [Node.leaves]
    clear * - ih hasc hwfs
    induction cs with
    | nil => simp [Node.leavesOf]
    | cons a rest ihr =>
      obtain ⟨b, c⟩ := a
      have hasc1 := ascending_cons (by simpa using hasc : ascending (b :: rest.map Prod.fst) = true)
      simp only [Node.WFs, Bool.and_eq_true] at hwfs
      have h1 := ih (b, c) (List.mem_cons_self _ _) hwfs.1
      have h2 := ihr (fun x hx => ih x (List.mem_cons_of_mem _ hx)) hwfs.2 hasc1.2.2
      simp only [Node.leavesOf]
      rw [List.pairwise_append]
      refine ⟨?_, h2, ?_⟩
      · rw [List.pairwise_map]
        refine h1.imp ?_
        intro x y h
        simp only [extend_path]
        exact Diverge_append_left [b] h
      · intro p hp q hq
        simp only [List.mem_map] at hp
        obtain ⟨x, _, rfl⟩ := hp
        obtain ⟨b1, k1, hb1, hq1⟩ := leavesOf_path_head hq
        rw [hq1]
        simp only [extend_path, List.singleton_append]
        exact ⟨[], b, b1, x.path, k1, rfl, rfl, hasc1.2.1 b1 hb1⟩

theorem spelled_extend {d : Nat} {bytes : Bytes} {y : LeafPos}
    (h : LeafPos.spelled (d + bytes.length) y) : LeafPos.spelled d (y.extend false bytes) := by
  unfold LeafPos.spelled at h ⊢
  rw [extend_node, extend_path]
  cases hn : y.node <;> simp only [hn] at h ⊢ <;> first | exact h | (simp only [List.length_append]; omega)

theorem spells_leaves (n : Node) : ∀ d, n.spells d = true → ∀ y ∈ n.leaves, y.spelled d := by
  induction n using Node.induction with
  | h0 => intro d h; simp [Node.spells] at h
  | h1 r => intro d h; simp [Node.spells] at h
  | h2 r => intro d h; simp [Node.spells] at h
  | h3 k bs =>
    intro d h y hy
    simp only [Node.spells, decide_eq_true_eq] at h
    simp only [Node.leaves, List.mem_singleton] at hy
    subst hy
    simp [LeafPos.spelled, LeafPos.path, h]
  | h4 bs =>
    intro d h y hy
    simp only [Node.spells, decide_eq_true_eq] at h
    simp only [Node.leaves, List.mem_singleton] at hy
    subst hy
    simp [LeafPos.spelled, LeafPos.path, h]
  | h5 g bytes c ih =>
    intro d h y hy
    simp only [Node.spells, Bool.and_eq_true, Bool.not_eq_true', decide_eq_true_eq] at h
    obtain ⟨⟨hg, _⟩, hc⟩ := h
    subst hg
    simp only [Node.leaves, List.mem_map] at hy
    obtain ⟨z, hz, rfl⟩ := hy
    exact spelled_extend (ih _ hc z hz)
  | h6 k g cs ih =>
    intro d h y hy
    simp only [Node.spells, Bool.and_eq_true, Bool.not_eq_true', decide_eq_true_eq] at h
    obtain ⟨⟨hg, _⟩, hc⟩ := h
    subst hg
    simp only [Node.leaves] at hy
    clear * - ih hc hy
    induction cs with
    | nil => simp [Node.leavesOf] at hy
    | cons a rest ihr =>
      obtain ⟨b, c⟩ := a
      simp only [Node.spellsOf, Bool.and_eq_true] at hc
      simp only [Node.leavesOf, List.mem_append, List.mem_map] at hy
      rcases hy with ⟨z, hz, rfl⟩ | hy
      · exact @spelled_extend d [b] z (ih (b, c) (List.mem_cons_self _ _) _ hc.1 z hz)
      · exact ihr (fun x hx => ih x (List.mem_cons_of_mem _ hx)) hc.2 hy

theorem kindOK_gate {d : Nat} {bytes : Bytes} {y : LeafPos} (hd : bytes.length = d)
    (h : LeafPos.spelled d y) : LeafPos.kindOK (y.extend true bytes) := by
  unfold LeafPos.spelled at h
  unfold LeafPos.kindOK
  rw [extend_node]
  cases hn : y.node <;> simp only [hn] at h ⊢ <;>
    first
    | exact h.elim
    | (simp only [LeafPos.extend, if_true, List.length_append, LeafPos.path] at h ⊢; omega)

theorem kindOK_extend {bytes : Bytes} {y : LeafPos} (h : LeafPos.kindOK y) :
    LeafPos.kindOK (y.extend false bytes) := by
  unfold LeafPos.kindOK at h ⊢
  rw [extend_node]
  cases hn : y.node <;> simp only [hn] at h ⊢ <;>
    first
    | exact h.elim
    | (simpa [LeafPos.extend] using h)

/-- The leaves of a tree of keys with its row ids below gates are of the kind
their place asks for. -/
theorem keyTree_leaves (n : Node) : n.keyTree = true → ∀ x ∈ n.leaves, x.kindOK := by
  induction n using Node.induction with
  | h0 => intro _ x hx; simp [Node.leaves] at hx
  | h1 r =>
    intro _ x hx
    simp only [Node.leaves, List.mem_singleton] at hx
    subst hx; simp [LeafPos.kindOK]
  | h2 r =>
    intro _ x hx
    simp only [Node.leaves, List.mem_singleton] at hx
    subst hx; simp [LeafPos.kindOK]
  | h3 k bs => intro h; simp [Node.keyTree] at h
  | h4 bs => intro h; simp [Node.keyTree] at h
  | h5 g bytes c ih =>
    intro h x hx
    simp only [Node.leaves, List.mem_map] at hx
    obtain ⟨z, hz, rfl⟩ := hx
    cases g with
    | true =>
      simp only [Node.keyTree, if_true, Bool.and_eq_true, decide_eq_true_eq] at h
      exact kindOK_gate rfl (spells_leaves c _ h.2 z hz)
    | false =>
      simp only [Node.keyTree, Bool.false_eq_true, if_false] at h
      exact kindOK_extend (ih h z hz)
  | h6 k g cs ih =>
    intro h x hx
    simp only [Node.leaves] at hx
    cases g with
    | true =>
      simp only [Node.keyTree, if_true] at h
      clear * - h hx
      induction cs with
      | nil => simp [Node.leavesOf] at hx
      | cons a rest ihr =>
        obtain ⟨b, c⟩ := a
        simp only [Node.spellsOf, Bool.and_eq_true] at h
        simp only [Node.leavesOf, List.mem_append, List.mem_map] at hx
        rcases hx with ⟨z, hz, rfl⟩ | hx
        · exact @kindOK_gate 1 [b] z rfl (spells_leaves c _ h.1 z hz)
        · exact ihr hx h.2
    | false =>
      simp only [Node.keyTree, Bool.false_eq_true, if_false] at h
      clear * - ih h hx
      induction cs with
      | nil => simp [Node.leavesOf] at hx
      | cons a rest ihr =>
        obtain ⟨b, c⟩ := a
        simp only [Node.keyTreeOf, Bool.and_eq_true] at h
        simp only [Node.leavesOf, List.mem_append, List.mem_map] at hx
        rcases hx with ⟨z, hz, rfl⟩ | hx
        · exact kindOK_extend (ih (b, c) (List.mem_cons_self _ _) h.1 z hz)
        · exact ihr (fun x hx => ih x (List.mem_cons_of_mem _ hx)) hx h.2

/-- The leaf nodes of a well-formed tree are well-formed. -/
theorem leaves_node_wf (n : Node) : n.WF = true → ∀ x ∈ n.leaves, x.node.WF = true := by
  induction n using Node.induction with
  | h0 => intro _ x hx; simp [Node.leaves] at hx
  | h1 r => intro h x hx; simp only [Node.leaves, List.mem_singleton] at hx; subst hx; exact h
  | h2 r => intro h x hx; simp only [Node.leaves, List.mem_singleton] at hx; subst hx; exact h
  | h3 k bs => intro h x hx; simp only [Node.leaves, List.mem_singleton] at hx; subst hx; exact h
  | h4 bs => intro h x hx; simp only [Node.leaves, List.mem_singleton] at hx; subst hx; exact h
  | h5 g bytes c ih =>
    intro h x hx
    simp only [Node.leaves, List.mem_map] at hx
    obtain ⟨z, hz, rfl⟩ := hx
    rw [extend_node]
    exact ih (by simpa [Node.WF] using h) z hz
  | h6 k g cs ih =>
    intro h x hx
    simp only [Node.WF, Bool.and_eq_true] at h
    obtain ⟨_, hwfs⟩ := h
    simp only [Node.leaves] at hx
    clear * - ih hwfs hx
    induction cs with
    | nil => simp [Node.leavesOf] at hx
    | cons a rest ihr =>
      obtain ⟨b, c⟩ := a
      simp only [Node.WFs, Bool.and_eq_true] at hwfs
      simp only [Node.leavesOf, List.mem_append, List.mem_map] at hx
      rcases hx with ⟨z, hz, rfl⟩ | hx
      · rw [extend_node]; exact ih (b, c) (List.mem_cons_self _ _) hwfs.1 z hz
      · exact ihr (fun x hx => ih x (List.mem_cons_of_mem _ hx)) hx hwfs.2

theorem entries_key {x : LeafPos} {e : Bytes × Bytes × Int} (he : e ∈ x.entries) :
    e.1 = x.key := by
  unfold LeafPos.entries at he
  cases hn : x.node <;> simp only [hn] at he <;> simp at he
  · rw [he]
  · obtain ⟨_, _, rfl⟩ := he; rfl
  · obtain ⟨_, _, rfl⟩ := he; rfl
  · rw [he]

theorem entries_bytes {x : LeafPos} (hk : x.kindOK) {e : Bytes × Bytes × Int}
    (he : e ∈ x.entries) : (x.sub = [] ∧ e.2.1 = []) ∨ (∃ t, e.2.1 = x.sub ++ t) := by
  unfold LeafPos.entries at he
  unfold LeafPos.kindOK at hk
  cases hn : x.node <;> simp only [hn] at he hk <;> simp at he
  · left; rw [he]; exact ⟨hk, rfl⟩
  · left; obtain ⟨_, _, rfl⟩ := he; exact ⟨hk, rfl⟩
  · right; obtain ⟨b, _, rfl⟩ := he; exact ⟨[b], rfl⟩
  · right; rw [he]; exact ⟨_, rfl⟩

theorem entries_pairwise {x : LeafPos} (hw : x.node.WF = true) :
    x.entries.Pairwise entryBefore := by
  unfold LeafPos.entries
  cases hn : x.node with
  | leafInlined r => simp
  | leaf rs =>
    simp only
    rw [List.pairwise_map]
    exact pairwise_of_all (fun a _ b _ => Or.inr ⟨rfl, Or.inl ⟨rfl, rfl⟩⟩)
  | byteLeaf k bs =>
    simp only
    rw [hn] at hw
    rw [List.pairwise_map]
    refine (ascending_pairwise (by simpa [Node.WF] using hw)).imp ?_
    intro a b hab
    exact Or.inr ⟨rfl, Or.inr (LexLt_append_left x.sub (List.Lex.rel hab))⟩
  | prefixInlined bs => simp
  | empty => simp
  | pfx g bytes c => simp
  | inner k g cs => simp

/-- The row ids of a well-formed tree of keys with its row ids below gates are
in ascending key order, with ascending row-id byte order inside a gate. -/
theorem entries_sorted (n : Node) (hn : n.WF = true) (hk : n.keyTree = true) :
    (entriesFrom n.leaves).Pairwise entryBefore := by
  unfold entriesFrom
  rw [List.pairwise_flatten]
  constructor
  · intro l hl
    simp only [List.mem_map] at hl
    obtain ⟨x, hx, rfl⟩ := hl
    exact entries_pairwise (leaves_node_wf n hn x hx)
  · rw [List.pairwise_map]
    refine List.Pairwise.imp_of_mem ?_ ((leaves_key_sorted n hn).and (leaves_diverge n hn))
    intro x y hx hy hxy e1 he1 e2 he2
    obtain ⟨hkey, hdiv⟩ := hxy
    rw [show entryBefore e1 e2 = (LexLt e1.1 e2.1 ∨
      (e1.1 = e2.1 ∧ ((e1.2.1 = [] ∧ e2.2.1 = []) ∨ LexLt e1.2.1 e2.2.1))) from rfl,
      entries_key he1, entries_key he2]
    rcases hkey with hkey | hkey
    · right
      refine ⟨hkey, Or.inr ?_⟩
      simp only [LeafPos.path, hkey] at hdiv
      have hsub := Diverge_cancel_left y.key hdiv
      have hx0 : x.sub ≠ [] := by
        obtain ⟨p, u, v, s, t, h1, _, _⟩ := hsub
        rw [h1]; simp
      have hy0 : y.sub ≠ [] := by
        obtain ⟨p, u, v, s, t, _, h2, _⟩ := hsub
        rw [h2]; simp
      rcases entries_bytes (keyTree_leaves n hk x hx) he1 with ⟨h0, _⟩ | ⟨t1, ht1⟩
      · exact absurd h0 hx0
      · rcases entries_bytes (keyTree_leaves n hk y hy) he2 with ⟨h0, _⟩ | ⟨t2, ht2⟩
        · exact absurd h0 hy0
        · rw [ht1, ht2]
          exact Diverge_lt (Diverge_append_right t1 t2 hsub)
    · exact Or.inl hkey

theorem Fitted_preserved (root : Node) :
    Preserved (fun it => Staged it ∧ PosMid root it) (Fitted root)
      (fun n it => StagedReady n it ∧ PosReady root n it) where
  ready_mid := fun n it h => ⟨h.1.1, (Pos_preserved root).ready_mid n it h.2⟩
  inv_mid := fun it h => ⟨h.1.1, (Pos_preserved root).inv_mid it h.2.1⟩
  push_pfx := fun bytes c it h hg =>
    ⟨Staged_preserved.push_pfx bytes c it h.1 hg, (Pos_preserved root).push_pfx bytes c it h.2 hg⟩
  push_inner := fun k cs b c it h hg hmem =>
    ⟨Staged_preserved.push_inner k cs b c it h.1 hg hmem,
      (Pos_preserved root).push_inner k cs b c it h.2 hg hmem⟩
  findMinimum := fun n it it1 h hf =>
    ⟨Staged_preserved.findMinimum n it it1 h.1 hf, (Pos_preserved root).findMinimum n it it1 h.2 hf,
      fun _ => FindMinimum_leaf_fit n it it1 h.1 hf⟩
  popNode := fun it h => ⟨Staged_popNode h.1, (Pos_preserved root).popNode it h.2⟩
  replaceTop := fun it top rest k g cs b c h hn hnode hlt hmem =>
    ⟨Staged_preserved.replaceTop it top rest k g cs b c h.1 hn hnode hlt hmem,
      (Pos_preserved root).replaceTop it top rest k g cs b c h.2 hn hnode hlt hmem⟩
  exhausted := fun it h hn =>
    ⟨Staged_preserved.exhausted it h.1 hn, (Pos_preserved root).exhausted it h.2 hn,
      fun hne => absurd hn hne⟩
  empty := fun it h => by
    have := h.2.1
    simp [Node.WF] at this
  emit := by
    intro it m a it1 out h he
    refine ⟨Staged_preserved.emit it m a it1 out h.1 he,
      (Pos_preserved root).emit it m a it1 out h.2.1 he, ?_⟩
    obtain ⟨rid, h1⟩ := emit_state it m a it1 out he
    rw [h1]
    exact h.2.2

theorem Reachable_fitted (root : Node) (hwf : root.WF = true) (hkt : root.keyTree = true)
    (it : Iterator) (h : Reachable root it) : Fitted root it := by
  have hS : Staged Iterator.fresh :=
    ⟨rfl, rfl, rfl, by simp [Iterator.fresh, gateBytes], fun h => by simp [Iterator.fresh] at h⟩
  have hready : PosReady root root Iterator.fresh := by
    refine ⟨hwf, (by intro f hf; cases hf), rfl, ?_⟩
    have : root.paths.map (under Iterator.fresh.current_key) = root.paths := by
      conv_rhs => rw [← List.map_id root.paths]
      apply List.map_congr_left
      intro x _
      simp [under, Iterator.fresh]
    rw [this]
    simp [pending, Iterator.fresh]
  exact Reachable_inv (Fitted_preserved root) root ⟨⟨hS, hkt⟩, hready⟩
    ⟨⟨hS, fun h => by simp [Iterator.fresh] at h⟩, Or.inl ⟨rfl, rfl⟩,
      fun hne => absurd rfl hne⟩ it h

theorem FindMinimum_nodes_ne (n : Node) (it it1 : Iterator) (hne : it.nodes ≠ [])
    (hf : FindMinimum n it = .ok it1) : it1.nodes ≠ [] := by
  refine @FindMinimum_induct (fun _ it => it.nodes ≠ []) (fun it1 => it1.nodes ≠ [])
    ?_ ?_ ?_ n it it1 hne hf
  · intro n it _ h; exact h
  · intro g bytes c it _; simp
  · intro k g cs b c it _ _; simp

theorem Next_go_nodes : ∀ (s : List StackFrame) (it it1 : Iterator),
    Next.go s it = .ok (true, it1) → it1.nodes ≠ [] := by
  intro s
  induction s with
  | nil => intro it it1 h; simp [Next.go] at h
  | cons top rest ih =>
    intro it it1 h
    rw [Next.go] at h
    split at h
    · exact ih _ _ h
    · split at h
      · exact ih _ _ h
      · cases hc : top.node.GetNextChild (top.byte + 1) with
        | error e => rw [hc] at h; simp at h
        | ok o =>
          rw [hc] at h
          cases o with
          | none => exact ih _ _ h
          | some p =>
            obtain ⟨b, c⟩ := p
            simp only at h
            cases hf : FindMinimum c (replaceTop it top rest b) with
            | error e => rw [hf] at h; simp at h
            | ok it2 =>
              rw [hf] at h
              simp only [Except.ok.injEq, Prod.mk.injEq, true_and] at h
              subst h
              exact FindMinimum_nodes_ne c _ _ (by simp [replaceTop]) hf

theorem suffix_map {α β : Type} (f : α → β) {l : List β} {L : List α}
    (h : l <:+ L.map f) : ∃ L1, L1 <:+ L ∧ L1.map f = l := by
  obtain ⟨pre, hp⟩ := h
  obtain ⟨l1, l2, h1, _, h3⟩ := List.map_eq_append_iff.mp hp.symm
  exact ⟨l2, ⟨l1, h1.symm⟩, h3⟩

/-- A reachable iterator with a non-empty stack stands on a leaf of the tree,
with the leaves after it left to visit. -/
theorem Reachable_positioned (root : Node) (hwf : root.WF = true) (hkt : root.keyTree = true)
    (it : Iterator) (h : Reachable root it) (hne : it.nodes ≠ []) :
    ∃ x rest, (x :: rest) <:+ root.leaves ∧
      At it (x.pos []) (rest.map (LeafPos.pos [])) := by
  rcases (Reachable_fitted root hwf hkt it h).2.1 with ⟨hn, _⟩ | ⟨hd, pend, hA, hsuf⟩
  · exact absurd hn hne
  · rw [paths_eq_leaves] at hsuf
    obtain ⟨L1, hL1, hm⟩ := suffix_map _ hsuf
    cases L1 with
    | nil => simp at hm
    | cons x rest =>
      simp only [List.map_cons, List.cons.injEq] at hm
      refine ⟨x, rest, hL1, ?_⟩
      rw [hm.1, hm.2]
      exact hA

theorem sub_eq_gateBytes (root : Node) (it : Iterator) (h : Reachable root it)
    (hS : Staged it) (hi : it.inside_gate = true) (x : LeafPos) (hk : it.current_key = x.path)
    (hlen : x.sub.length = (gateBytes it.nodes).length) : x.sub = gateBytes it.nodes := by
  obtain ⟨above, g, below, _, _, _, _, h5⟩ := gate_split it.nodes (by rw [← hS.flag]; exact hi)
  have hsync := (Reachable_synced root it h).1
  rw [hsync, h5] at hk
  simp only [LeafPos.path] at hk
  exact (List.append_inj_right' hk hlen.symm).symm

/-- A pass through the `switch` of `Scan` on a leaf of the tree: it appends the
row ids of the leaf and goes on, or it returns false with the first of them
appended. -/
theorem emit_at (root : Node) (hwf : root.WF = true) (hkt : root.keyTree = true)
    (it : Iterator) (hr : Reachable root it) (hne : it.nodes ≠ []) (x : LeafPos)
    (hx : x ∈ root.leaves) (hl : it.last_leaf = x.node) (hk : it.current_key = x.path)
    (m : Nat) (a : List Int) :
    ∃ it1 k, (Scan.emit it m a = .next it1 (a ++ x.rows) ∨
        Scan.emit it m a = .ret false it1 (a ++ x.rows.take k)) ∧
      it1.last_leaf = it.last_leaf ∧ it1.current_key = it.current_key ∧
      it1.nodes = it.nodes := by
  obtain ⟨hSL, _, hfit⟩ := Reachable_fitted root hwf hkt it hr
  have hfit := hfit hne
  have hkind := keyTree_leaves root hkt x hx
  have hnw := leaves_node_wf root hwf x hx
  unfold LeafPos.kindOK at hkind
  have hin : ∀ k bs, (x.node = .byteLeaf k bs ∨ x.node = .prefixInlined bs) →
      it.inside_gate = true := by
    intro k bs hn
    cases hi : it.inside_gate with
    | true => rfl
    | false =>
      rw [hi, depthFit, hl] at hfit
      rcases hn with hn | hn <;> rw [hn] at hfit <;> simp [Node.keyTree] at hfit
  cases hn : x.node with
  | leafInlined r =>
    rw [hn] at hl
    unfold Scan.emit
    rw [hl]
    simp only [LeafPos.rows, hn]
    by_cases hc : a.length + 1 > m
    · exact ⟨it, 0, Or.inr (by simp [hc]), hl, rfl, rfl⟩
    · exact ⟨it, 0, Or.inl (by simp [hc]), hl, rfl, rfl⟩
  | leaf rs =>
    rw [hn] at hl
    unfold Scan.emit
    rw [hl]
    simp only [LeafPos.rows, hn, DeprecatedGetRowIds]
    by_cases hc : a.length + rs.length > m
    · exact ⟨it, 0, Or.inr (by simp [hc]), hl, rfl, rfl⟩
    · exact ⟨it, 0, Or.inl (by simp [hc]), hl, rfl, rfl⟩
  | byteLeaf kd bs =>
    have hi := hin kd bs (Or.inl hn)
    obtain ⟨hd, htake⟩ := hSL.1.stage hi
    have hsp := hSL.2 hi
    rw [hl, hn] at hsp
    simp only [Node.spells, decide_eq_true_eq] at hsp
    rw [hn] at hkind
    have hsub := sub_eq_gateBytes root it hr hSL.1 hi x hk (by rw [hkind, hsp])
    have hasc : ascending bs = true := by rw [hn] at hnw; simpa [Node.WF] using hnw
    have hall : bs.filter (fun x => decide (0 ≤ x)) = bs := by
      rw [List.filter_eq_self]; intro x _; simp
    have hspec := byteLoop_spec bs hasc m 257 0 it.row_id a (by omega) (by omega)
    rw [hall] at hspec
    have hrow : (fun b => GetRowID (it.row_id.set 7 b)) = (fun b => GetRowID (x.sub ++ [b])) := by
      funext b
      rw [set_last b hSL.1.len, hsub, ← htake, hd, hsp]
    rw [hrow] at hspec
    rw [hn] at hl
    unfold Scan.emit
    rw [hl]
    simp only [hspec, LeafPos.rows, hn]
    by_cases hc : bs.length ≤ m - a.length
    · refine ⟨{ it with row_id := stageLast it.row_id (bs.take (m - a.length)) }, 0,
        Or.inl ?_, hl, rfl, rfl⟩
      simp [hc, List.take_of_length_le hc, hl]
    · refine ⟨{ it with row_id := stageLast it.row_id (bs.take (m - a.length)) }, m - a.length,
        Or.inr ?_, hl, rfl, rfl⟩
      simp [hc, List.map_take, hl]
  | prefixInlined bs =>
    have hi := hin .n7 bs (Or.inr hn)
    obtain ⟨hd, htake⟩ := hSL.1.stage hi
    have hsp := hSL.2 hi
    rw [hl, hn] at hsp
    simp only [Node.spells, decide_eq_true_eq] at hsp
    rw [hn] at hkind
    have hsub := sub_eq_gateBytes root it hr hSL.1 hi x hk (by omega)
    have hcp := copyPrefix_eq bs it.nested_depth it.row_id (by rw [hSL.1.len, hd]; exact hsp)
    rw [htake, ← hsub] at hcp
    rw [hn] at hl
    unfold Scan.emit
    rw [hl]
    simp only [hcp, LeafPos.rows, hn]
    exact ⟨{ it with row_id := x.sub ++ bs }, 0, Or.inl (by simp [hl]), hl, rfl, rfl⟩
  | empty => rw [hn] at hkind; exact hkind.elim
  | pfx g bytes c => rw [hn] at hkind; exact hkind.elim
  | inner k g cs => rw [hn] at hkind; exact hkind.elim

theorem rowsFrom_cons (x : LeafPos) (rest : List LeafPos) :
    rowsFrom (x :: rest) = x.rows ++ rowsFrom rest := by
  simp [rowsFrom]

/-- `Scan` from a leaf of the tree on: it returns, and what it has appended to
the output vector are the first row ids of the leaves from that leaf on, in
their order. -/
theorem Scan_prefix (root : Node) (hwf : root.WF = true) (hkt : root.keyTree = true)
    (ub : Bytes) (eq : Bool) (m : Nat) :
    ∀ (fuel : Nat) (it : Iterator) (x : LeafPos) (rest : List LeafPos) (a : List Int),
      Reachable root it → it.nodes ≠ [] →
      At it (x.pos []) (rest.map (LeafPos.pos [])) → (x :: rest) <:+ root.leaves →
      rest.length < fuel →
      ∃ flag it1 n, Scan fuel it ub m a eq =
        some (.ok (flag, it1, a ++ (rowsFrom (x :: rest)).take n)) := by
  intro fuel
  induction fuel with
  | zero => intro it x rest a _ _ _ _ h; omega
  | succ fuel ih =>
    intro it x rest a hr hne hA hsuf hlen
    cases hT : (!ub.isEmpty && !it.inside_gate && GreaterThan it.current_key ub eq) with
    | true =>
      rw [Scan_succ_of_bound hT]
      exact ⟨true, it, 0, by simp⟩
    | false =>
      rw [Scan_succ_of_emit hT]
      have hx : x ∈ root.leaves := hsuf.subset (List.mem_cons_self _ _)
      have hk : it.current_key = x.path := by simpa [LeafPos.pos] using hA.key
      obtain ⟨it1, k, he, e1, e2, e3⟩ := emit_at root hwf hkt it hr hne x hx hA.leaf hk m a
      rw [rowsFrom_cons]
      rcases he with he | he
      · rw [he]
        have hA1 : At it1 (x.pos []) (rest.map (LeafPos.pos [])) := At_congr hA e1 e2 e3
        have hr1 : Reachable root it1 := Reachable.emit hr he
        have hs := Next_spec it1 hA1.wf (by rw [hA1.key, hA1.sync])
        cases rest with
        | nil =>
          obtain ⟨it2, h1, _⟩ := hs.1 (by simpa using hA1.rest)
          refine ⟨true, it2, x.rows.length, ?_⟩
          simp [h1, rowsFrom]
        | cons y tl =>
          obtain ⟨it2, h1, h2⟩ := hs.2 (y.pos []) (tl.map (LeafPos.pos []))
            (by simpa using hA1.rest)
          have hr2 : Reachable root it2 := Reachable.next hr1 h1
          have hne2 : it2.nodes ≠ [] := Next_go_nodes it1.nodes it1 it2 h1
          obtain ⟨flag, it3, n, h3⟩ := ih it2 y tl (a ++ x.rows) hr2 hne2 h2
            (List.IsSuffix.trans (List.suffix_cons x _) hsuf) (by simpa using hlen)
          refine ⟨flag, it3, x.rows.length + n, ?_⟩
          simp only [h1, h3]
          rw [List.take_append, List.append_assoc]
      · rw [he]
        by_cases hkl : k ≤ x.rows.length
        · exact ⟨false, it1, k, by rw [List.take_append_of_le_length hkl]⟩
        · refine ⟨false, it1, x.rows.length, ?_⟩
          rw [List.take_append_of_le_length (le_refl _), List.take_length,
            List.take_of_length_le (by omega)]

theorem rows_eq_entries (x : LeafPos) : x.rows = x.entries.map (fun e => e.2.2) := by
  unfold LeafPos.rows LeafPos.entries
  cases x.node <;> simp [Function.comp_def]

theorem rowsFrom_eq_entries (xs : List LeafPos) :
    rowsFrom xs = (entriesFrom xs).map (fun e => e.2.2) := by
  induction xs with
  | nil => rfl
  | cons x rest ih =>
    rw [rowsFrom_cons, ih, rows_eq_entries]
    simp [entriesFrom]

theorem entriesFrom_append (l1 l2 : List LeafPos) :
    entriesFrom (l1 ++ l2) = entriesFrom l1 ++ entriesFrom l2 := by
  simp [entriesFrom]

theorem Reachable_pos (root : Node) (hroot : root.WF = true) (it : Iterator)
    (h : Reachable root it) : PosInv root it := by
  have hready : PosReady root root Iterator.fresh := by
    refine ⟨hroot, (by intro f hf; cases hf), rfl, ?_⟩
    have : root.paths.map (under Iterator.fresh.current_key) = root.paths := by
      conv_rhs => rw [← List.map_id root.paths]
      apply List.map_congr_left
      intro x _
      simp [under, Iterator.fresh]
    rw [this]
    simp [pending, Iterator.fresh]
  exact Reachable_inv (Pos_preserved root) root hready (Or.inl ⟨rfl, rfl⟩) it h

/-- C5. On a well-formed tree, whenever `Next` returns true in a reachable
state, the iterator stood on a leaf `x` of the tree and then stands on the leaf
`y` that follows `x` in the tree: `last_leaf` and `current_key` were the node
and the byte path (root to leaf) of `x` and are those of `y`, and the byte path
of `y` is strictly greater, in unsigned lexicographic order, than that of `x`
(and the key of `y` is not smaller than that of `x`).  Hence, on a tree with its
row ids below gates and in a reachable state with a non-empty stack, whose
`last_leaf` is a leaf `x` of the tree, a `Scan` returns, and the row ids it has
appended to the output vector are the first row ids of the leaves from `x` on,
in the order of the tree, which is the ascending order of the keys with, under
one key, the ascending order of the row-id bytes inside a gate. -/
theorem Next_ascending (root : Node) (hroot : root.WF = true) (it : Iterator)
    (h : Reachable root it) :
    (∀ it1, Next it = .ok (true, it1) →
      ∃ pre x y post, root.leaves = pre ++ x :: y :: post ∧
        it.last_leaf = x.node ∧ it.current_key = x.path ∧
        it1.last_leaf = y.node ∧ it1.current_key = y.path ∧
        LexLt x.path y.path ∧ keyLe x y) ∧
    (root.keyTree = true → it.nodes ≠ [] →
      ∃ x rest, (x :: rest) <:+ root.leaves ∧ it.last_leaf = x.node ∧
        it.current_key = x.path ∧
        (entriesFrom (x :: rest)).Pairwise entryBefore ∧
        ∀ (upper_bound : Bytes) (max_count : Nat) (row_ids : List Int) (equal : Bool)
          (fuel : Nat), rest.length < fuel →
          ∃ flag it1 n, Scan fuel it upper_bound max_count row_ids equal =
            some (.ok (flag, it1,
              row_ids ++ ((entriesFrom (x :: rest)).take n).map (fun e => e.2.2)))) := by
  constructor
  · intro it1 hN
    rcases Reachable_pos root hroot it h with ⟨hn, _⟩ | ⟨hd, pend, hA, hsuf⟩
    · rw [Next, hn] at hN
      simp [Next.go] at hN
    · have hs := Next_spec it hA.wf (by rw [hA.key, hA.sync])
      cases pend with
      | nil =>
        obtain ⟨it2, h1, _⟩ := hs.1 hA.rest
        rw [h1] at hN
        simp at hN
      | cons p tl =>
        obtain ⟨it2, h1, h2⟩ := hs.2 p tl hA.rest
        rw [h1] at hN
        simp only [Except.ok.injEq, Prod.mk.injEq, true_and] at hN
        subst hN
        rw [paths_eq_leaves] at hsuf
        obtain ⟨L1, ⟨pre, hpre⟩, hm⟩ := suffix_map _ hsuf
        cases L1 with
        | nil => simp at hm
        | cons x L2 =>
          cases L2 with
          | nil => simp at hm
          | cons y post =>
            simp only [List.map_cons, List.cons.injEq] at hm
            obtain ⟨hx, hy, _⟩ := hm
            have hps := leaves_path_sorted root hroot
            rw [List.pairwise_map, ← hpre, List.pairwise_append] at hps
            have hks := leaves_key_sorted root hroot
            rw [← hpre, List.pairwise_append] at hks
            refine ⟨pre, x, y, post, hpre.symm, ?_, ?_, ?_, ?_,
              (List.pairwise_cons.mp hps.2.1).1 y (List.mem_cons_self _ _),
              (List.pairwise_cons.mp hks.2.1).1 y (List.mem_cons_self _ _)⟩
            · rw [hA.leaf, ← hx]; rfl
            · rw [hA.key, ← hx]; simp [LeafPos.pos]
            · rw [h2.leaf, ← hy]; rfl
            · rw [h2.key, ← hy]; simp [LeafPos.pos]
  · intro hkt hne
    obtain ⟨x, rest, hsuf, hA⟩ := Reachable_positioned root hroot hkt it h hne
    refine ⟨x, rest, hsuf, hA.leaf, by simpa [LeafPos.pos] using hA.key, ?_, ?_⟩
    · have hall := entries_sorted root hroot hkt
      obtain ⟨pre, hpre⟩ := hsuf
      rw [← hpre, entriesFrom_append, List.pairwise_append] at hall
      exact hall.2.1
    · intro ub m a eq fuel hf
      obtain ⟨flag, it1, n, hS⟩ := Scan_prefix root hroot hkt ub eq m fuel it x rest a h hne hA
        hsuf hf
      refine ⟨flag, it1, n, ?_⟩
      rw [hS, rowsFrom_eq_entries, List.map_take]

/-- C5 on the example tree, after `FindMinimum(root)`: `Next` goes from the leaf
of key `01 02` to that of `01 03`, and a `Scan` without upper bound appends the
row ids of the four leaves in the order of the tree. -/
theorem Next_ascending_witness :
    demoTree.WF = true ∧ Reachable demoTree demoStart ∧ demoTree.keyTree = true ∧
    demoStart.nodes ≠ [] ∧
    Next demoStart = .ok (true, nextOf demoStart) ∧
    demoStart.current_key = [1, 2] ∧ (nextOf demoStart).current_key = [1, 3] ∧
    (∃ pre x y post, demoTree.leaves = pre ++ x :: y :: post ∧
        demoStart.last_leaf = x.node ∧ demoStart.current_key = x.path ∧
        (nextOf demoStart).last_leaf = y.node ∧ (nextOf demoStart).current_key = y.path ∧
        LexLt x.path y.path ∧ keyLe x y) ∧
    resultOf (Scan 4 demoStart [] 10 [] true) = some (true, [10, 20, 40, 100, 101, 102]) ∧
    (entriesFrom demoTree.leaves).map (fun e => e.2.2) = [10, 20, 40, 100, 101, 102] ∧
    ∃ x rest, (x :: rest) <:+ demoTree.leaves ∧ demoStart.last_leaf = x.node ∧
      demoStart.current_key = x.path ∧
      (entriesFrom (x :: rest)).Pairwise entryBefore ∧
      ∀ (upper_bound : Bytes) (max_count : Nat) (row_ids : List Int) (equal : Bool)
        (fuel : Nat), rest.length < fuel →
        ∃ flag it1 n, Scan fuel demoStart upper_bound max_count row_ids equal =
          some (.ok (flag, it1,
            row_ids ++ ((entriesFrom (x :: rest)).take n).map (fun e => e.2.2))) :=
  have hreach : Reachable demoTree demoStart := @Reachable.findMinimum demoTree demoStart rfl
  have hne : demoStart.nodes ≠ [] := List.ne_nil_of_length_pos (by decide)
  ⟨rfl, hreach, rfl, hne, rfl, rfl, rfl,
    (Next_ascending demoTree rfl demoStart hreach).1 (nextOf demoStart) rfl, rfl, rfl,
    (Next_ascending demoTree rfl demoStart hreach).2 rfl hne⟩

end ART
